import Mathlib

/-!
Verification of the dual-backend numeric array kernel in
mathics/builtin/numpy_utils.py.

The kernel ships two interchangeable implementations of one surface: an
accelerated one built on numpy (the if-branch of the module-level
`if _numpy:`) and a pure recursive fallback (the else-branch).  We give a
shallow embedding of both.

Python nested numeric arrays are embedded as the nested inductive `PyVal`:
a value is either a scalar or a python list of values.  Fallback functions
are translated clause by clause from the else-branch; where python would
raise (IndexError, TypeError, ValueError, failed assert) the embedding
returns `none` / `.error`.  Functions whose python originals recurse
through list comprehensions carry a leading fuel argument bounding the
recursion depth — an embedding artifact keeping every definition
computable by kernel reduction; python recursion is unbounded, so the
theorems below either hold for every fuel above the nesting depth (the
result does not depend on the fuel from there on) or assert the existence
of sufficient fuel.

numpy functions invoked by the accelerated branch are modelled on the same
nested representation, directed by the array shape, following numpy's
documented semantics on rectangular arrays (numpy arrays are rectangular
by construction).
-/

set_option maxHeartbeats 1600000

namespace NumpyUtils

/-- A python value as consumed by the kernel: a numeric scalar or a python
list of values.  Mirrors the `isinstance(x, list)` probing done by the
fallback backend. -/
inductive PyVal (α : Type) : Type where
  | scalar (x : α) : PyVal α
  | list (xs : List (PyVal α)) : PyVal α

/-- `isinstance(x, list)`. -/
def PyVal.isList {α : Type} : PyVal α → Bool
  | .scalar _ => false
  | .list _ => true

/-- `hasShapeS s v` : `v` is a rectangular array of shape `s` (a scalar has
shape `[]`, a list of length `n` whose members all have shape `s` has shape
`n :: s`). -/
def hasShapeS {α : Type} : List Nat → PyVal α → Bool
  | [], .scalar _ => true
  | n :: s, .list xs => xs.length == n && xs.all (fun t => hasShapeS s t)
  | _, _ => false

/-- All dimensions of a shape are positive: every nested sequence of an
array of this shape is non-empty. -/
def posShape (s : List Nat) : Bool := s.all (fun n => 0 < n)

/-- Sequence a list through an `Option`-valued function; `none` as soon as
one entry is `none`.  Models a python list comprehension whose body may
raise. -/
def mapO {α β : Type} (f : α → Option β) : List α → Option (List β)
  | [] => some []
  | x :: xs => (f x).bind (fun y => (mapO f xs).map (fun ys => y :: ys))

/-! ### The fallback backend (the `else` branch: no numpy available)

Each definition is a clause-by-clause translation of the corresponding
python function.  Functions that recurse through the nested structure take
a leading `fuel` argument — an embedding artifact bounding the recursion
depth, exhaustion giving `none`; python recursion is unbounded, so the
theorems below either carry a sufficient-fuel hypothesis (any fuel above
the nesting depth, which never changes the result) or assert the existence
of enough fuel. -/

/-- A scalar, or `none` — modelling python raising when a list appears
where a number is consumed. -/
def asScalarO {α : Type} : PyVal α → Option α
  | .scalar x => some x
  | .list _ => none

/-- A list, or `none` — modelling python raising when a number is indexed
or iterated. -/
def asListO {α : Type} : PyVal α → Option (List (PyVal α))
  | .list xs => some xs
  | .scalar _ => none

/-- `[[row[i] for row in rows] for i in range(n)]`: the first `n` columns
of `rows`; `none` as soon as some row is shorter than `n` (IndexError),
longer rows keep their extra entries unused. -/
def colsUpTo {γ : Type} : Nat → List (List γ) → Option (List (List γ))
  | 0, _ => some []
  | n + 1, rows => do
    let heads ← mapO List.head? rows
    let cols ← colsUpTo n (rows.map List.tail)
    pure (heads :: cols)

/-- python `zip(xs, *rest)` driving a binary consumer: walk all lists in
lockstep, stopping as soon as any of them (including `xs`) is exhausted. -/
def zipMinO {γ δ : Type} (g : γ → List γ → Option δ) :
    List γ → List (List γ) → Option (List δ)
  | [], _ => some []
  | x :: xs, restL =>
    if restL.any List.isEmpty then some []
    else do
      let heads ← mapO List.head? restL
      let y ← g x heads
      let ys ← zipMinO g xs (restL.map List.tail)
      pure (y :: ys)

/-- `_is_bottom(a)`: `any(not isinstance(x, list) for x in a)`. -/
def isBottom {α : Type} (xs : List (PyVal α)) : Bool :=
  xs.any (fun t => !t.isList)

/-- `_apply(f, a)`: apply `f` to every leaf; lists are rebuilt
elementwise. -/
def py_apply {α β : Type} (f : α → β) : Nat → PyVal α → Option (PyVal β)
  | 0, _ => none
  | _ + 1, .scalar x => some (.scalar (f x))
  | fuel + 1, .list xs => (mapO (py_apply f fuel) xs).map .list

/-- `vectorized(f, a, depth)`, fallback version: descend to the bottom
level; there apply `f` per element when `depth == 0`, else once to the
whole bottom list.  `_is_bottom` iterating a non-list raises, hence `none`
on a scalar argument. -/
def py_vectorized {α β : Type} (f : PyVal α → PyVal β) :
    Nat → PyVal α → Nat → Option (PyVal β)
  | 0, _, _ => none
  | _ + 1, .scalar _, _ => none
  | fuel + 1, .list xs, depth =>
    if isBottom xs then
      if depth = 0 then some (.list (xs.map f))
      else some (f (.list xs))
    else (mapO (fun x => py_vectorized f fuel x depth) xs).map .list

/-- Call trace of the fallback `vectorized`: the list of arguments `f` is
applied to, in order, read off the same recursion. -/
def py_vectorized_calls {α : Type} :
    Nat → PyVal α → Nat → Option (List (PyVal α))
  | 0, _, _ => none
  | _ + 1, .scalar _, _ => none
  | fuel + 1, .list xs, depth =>
    if isBottom xs then
      if depth = 0 then some xs
      else some [.list xs]
    else (mapO (fun x => py_vectorized_calls fuel x depth) xs).map List.flatten

/-- python `max()` over a sequence of naturals; raises (`none`) when the
sequence is empty. -/
def pyMax (l : List Nat) : Option Nat :=
  match l with
  | [] => none
  | x :: xs => some (xs.foldl max x)

/-- The helper `length` inside the fallback `unstack`:
`max(length(x) for x in b) if not _is_bottom(b) else len(b)`. -/
def py_len {α : Type} : Nat → PyVal α → Option Nat
  | 0, _ => none
  | _ + 1, .scalar _ => none
  | fuel + 1, .list xs =>
    if isBottom xs then some xs.length
    else (mapO (py_len fuel) xs).bind pyMax

/-- The helper `split` inside the fallback `unstack`:
`[split(x, i) for x in b] if not _is_bottom(b) else b[i]`. -/
def py_split {α : Type} : Nat → PyVal α → Nat → Option (PyVal α)
  | 0, _, _ => none
  | _ + 1, .scalar _, _ => none
  | fuel + 1, .list xs, i =>
    if isBottom xs then xs[i]?
    else (mapO (fun x => py_split fuel x i) xs).map .list

/-- `unstack(a)`, fallback version: empty input gives `[]`; otherwise one
`split` per index below the maximal bottom length. -/
def py_unstack {α : Type} (fuel : Nat) (a : List (PyVal α)) :
    Option (List (PyVal α)) :=
  if a.isEmpty then some []
  else do
    let n ← py_len fuel (.list a)
    mapO (fun i => py_split fuel (.list a) i) (List.range n)

/-- `stack(*a)`, fallback version: at the bottom (some argument is not a
list) return the argument tuple as a list (`list(chain(a))`); otherwise
stack the i-th components, `i` ranging over `len(a[0])`. -/
def py_stack {α : Type} : Nat → List (PyVal α) → Option (PyVal α)
  | 0, _ => none
  | fuel + 1, a =>
    if isBottom a then some (.list a)
    else
      match a with
      | [] => none
      | .scalar _ :: _ => none
      | .list first :: rest => do
        let rows ← mapO asListO (PyVal.list first :: rest)
        let cols ← colsUpTo first.length rows
        (mapO (py_stack fuel) cols).map .list

/-- `concat(a, b)`, fallback version:
`stack(*(unstack(a) + unstack(b)))`. -/
def py_concat {α : Type} (fuel : Nat) (a b : List (PyVal α)) :
    Option (PyVal α) := do
  let ua ← py_unstack fuel a
  let ub ← py_unstack fuel b
  py_stack fuel (ua ++ ub)

/-- `_apply_n(f, *p)`: recurse while `p[0]` is a list, zipping all
arguments in lockstep (python `zip` stops at the shortest argument and
raises if one is not iterable); at a scalar `p[0]` apply the scalar
function, which raises unless the remaining arguments are scalars too.
`f : List α → Option β` receives all scalar arguments at once and may
itself signal a python-level TypeError by `none` (e.g. wrong arity). -/
def py_apply_n {α β : Type} (f : List α → Option β) :
    Nat → PyVal α → List (PyVal α) → Option (PyVal β)
  | 0, _, _ => none
  | _ + 1, .scalar x, rest => do
      let restS ← mapO asScalarO rest
      (f (x :: restS)).map .scalar
  | fuel + 1, .list xs, rest => do
      let restL ← mapO asListO rest
      (zipMinO (py_apply_n f fuel) xs restL).map .list

/-- `conditional(a, cond, t, f)`, fallback version:
`_apply` of `t(x) if cond(x) else f(x)`. -/
def py_conditional {α β : Type} (fuel : Nat) (a : PyVal α) (cond : α → Bool)
    (t f : α → β) : Option (PyVal β) :=
  py_apply (fun x => if cond x then t x else f x) fuel a

/-- `clip(a, t0, t1)`, fallback version: `_apply` of
`max(t0, min(t1, x))`. -/
def py_clip {α : Type} [LinearOrder α] (fuel : Nat) (a : PyVal α) (t0 t1 : α) :
    Option (PyVal α) :=
  py_apply (fun x => max t0 (min t1 x)) fuel a

/-- Fallback `sin` (`_apply(sinf, a)`); the scalar function is kept
abstract, the claims under verification being structural. -/
def py_sin {α β : Type} (sinf : α → β) (fuel : Nat) (a : PyVal α) :
    Option (PyVal β) :=
  py_apply sinf fuel a

/-- Fallback `cos`. -/
def py_cos {α β : Type} (cosf : α → β) (fuel : Nat) (a : PyVal α) :
    Option (PyVal β) :=
  py_apply cosf fuel a

/-- Fallback `sqrt`. -/
def py_sqrt {α β : Type} (sqrtf : α → β) (fuel : Nat) (a : PyVal α) :
    Option (PyVal β) :=
  py_apply sqrtf fuel a

/-- Fallback `floor`. -/
def py_floor {α β : Type} (floorf : α → β) (fuel : Nat) (a : PyVal α) :
    Option (PyVal β) :=
  py_apply floorf fuel a

/-- Fallback `mod(a, b)`: `_apply_n(operator.mod, a, b)`. -/
def py_mod {α β : Type} (m : α → α → β) (fuel : Nat) (a b : PyVal α) :
    Option (PyVal β) :=
  py_apply_n (fun l => match l with | [x, y] => some (m x y) | _ => none)
    fuel a [b]

/-- Fallback `arctan2(y, x)`: `_apply_n(atan2f, y, x)`. -/
def py_arctan2 {α β : Type} (atan2f : α → α → β) (fuel : Nat) (y x : PyVal α) :
    Option (PyVal β) :=
  py_apply_n (fun l => match l with | [a, b] => some (atan2f a b) | _ => none)
    fuel y [x]

/-- python `max(*args)`: raises unless it receives at least two arguments
(with a single scalar argument it would try to iterate it). -/
def maxScalars {α : Type} [LinearOrder α] : List α → Option α
  | x :: y :: more => some (more.foldl max (max x y))
  | _ => none

/-- python `min(*args)`. -/
def minScalars {α : Type} [LinearOrder α] : List α → Option α
  | x :: y :: more => some (more.foldl min (min x y))
  | _ => none

/-- Fallback `maximum(*a)`: `_apply_n(max, *a)`; an empty argument list
makes `p[0]` raise. -/
def py_maximum {α : Type} [LinearOrder α] (fuel : Nat) :
    List (PyVal α) → Option (PyVal α)
  | [] => none
  | a :: rest => py_apply_n maxScalars fuel a rest

/-- Fallback `minimum(*a)`: `_apply_n(min, *a)`. -/
def py_minimum {α : Type} [LinearOrder α] (fuel : Nat) :
    List (PyVal α) → Option (PyVal α)
  | [] => none
  | a :: rest => py_apply_n minScalars fuel a rest

/-- The scan inside the fallback `compose`: first pair whose condition is
true wins; exhaustion raises `ValueError('no matching case in compose')`. -/
def composeScan {α : Type} : List (Bool × α) → Except String α
  | [] => .error "no matching case in compose"
  | (c, v) :: rest => if c then .ok v else composeScan rest

/-- `compose(*a)`, fallback version.  In fallback use the pair list
arrives scalarized: each condition is the boolean for the element under
consideration and each value function, applied to the identity selector
`lambda x: x`, yields the element value, so a pair is modelled as
`(Bool × α)`.  An empty argument list fails the leading assert. -/
def py_compose {α : Type} (pairs : List (Bool × α)) : Except String α :=
  if pairs.isEmpty then .error "assertion failed" else composeScan pairs

/-- Column construction shared verbatim by both `choose` implementations:
`assert options`, `dim = len(options[0])`,
`columns = [[o[d] for o in options] for d in range(dim)]`; an option
shorter than `options[0]` makes `o[d]` raise IndexError. -/
def chooseCols {α : Type} : List (List (PyVal α)) → Option (List (List (PyVal α)))
  | [] => none
  | o0 :: rest =>
    mapO (fun d => mapO (fun o => o[d]?) (o0 :: rest)) (List.range o0.length)

/-- `_choose_descend(i, options)`: a scalar index selects
`options[int(i)]`; a list index recurses with `enumerate`, slicing the
k-th component out of every option. -/
def choose_descend {α : Type} : Nat → PyVal Nat → List (PyVal α) → Option (PyVal α)
  | 0, _, _ => none
  | _ + 1, .scalar i, options => options[i]?
  | fuel + 1, .list is, options => do
    let oss ← mapO asListO options
    let cols ← colsUpTo is.length oss
    (mapO (fun p => choose_descend fuel p.1 p.2) (is.zip cols)).map .list

/-- `choose(i, *options)`, fallback version: build the component columns,
then descend per column. -/
def py_choose {α : Type} (fuel : Nat) (i : PyVal Nat)
    (options : List (List (PyVal α))) : Option (List (PyVal α)) := do
  let columns ← chooseCols options
  mapO (fun column => choose_descend fuel i column) columns

/-- `allclose(a, b)`, fallback version: equal-length lists are compared
memberwise, mixed list/scalar is `False`, scalars are compared with the
fixed absolute tolerance `1e-12`. -/
def py_allclose : Nat → PyVal ℚ → PyVal ℚ → Bool
  | 0, _, _ => false
  | _ + 1, .scalar x, .scalar y => |x - y| < 1 / 10 ^ 12
  | _ + 1, .scalar _, .list _ => false
  | _ + 1, .list _, .scalar _ => false
  | fuel + 1, .list xs, .list ys =>
    xs.length == ys.length &&
      (xs.zip ys).all (fun p => py_allclose fuel p.1 p.2)

/-! ### The accelerated backend (numpy models)

The accelerated branch composes numpy library calls on rectangular arrays.
We model a numpy array as a `PyVal` together with its shape and model each
library call shape-directedly, following its documented semantics; a
violation that would make numpy raise gives `none`. -/

/-- A numpy ufunc applied elementwise to an array of shape `s`
(`numpy.sin`, `numpy.cos`, `numpy.sqrt`, `numpy.floor`, scalar-argument
`numpy.mod`, the `astype` cast, ...). -/
def np_map {α β : Type} (f : α → β) : List Nat → PyVal α → Option (PyVal β)
  | [], .scalar x => some (.scalar (f x))
  | n :: s, .list xs =>
    if xs.length = n then (mapO (np_map f s) xs).map .list else none
  | _, _ => none

/-- A binary numpy ufunc applied elementwise to two arrays of the same
shape `s` (`numpy.mod`, `numpy.arctan2`, `numpy.maximum`,
`numpy.minimum` on equal shapes; broadcasting is not modelled). -/
def np_map2 {α β : Type} (f : α → α → β) :
    List Nat → PyVal α → PyVal α → Option (PyVal β)
  | [], .scalar x, .scalar y => some (.scalar (f x y))
  | n :: s, .list xs, .list ys =>
    if xs.length = n ∧ ys.length = n then
      (mapO (fun p => np_map2 f s p.1 p.2) (xs.zip ys)).map .list
    else none
  | _, _, _ => none

/-- Accelerated `sin`: `numpy.sin(array(a))`. -/
def np_sin {α β : Type} (sinf : α → β) (s : List Nat) (a : PyVal α) :
    Option (PyVal β) :=
  np_map sinf s a

/-- Accelerated `cos`. -/
def np_cos {α β : Type} (cosf : α → β) (s : List Nat) (a : PyVal α) :
    Option (PyVal β) :=
  np_map cosf s a

/-- Accelerated `sqrt`. -/
def np_sqrt {α β : Type} (sqrtf : α → β) (s : List Nat) (a : PyVal α) :
    Option (PyVal β) :=
  np_map sqrtf s a

/-- Accelerated `floor`. -/
def np_floor {α β : Type} (floorf : α → β) (s : List Nat) (a : PyVal α) :
    Option (PyVal β) :=
  np_map floorf s a

/-- Accelerated `mod(a, b)`: `numpy.mod(a, b)` on equal shapes. -/
def np_mod {α β : Type} (m : α → α → β) (s : List Nat) (a b : PyVal α) :
    Option (PyVal β) :=
  np_map2 m s a b

/-- Accelerated `arctan2(y, x)`. -/
def np_arctan2 {α β : Type} (atan2f : α → α → β) (s : List Nat)
    (y x : PyVal α) : Option (PyVal β) :=
  np_map2 atan2f s y x

/-- Accelerated `maximum(*a)`:
`reduce(numpy.maximum, [array(x) for x in a])`; reduce of an empty
sequence raises. -/
def np_maximum {α : Type} [LinearOrder α] (s : List Nat) :
    List (PyVal α) → Option (PyVal α)
  | [] => none
  | a :: rest => rest.foldlM (fun acc x => np_map2 max s acc x) a

/-- Accelerated `minimum(*a)`. -/
def np_minimum {α : Type} [LinearOrder α] (s : List Nat) :
    List (PyVal α) → Option (PyVal α)
  | [] => none
  | a :: rest => rest.foldlM (fun acc x => np_map2 min s acc x) a

/-- Accelerated `clip(a, t0, t1)`: `numpy.clip(array(a), t0, t1)`, which
is documented as `minimum(t1, maximum(a, t0))` elementwise. -/
def np_clip {α : Type} [LinearOrder α] (s : List Nat) (a : PyVal α)
    (t0 t1 : α) : Option (PyVal α) :=
  np_map (fun x => min t1 (max t0 x)) s a

/-- Accelerated `stack(*a)`: `numpy.stack(a, axis=-1)` joins `k`
equal-shape-`s` arrays along a new trailing axis,
`result[i0,...,im,j] = a_j[i0,...,im]`; an empty sequence raises. -/
def np_stack {α : Type} : List Nat → List (PyVal α) → Option (PyVal α)
  | [], as =>
    if as.isEmpty then none
    else (mapO (fun v => (asScalarO v).map PyVal.scalar) as).map .list
  | n :: s, as =>
    if as.isEmpty then none
    else do
      let children ← mapO (fun v => (asListO v).bind
        (fun xs => if xs.length = n then some xs else none)) as
      let cols ← colsUpTo n children
      (mapO (np_stack s) cols).map .list

/-- Accelerated `unstack(a)` on an array of shape `s ++ [k]`:
`numpy.split(a, k, axis=-1)` cuts the trailing axis into `k` pieces of
shape `s ++ [1]` (raising when `k == 0`), and the subsequent reshape drops
the trailing singleton axis, leaving `k` arrays of shape `s`. -/
def np_unstack {α : Type} : List Nat → PyVal α → Option (List (PyVal α))
  | [k], .list xs =>
    if xs.length = k ∧ 0 < k then
      mapO (fun v => (asScalarO v).map PyVal.scalar) xs
    else none
  | n :: s2 :: s, .list xs =>
    if xs.length = n then
      let q := (s2 :: s).getLast (by simp)
      if 0 < q then do
        let childPieces ← mapO (np_unstack (s2 :: s)) xs
        let cols ← colsUpTo q childPieces
        pure (cols.map PyVal.list)
      else none
    else none
  | _, _ => none

/-- `numpy.concatenate(axis=-1)` of two arrays of shapes `s ++ [m]` and
`s ++ [n2]`: the trailing axes are joined. -/
def np_concat2 {α : Type} : List Nat → Nat → Nat → PyVal α → PyVal α →
    Option (PyVal α)
  | [], m, n2, .list xs, .list ys =>
    if xs.length = m ∧ ys.length = n2 then some (.list (xs ++ ys)) else none
  | d :: s, m, n2, .list xs, .list ys =>
    if xs.length = d ∧ ys.length = d then
      (mapO (fun p => np_concat2 s m n2 p.1 p.2) (xs.zip ys)).map .list
    else none
  | _, _, _, _, _ => none

/-- Accelerated `concat(*a)` with arguments of shapes `s ++ [m_j]`: skip
arguments whose leading axis is empty (`x.shape[0]`), then concatenate the
rest along the trailing axis; concatenating an empty list raises. -/
def np_concat {α : Type} (s : List Nat) (args : List (Nat × PyVal α)) :
    Option (PyVal α) :=
  let kept := args.filter (fun p => ((s ++ [p.1]).headD 0) != 0)
  match kept with
  | [] => none
  | (m0, a0) :: rest =>
    (rest.foldlM
      (fun acc p =>
        (np_concat2 s acc.1 p.1 acc.2 p.2).map (fun r => (acc.1 + p.1, r)))
      (m0, a0)).map Prod.snd

/-- `b[mask]`: masked selection from a 1-D buffer. -/
def maskSelect {α : Type} : List α → List Bool → Option (List α)
  | [], [] => some []
  | x :: bs, true :: ms => (maskSelect bs ms).map (x :: ·)
  | _ :: bs, false :: ms => maskSelect bs ms
  | _, _ => none

/-- `b[mask] = vals`: in-place masked assignment to a 1-D buffer, `vals`
listing one value per true mask position, in order; numpy raises when the
lengths do not line up. -/
def maskScatter {α : Type} : List α → List Bool → List α → Option (List α)
  | [], [], [] => some []
  | _ :: bs, true :: ms, v :: vs => (maskScatter bs ms vs).map (v :: ·)
  | x :: bs, false :: ms, vs => (maskScatter bs ms vs).map (x :: ·)
  | _, _, _ => none

/-- `conditional(a, cond, t, f)`, accelerated version, on a 1-D array:
`b = array(a)[:]` (a fresh copy of the caller's data), `mask = cond(a)`
(the predicate applied to the whole array, here elementwise),
`b[mask] = t(b[mask])`, then `b[~mask] = f(b[~mask])`; `t` and `f` receive
the masked subarrays. -/
def np_conditional {α : Type} (a : List α) (cond : α → Bool)
    (t f : List α → List α) : Option (List α) := do
  let mask := a.map cond
  let sel ← maskSelect a mask
  let b1 ← maskScatter a mask (t sel)
  let notMask := mask.map (!·)
  let sel2 ← maskSelect b1 notMask
  maskScatter b1 notMask (f sel2)

/-- `b[mask] = v(lambda x: x[mask])` where the right-hand side is aligned
with the masked positions: writing a full-array-of-values `vals` through
`mask` into an option-buffer `b`, position by position. -/
def maskWriteFull {α : Type} :
    List (Option α) → List Bool → List α → Option (List (Option α))
  | [], [], [] => some []
  | _ :: bs, true :: ms, v :: vs => (maskWriteFull bs ms vs).map (some v :: ·)
  | b :: bs, false :: ms, _ :: vs => (maskWriteFull bs ms vs).map (b :: ·)
  | _, _, _ => none

/-- `compose(*a)`, accelerated version, on 1-D arrays.
`b = numpy.ndarray(a[0].shape)` allocates an UNINITIALIZED buffer,
modelled as `none` at every position; the (mask, value-function) pairs are
applied in reversed order, each masked write `b[mask] = v(lambda x:
x[mask])` filling the masked positions, so earlier pairs overwrite later
ones.  A value function receives the masked selection of full arrays and
is used elementwise by every caller, so a pair is modelled as its mask
together with the full array of values its value function denotes.
`assert a and len(a) % 2 == 0`: emptiness fails the assert; even length is
structural in the pair list. -/
def np_compose {α : Type} (pairs : List (List Bool × List α)) :
    Option (List (Option α)) :=
  match pairs with
  | [] => none
  | p0 :: rest =>
    ((p0 :: rest).reverse).foldlM (fun b p => maskWriteFull b p.1 p.2)
      (List.replicate p0.1.length none)

/-- Elementwise `numpy.choose(i, column)` on arrays of shape `s`:
`result[p] = column[i[p]][p]`; an out-of-range index raises
(`mode='raise'` is the default). -/
def np_chooseArr {α : Type} : List Nat → PyVal Nat → List (PyVal α) →
    Option (PyVal α)
  | [], .scalar ix, cs => cs[ix]?
  | n :: s, .list is, cs =>
    if is.length = n then do
      let css ← mapO (fun c => (asListO c).bind
        (fun xs => if xs.length = n then some xs else none)) cs
      let cols ← colsUpTo n css
      (mapO (fun p => np_chooseArr s p.1 p.2) (is.zip cols)).map .list
    else none
  | _, _, _ => none

/-- `choose(i, *options)`, accelerated version: identical column
construction (`chooseCols`), then
`[column[int(i)] for column in columns]` for a scalar index, or
`assert len(options) < 256`, `i_int = array(i).astype(numpy.uint8)`
(a mod-256 cast) and `numpy.choose(i_int, column)` per column for an array
index; `s` is the shape of the index array. -/
def np_choose {α : Type} (s : List Nat) (i : PyVal Nat)
    (options : List (List (PyVal α))) : Option (List (PyVal α)) := do
  let columns ← chooseCols options
  match i with
  | .scalar ix => mapO (fun column => column[ix]?) columns
  | .list is =>
    if options.length < 256 then do
      let iU8 ← np_map (fun x => x % 256) s (.list is)
      mapO (fun column => np_chooseArr s iU8 column) columns
    else none

/-- `vectorized(f, a, depth)`, accelerated version: `depth` is ignored; a
1-D array is promoted to a single-row 2-D array (`f(array([a]))[0]`) so
that `f` operates on rows, otherwise `f(a)` directly — one call to `f`
either way. -/
def np_vectorized {α β : Type} (f : PyVal α → PyVal β) (s : List Nat)
    (a : PyVal α) (depth : Nat) : Option (PyVal β) :=
  let _ := depth
  if s.length = 1 then
    match f (.list [a]) with
    | .list rs => rs[0]?
    | .scalar _ => none
  else some (f a)

/-- Call trace of the accelerated `vectorized`: the single argument `f` is
applied to. -/
def np_vectorized_calls {α : Type} (s : List Nat) (a : PyVal α)
    (depth : Nat) : List (PyVal α) :=
  let _ := depth
  if s.length = 1 then [.list [a]] else [a]

/-- `numpy.allclose(array(a), array(b))` on two 1-D arrays of equal
length: elementwise `|a - b| <= atol + rtol * |b|` with the library
defaults `rtol = 1e-5`, `atol = 1e-8`; broadcasting is not modelled. -/
def np_allclose (a b : List ℚ) : Bool :=
  a.length == b.length &&
    (a.zip b).all (fun p => |p.1 - p.2| ≤ 1 / 10 ^ 8 + (1 / 10 ^ 5) * |p.2|)

/-! ### Reconstitution: `instantiate_elements` -/

/-- A symbolic tree handed back to the evaluator: either an element
produced by `new_element`, or an `Expression('List', *leaves)` node. -/
inductive MExpr (ε : Type) : Type where
  | elem (e : ε) : MExpr ε
  | listE (es : List (MExpr ε)) : MExpr ε

/-- The probing loop of `py_instantiate_elements`:
`e = a[0]; depth = 1; while depth <= d and isinstance(e, list): e = e[0];
depth += 1`, returning the final `depth`.  `e[0]` of an empty list raises.
The loop runs at most `d` times, so the fuel `d + 1` passed by the caller
never runs out. -/
def probeLoop {α : Type} (d : Nat) : Nat → PyVal α → Nat → Option Nat
  | 0, _, _ => none
  | fuel + 1, e, depth =>
    if depth ≤ d then
      match e with
      | .scalar _ => some depth
      | .list [] => none
      | .list (e0 :: _) => probeLoop d fuel e0 (depth + 1)
    else some depth

/-- `py_instantiate_elements(a, new_element, d)` (the numpy-free version,
also installed as `instantiate_elements` by the fallback backend): probe
the first spine to measure the reachable depth, capped at `d`; if the cap
is reached exactly, wrap every member of `a` with `new_element`, otherwise
recurse into the members; either way produce an `Expression('List', ...)`
node. -/
def py_instantiate_elements {α ε : Type} (ne : PyVal α → ε) :
    Nat → PyVal α → Nat → Option (MExpr ε)
  | 0, _, _ => none
  | _ + 1, .scalar _, _ => none
  | fuel + 1, .list xs, d =>
    match xs with
    | [] => none
    | e0 :: _ => do
      let depth ← probeLoop d (d + 1) e0 1
      if d = depth then
        pure (.listE (xs.map (fun x => .elem (ne x))))
      else
        (mapO (fun e => py_instantiate_elements ne fuel e d) xs).map .listE

/-- `instantiate_elements(a, new_element, d)`, accelerated version, on an
array of shape `s`: `if len(a.shape) == d:` wrap every member of `a` with
`new_element`, else recurse into the members; iterate into
`Expression('List', ...)` nodes. -/
def np_instantiate_elements {α ε : Type} (ne : PyVal α → ε) :
    List Nat → PyVal α → Nat → Option (MExpr ε)
  | [], _, _ => none
  | n :: s, .list xs, d =>
    if xs.length = n then
      if (n :: s).length = d then some (.listE (xs.map (fun x => .elem (ne x))))
      else (mapO (fun x => np_instantiate_elements ne s x d) xs).map .listE
    else none
  | _ :: _, .scalar _, _ => none

/-- Spec-side description of `instantiate_elements` (written from the
spec's words, to be compared with both implementations): on a value with
`r` nesting levels, every branch point above depth `d` becomes an
ordered-list node, and when exactly `d` levels remain the members are
wrapped with `new_element`. -/
def spec_instantiate_tree {α ε : Type} (ne : PyVal α → ε) :
    Nat → PyVal α → Nat → Option (MExpr ε)
  | 0, _, _ => none
  | r + 1, .list xs, d =>
    if r + 1 = d then some (.listE (xs.map (fun x => .elem (ne x))))
    else (mapO (fun x => spec_instantiate_tree ne r x d) xs).map .listE
  | _ + 1, .scalar _, _ => none

/-! ### Storage model for the frame-effect claim

`conditional` under the accelerated backend performs in-place masked
writes; the claim is that they target an internal copy and the caller's
array is untouched.  We model a heap of 1-D numpy buffers explicitly. -/

/-- A heap of numpy buffers; a reference is an index into the heap. -/
structure Store (α : Type) : Type where
  bufs : List (List α)

/-- Dereference (an absent reference reads as an empty buffer). -/
def Store.read {α : Type} (s : Store α) (r : Nat) : List α :=
  s.bufs.getD r []

/-- In-place write through a reference. -/
def Store.write {α : Type} (s : Store α) (r : Nat) (v : List α) : Store α :=
  ⟨s.bufs.set r v⟩

/-- Allocate a fresh buffer, returning its reference. -/
def Store.alloc {α : Type} (s : Store α) (v : List α) : Store α × Nat :=
  (⟨s.bufs ++ [v]⟩, s.bufs.length)

/-- `conditional(a, cond, t, f)`, accelerated version, against the storage
model.  `b = array(a)[:]`: `numpy.array` copies its argument by default,
so a fresh buffer is allocated with the caller's data, and `[:]` is a view
of that copy; both masked writes then target the copy, never the caller's
reference `r`.  Returns the updated store (`none` if numpy raises) and the
reference of the result. -/
def np_conditional_st {α : Type} (s : Store α) (r : Nat) (cond : α → Bool)
    (t f : List α → List α) : Option (Store α) × Nat :=
  let a := s.read r
  let alloc := s.alloc a
  let s1 := alloc.1
  let b := alloc.2
  let mask := a.map cond
  let step : Option (Store α) := do
    let sel ← maskSelect (s1.read b) mask
    let b1 ← maskScatter (s1.read b) mask (t sel)
    let s2 := s1.write b b1
    let notMask := mask.map (!·)
    let sel2 ← maskSelect (s2.read b) notMask
    let b2 ← maskScatter (s2.read b) notMask (f sel2)
    pure (s2.write b b2)
  (step, b)

/-- The fallback `conditional` against a storage model of nested-value
heaps: it only reads the caller's value and builds its result with list
comprehensions (`_apply` contains no index assignment), so the result is a
freshly allocated value and every existing heap entry is untouched. -/
def py_conditional_st {α : Type} (fuel : Nat) (s : List (PyVal α)) (r : Nat)
    (cond : α → Bool) (t f : α → α) : Option (List (PyVal α)) × Nat :=
  let a := s.getD r (.list [])
  ((py_conditional fuel a cond t f).map (fun v => s ++ [v]), s.length)

/-! ### Lemmas: compose -/

/-- The value, at element position `p`, of the earliest listed pair whose
mask is true at `p`; `none` when no mask is true there. -/
def firstMatchAt {α : Type} : List (List Bool × List α) → Nat → Option α
  | [], _ => none
  | (m, v) :: rest, p =>
    if m.getD p false = true then v[p]? else firstMatchAt rest p

/-! ### Lemmas: structure preservation of the fallback elementwise ops -/

/-- Two values have exactly isomorphic nesting structure: a scalar
wherever the other has a scalar, lists of equal length wherever the other
has a list. -/
inductive SameStruct {α β : Type} : PyVal α → PyVal β → Prop where
  | scalar (x : α) (y : β) : SameStruct (.scalar x) (.scalar y)
  | list {rs : List (PyVal α)} {vs : List (PyVal β)} :
      List.Forall₂ SameStruct rs vs → SameStruct (.list rs) (.list vs)

/-- `Covers b a`: at every node of `a`, `b` has a scalar where `a` has a
scalar and a list at least as long where `a` has a list (the shape of `b`
dominates the shape of `a`).  This is the alignment `zip` needs so that
`_apply_n` never truncates against `a`. -/
inductive Covers {α : Type} : PyVal α → PyVal α → Prop where
  | scalar (y x : α) : Covers (.scalar y) (.scalar x)
  | list {ys1 ys2 : List (PyVal α)} {xs : List (PyVal α)} :
      List.Forall₂ Covers ys1 xs → Covers (.list (ys1 ++ ys2)) (.list xs)

/-! ### Lemmas: indexed selection (choose) -/

/-- All numeric entries of an index array of shape `s` are at most `b`. -/
def allLeS : List Nat → PyVal Nat → Nat → Bool
  | [], .scalar i, b => i ≤ b
  | n :: s, .list is, b => is.length == n && is.all (fun t => allLeS s t b)
  | _, _, _ => false

/-- Elementwise selection between two aligned shape-`s` arrays driven by a
0/1 index array: where the index is 0 take the first array's entry,
otherwise the second's. -/
def zipSelect {α : Type} : List Nat → PyVal Nat → PyVal α → PyVal α →
    Option (PyVal α)
  | [], .scalar i, .scalar x, .scalar y =>
    some (.scalar (if i = 0 then x else y))
  | n :: s, .list is, .list xs, .list ys =>
    if is.length = n ∧ xs.length = n ∧ ys.length = n then
      (mapO (fun t => zipSelect s t.1 t.2.1 t.2.2)
        (is.zip (xs.zip ys))).map .list
    else none
  | _, _, _, _ => none

/-! ### Lemmas: vectorized call traces (C4) -/

/-- The scalar leaves of a rectangular array of shape `s`, in order. -/
def flattenS {α : Type} : List Nat → PyVal α → Option (List α)
  | [], .scalar x => some [x]
  | n :: s, .list xs =>
    if xs.length = n then (mapO (flattenS s) xs).map List.flatten else none
  | _, _ => none

/-- The innermost rows of a rectangular array of shape `s`
(`s.length ≥ 1`), in order. -/
def bottomRowsS {α : Type} : List Nat → PyVal α → Option (List (PyVal α))
  | [n], .list xs => if xs.length = n then some [.list xs] else none
  | n :: s2 :: s, .list xs =>
    if xs.length = n then
      (mapO (bottomRowsS (s2 :: s)) xs).map List.flatten
    else none
  | _, _ => none

/-- python `sum(...)` over a realized sequence: starts from the integer 0
and folds addition left to right; zero and addition are kept abstract. -/
def pySum {α : Type} (zero : α) (add : α → α → α) (l : List α) : α :=
  l.foldl add zero

/-- `zip(u, v)` driving `x * y` inside the fallback `dot_t`: python `zip`
stops at the shorter sequence, and a zipped `v` entry that is itself a
list makes `x * y` raise (TypeError). -/
def zipScalars {α : Type} : List α → List (PyVal α) → Option (List (α × α))
  | [], _ => some []
  | _ :: _, [] => some []
  | x :: xs, .scalar y :: vs =>
    (zipScalars xs vs).map (fun ps => (x, y) :: ps)
  | _ :: _, .list _ :: _ => none

/-- `dot_t(u, v)`, fallback version: with a 1-D `v`
`sum(x * y for x, y in zip(u, v))`, with a 2-D `v` one such inner product
per row (`[sum(x * y for x, y in zip(u, r)) for r in v]`); `v[0]` of an
empty `v` raises. -/
def py_dot_t {α : Type} (zero : α) (add mul : α → α → α) (u : List α) :
    List (PyVal α) → Option (PyVal α)
  | [] => none
  | v0 :: vrest =>
    match v0 with
    | .scalar _ =>
      (zipScalars u (v0 :: vrest)).map
        (fun ps => .scalar (pySum zero add (ps.map (fun p => mul p.1 p.2))))
    | .list _ =>
      (mapO (fun r => match r with
        | PyVal.scalar _ => none
        | PyVal.list rs => (zipScalars u rs).map
            (fun ps => PyVal.scalar (pySum zero add
              (ps.map (fun p => mul p.1 p.2))))) (v0 :: vrest)).map .list

/-- `dot_t(u, v)`, accelerated version: `numpy.dot(array(u), array(v).T)`.
With `u` of length `k` and a 1-D `v` of the same length it is the inner
product `sum_i u_i * v_i`; with a 2-D `v` of shape `[m, k]` it is the
length-`m` vector of inner products of `u` with the rows of `v`; a length
mismatch makes `numpy.dot` raise. -/
def np_dot_t {α : Type} (zero : α) (add mul : α → α → α) (u : List α) :
    List Nat → PyVal α → Option (PyVal α)
  | [k], .list vs =>
    if vs.length = k ∧ u.length = k then
      (mapO asScalarO vs).map (fun ys =>
        .scalar (pySum zero add ((u.zip ys).map (fun p => mul p.1 p.2))))
    else none
  | [m, k], .list vs =>
    if vs.length = m ∧ u.length = k then
      (mapO (fun r => (asListO r).bind (fun rs =>
        if rs.length = k then
          (mapO asScalarO rs).map (fun ys =>
            PyVal.scalar (pySum zero add
              ((u.zip ys).map (fun p => mul p.1 p.2))))
        else none)) vs).map .list
    else none
  | _, _ => none

/-! ### Theorems -/

/-- Induction over `PyVal` with the list hypothesis given memberwise. -/
theorem PyVal.my_induction {α : Type} {P : PyVal α → Prop}
    (hs : ∀ x, P (.scalar x))
    (hl : ∀ xs, (∀ t ∈ xs, P t) → P (.list xs)) :
    ∀ v : PyVal α, P v := by
  intro v
  match v with
  | .scalar x => exact hs x
  | .list xs =>
    refine hl xs ?_
    intro t ht
    exact my_induction hs hl t
termination_by v => sizeOf v
decreasing_by
  simp only [PyVal.list.sizeOf_spec]
  have := List.sizeOf_lt_of_mem ht
  omega

theorem PyVal.sizeOf_list_spec {α : Type} (xs : List (PyVal α)) :
    sizeOf (PyVal.list xs) = 1 + sizeOf xs := by
  simp

theorem PyVal.sizeOf_mem_lt {α : Type} {xs : List (PyVal α)} {t : PyVal α}
    (ht : t ∈ xs) : sizeOf t < sizeOf (PyVal.list xs) := by
  have := List.sizeOf_lt_of_mem ht
  simp only [PyVal.list.sizeOf_spec]
  omega

theorem hasShapeS_nil_iff {α : Type} (v : PyVal α) :
    hasShapeS [] v = true ↔ ∃ x, v = .scalar x := by
  cases v with
  | scalar x => simp [hasShapeS]
  | list xs => simp [hasShapeS]

theorem hasShapeS_cons_iff {α : Type} (n : Nat) (s : List Nat) (v : PyVal α) :
    hasShapeS (n :: s) v = true ↔
      ∃ xs, v = .list xs ∧ xs.length = n ∧ ∀ t ∈ xs, hasShapeS s t = true := by
  cases v with
  | scalar x => simp [hasShapeS]
  | list xs => simp [hasShapeS, List.all_eq_true]

theorem hasShapeS_list_cons_iff {α : Type} (n : Nat) (s : List Nat)
    (xs : List (PyVal α)) :
    hasShapeS (n :: s) (.list xs) = true ↔
      xs.length = n ∧ ∀ t ∈ xs, hasShapeS s t = true := by
  simp [hasShapeS, List.all_eq_true]

/-- A rectangular array with positive dimensions has `sizeOf` strictly
above the length of its shape; this makes `sizeOf` a valid fuel for
recursions that descend one nesting level at a time. -/
theorem shape_len_lt_sizeOf {α : Type} :
    ∀ (s : List Nat) (v : PyVal α), hasShapeS s v = true →
      posShape s = true → s.length < sizeOf v := by
  intro s
  induction s with
  | nil =>
    intro v _ _
    cases v <;> simp
  | cons n s ih =>
    intro v hv hpos
    obtain ⟨xs, rfl, hlen, hmem⟩ := (hasShapeS_cons_iff n s v).1 hv
    have hn : 0 < n := by
      have := List.all_eq_true.1 hpos n (by simp)
      simpa using this
    have hpos2 : posShape s = true := by
      simp only [posShape, List.all_eq_true] at hpos ⊢
      intro d hd
      exact hpos d (by simp [hd])
    cases xs with
    | nil => simp at hlen; omega
    | cons t rest =>
      have ht := ih t (hmem t (by simp)) hpos2
      have := PyVal.sizeOf_mem_lt (show t ∈ t :: rest by simp)
      simp only [List.length_cons] at *
      omega

theorem mapO_nil {α β : Type} (f : α → Option β) : mapO f [] = some [] := rfl

theorem mapO_cons {α β : Type} (f : α → Option β) (x : α) (xs : List α) :
    mapO f (x :: xs) =
      (f x).bind (fun y => (mapO f xs).map (fun ys => y :: ys)) := rfl

theorem mapO_eq_some_of_forall {α β : Type} (f : α → Option β) (g : α → β)
    (l : List α) (h : ∀ x ∈ l, f x = some (g x)) :
    mapO f l = some (l.map g) := by
  induction l with
  | nil => rfl
  | cons x xs ih =>
    rw [mapO_cons, h x (by simp), ih (fun y hy => h y (by simp [hy]))]
    rfl

theorem mapO_eq_some_elim {α β : Type} {f : α → Option β} {l : List α} {r : List β}
    (h : mapO f l = some r) :
    ∀ {x : α} {xs : List α}, l = x :: xs →
      ∃ y ys, f x = some y ∧ mapO f xs = some ys ∧ r = y :: ys := by
  intro x xs hl
  subst hl
  rw [mapO_cons, Option.bind_eq_some] at h
  obtain ⟨y, hy, hmap⟩ := h
  rw [Option.map_eq_some'] at hmap
  obtain ⟨ys, hys, hr⟩ := hmap
  exact ⟨y, ys, hy, hys, hr.symm⟩

theorem mapO_length {α β : Type} (f : α → Option β) (l : List α) (r : List β)
    (h : mapO f l = some r) : r.length = l.length := by
  induction l generalizing r with
  | nil =>
    rw [mapO_nil, Option.some.injEq] at h
    subst h; rfl
  | cons x xs ih =>
    obtain ⟨y, ys, _, hys, hr⟩ := mapO_eq_some_elim h rfl
    subst hr
    simp [ih ys hys]

theorem mapO_mem {α β : Type} (f : α → Option β) (l : List α) (r : List β)
    (h : mapO f l = some r) : ∀ y ∈ r, ∃ x ∈ l, f x = some y := by
  induction l generalizing r with
  | nil =>
    rw [mapO_nil, Option.some.injEq] at h
    subst h; simp
  | cons x xs ih =>
    obtain ⟨y, ys, hy, hys, hr⟩ := mapO_eq_some_elim h rfl
    subst hr
    intro z hz
    rcases List.mem_cons.1 hz with hz | hz
    · exact ⟨x, by simp, hz ▸ hy⟩
    · obtain ⟨w, hw, hfw⟩ := ih ys hys z hz
      exact ⟨w, by simp [hw], hfw⟩

theorem mapO_getElem {α β : Type} (f : α → Option β) (l : List α) (r : List β)
    (h : mapO f l = some r) (i : Nat) (hi : i < l.length) :
    ∃ hir : i < r.length, f l[i] = some r[i] := by
  induction l generalizing r i with
  | nil => simp at hi
  | cons x xs ih =>
    obtain ⟨y, ys, hy, hys, hr⟩ := mapO_eq_some_elim h rfl
    subst hr
    cases i with
    | zero => exact ⟨by simp, by simpa using hy⟩
    | succ j =>
      have hj : j < xs.length := by simpa using hi
      obtain ⟨hjr, hf⟩ := ih ys hys j hj
      exact ⟨by simpa using hjr, by simpa using hf⟩

theorem mapO_isSome_of_forall {α β : Type} (f : α → Option β) (l : List α)
    (h : ∀ x ∈ l, (f x).isSome) : (mapO f l).isSome := by
  induction l with
  | nil => simp [mapO_nil]
  | cons x xs ih =>
    have hx := h x (by simp)
    obtain ⟨y, hy⟩ := Option.isSome_iff_exists.1 hx
    have hxs := ih (fun z hz => h z (by simp [hz]))
    obtain ⟨ys, hys⟩ := Option.isSome_iff_exists.1 hxs
    simp [mapO_cons, hy, hys]

theorem mapO_map {α β γ : Type} (g : β → Option γ) (h : α → β) (l : List α) :
    mapO g (l.map h) = mapO (fun x => g (h x)) l := by
  induction l with
  | nil => rfl
  | cons x xs ih => simp [mapO_cons, ih]

theorem maskWriteFull_spec {α : Type} :
    ∀ (b : List (Option α)) (m : List Bool) (v : List α),
      m.length = b.length → v.length = b.length →
      ∃ r, maskWriteFull b m v = some r ∧ r.length = b.length ∧
        ∀ p : Nat, r.getD p none =
          if m.getD p false = true then v[p]? else b.getD p none := by
  intro b
  induction b with
  | nil =>
    intro m v hm hv
    match m, v, hm, hv with
    | [], [], _, _ =>
      refine ⟨[], rfl, rfl, ?_⟩
      intro p
      simp [List.getD]
  | cons x bs ih =>
    intro m v hm hv
    match m, v, hm, hv with
    | mb :: ms, vb :: vs, hm, hv =>
      have hm2 : ms.length = bs.length := by simpa using hm
      have hv2 : vs.length = bs.length := by simpa using hv
      obtain ⟨r, hr, hrlen, hget⟩ := ih ms vs hm2 hv2
      cases mb with
      | true =>
        refine ⟨some vb :: r, ?_, by simpa using hrlen, ?_⟩
        · simp [maskWriteFull, hr]
        · intro p
          cases p with
          | zero => simp
          | succ q => simpa using hget q
      | false =>
        refine ⟨x :: r, ?_, by simpa using hrlen, ?_⟩
        · simp [maskWriteFull, hr]
        · intro p
          cases p with
          | zero => simp
          | succ q => simpa using hget q

/-- The reversed fold inside the accelerated `compose`, taken one pair at
a time from the front: the head pair is applied last. -/
theorem np_compose_fold_cons {α : Type} (q : List Bool × List α)
    (rest : List (List Bool × List α)) (init : List (Option α)) :
    ((q :: rest).reverse).foldlM
        (fun b p => maskWriteFull b p.1 p.2) init =
      (rest.reverse.foldlM (fun b p => maskWriteFull b p.1 p.2) init).bind
        (fun b => maskWriteFull b q.1 q.2) := by
  rw [List.reverse_cons, List.foldlM_append]
  simp [List.foldlM]

theorem np_compose_core_spec {α : Type} (n : Nat) :
    ∀ (pairs : List (List Bool × List α)),
      (∀ q ∈ pairs, q.1.length = n ∧ q.2.length = n) →
      ∃ b, (pairs.reverse.foldlM (fun b p => maskWriteFull b p.1 p.2)
              (List.replicate n none)) = some b ∧
        b.length = n ∧
        ∀ p : Nat, b.getD p none = firstMatchAt pairs p := by
  intro pairs
  induction pairs with
  | nil =>
    intro _
    refine ⟨List.replicate n none, rfl, by simp, ?_⟩
    intro p
    simp [firstMatchAt, List.getD]
  | cons q rest ih =>
    intro hwf
    obtain ⟨b0, hb0, hb0len, hb0get⟩ := ih (fun x hx => hwf x (by simp [hx]))
    have hq := hwf q (by simp)
    obtain ⟨r, hr, hrlen, hrget⟩ :=
      maskWriteFull_spec b0 q.1 q.2 (by omega) (by omega)
    refine ⟨r, ?_, by omega, ?_⟩
    · rw [np_compose_fold_cons, hb0, Option.some_bind, hr]
    · intro p
      rw [hrget p, hb0get p]
      rfl

/-- Full characterization of the accelerated `compose` on well-formed
pairs: it succeeds, and every position holds the value of the earliest
pair whose mask is true there (`none` — uninitialized memory — when no
mask matches). -/
theorem np_compose_spec {α : Type} (pairs : List (List Bool × List α))
    (n : Nat) (hne : pairs ≠ [])
    (hwf : ∀ q ∈ pairs, q.1.length = n ∧ q.2.length = n) :
    ∃ b, np_compose pairs = some b ∧ b.length = n ∧
      ∀ p : Nat, b.getD p none = firstMatchAt pairs p := by
  match pairs, hne with
  | q :: rest, _ =>
    obtain ⟨b, hb, hlen, hget⟩ := np_compose_core_spec n (q :: rest) hwf
    have hq := hwf q (by simp)
    refine ⟨b, ?_, hlen, hget⟩
    show ((q :: rest).reverse).foldlM _ (List.replicate q.1.length none) = some b
    rw [hq.1]
    exact hb

theorem firstMatchAt_cons {α : Type} (m : List Bool) (v : List α)
    (rest : List (List Bool × List α)) (p : Nat) :
    firstMatchAt ((m, v) :: rest) p =
      if m.getD p false = true then v[p]? else firstMatchAt rest p := rfl

theorem firstMatchAt_isSome {α : Type} :
    ∀ (pairs : List (List Bool × List α)) (n p : Nat),
      (∀ q ∈ pairs, q.2.length = n) → p < n →
      (∃ q ∈ pairs, q.1.getD p false = true) →
      (firstMatchAt pairs p).isSome := by
  intro pairs n p
  induction pairs with
  | nil => simp
  | cons q rest ih =>
    obtain ⟨m, v⟩ := q
    intro hwf hp hex
    by_cases hq : m.getD p false = true
    · have hlen : p < v.length := by
        have := hwf (m, v) (by simp)
        simp only at this
        omega
      rw [firstMatchAt_cons, if_pos hq]
      simp [List.getElem?_eq_getElem hlen]
    · rw [firstMatchAt_cons, if_neg hq]
      obtain ⟨r, hr, hrt⟩ := hex
      rcases List.mem_cons.1 hr with rfl | hr2
      · exact absurd hrt hq
      · exact ih (fun x hx => hwf x (by simp [hx])) hp ⟨r, hr2, hrt⟩

theorem firstMatchAt_eq_none {α : Type} :
    ∀ (pairs : List (List Bool × List α)) (p : Nat),
      (∀ q ∈ pairs, q.1.getD p false = false) →
      firstMatchAt pairs p = none := by
  intro pairs p
  induction pairs with
  | nil => intro _; rfl
  | cons q rest ih =>
    obtain ⟨m, v⟩ := q
    intro hall
    have hq := hall (m, v) (by simp)
    simp only at hq
    have hq2 : ¬ (m.getD p false = true) := by rw [hq]; simp
    rw [firstMatchAt_cons, if_neg hq2]
    exact ih (fun x hx => hall x (by simp [hx]))

/-- `composeScan` returns the value of the first pair whose condition is
true, and the ValueError when none is. -/
theorem composeScan_spec {α : Type} :
    ∀ pairs : List (Bool × α),
      composeScan pairs =
        match pairs.find? (fun q => q.1) with
        | some q => .ok q.2
        | none => .error "no matching case in compose" := by
  intro pairs
  induction pairs with
  | nil => rfl
  | cons q rest ih =>
    cases hq : q.1 with
    | true =>
      obtain ⟨c, v⟩ := q
      simp only at hq
      subst hq
      simp [composeScan, List.find?]
    | false =>
      obtain ⟨c, v⟩ := q
      simp only at hq
      subst hq
      simpa [composeScan, List.find?] using ih

/-! ### Claims: compose (C1, C5) -/

/-- C1: compose precedence under both backends.  Accelerated: for a
well-formed non-empty pair list and an element position where at least one
mask is true, the output at that position is exactly the value of the
earliest listed pair whose mask is true there (`firstMatchAt`).  Fallback
(which receives the pairs one element at a time, conditions already
scalar): the value of the first pair whose condition is true is returned.
Earliest pair wins on overlap under either backend. -/
theorem C1_compose_precedence {α : Type} :
    (∀ (pairs : List (List Bool × List α)) (n p : Nat),
      pairs ≠ [] →
      (∀ q ∈ pairs, q.1.length = n ∧ q.2.length = n) →
      p < n →
      (∃ q ∈ pairs, q.1.getD p false = true) →
      ∃ b, np_compose pairs = some b ∧
        b.getD p none = firstMatchAt pairs p ∧
        (firstMatchAt pairs p).isSome) ∧
    (∀ (pairs : List (Bool × α)) (q : Bool × α),
      pairs.find? (fun r => r.1) = some q →
      py_compose pairs = .ok q.2) := by
  constructor
  · intro pairs n p hne hwf hp hex
    obtain ⟨b, hb, _, hget⟩ := np_compose_spec pairs n hne hwf
    exact ⟨b, hb, hget p,
      firstMatchAt_isSome pairs n p (fun q hq => (hwf q hq).2) hp hex⟩
  · intro pairs q hfind
    have hne : pairs ≠ [] := by
      intro h
      subst h
      simp [List.find?] at hfind
    have : pairs.isEmpty = false := by
      cases pairs with
      | nil => exact absurd rfl hne
      | cons _ _ => rfl
    rw [py_compose, this]
    simp only [Bool.false_eq_true, if_false]
    rw [composeScan_spec, hfind]

/-- C1 witness: two overlapping pairs; at position 1 both masks are true
and the first pair's value 20 wins; scalarized fallback pairs behave the
same way. -/
theorem C1_compose_precedence_witness :
    (∃ b, np_compose [([false, true], [(10 : Int), 20]), ([true, true], [30, 40])] = some b ∧
      b.getD 1 none =
        firstMatchAt [([false, true], [(10 : Int), 20]), ([true, true], [30, 40])] 1 ∧
      (firstMatchAt [([false, true], [(10 : Int), 20]), ([true, true], [30, 40])] 1).isSome) ∧
    py_compose [(false, (1 : Int)), (true, 2)] = .ok 2 := by
  constructor
  · exact C1_compose_precedence.1
      [([false, true], [(10 : Int), 20]), ([true, true], [30, 40])] 2 1
      (by decide) (by decide) (by decide)
      ⟨([false, true], [(10 : Int), 20]), by decide, by decide⟩
  · exact C1_compose_precedence.2 [(false, (1 : Int)), (true, 2)] (true, 2) rfl

/-- C5 counterexample: at position 0 no mask is true and no catch-all
pair is present, yet the accelerated `compose` does not fail at all — it
succeeds, leaving that element uninitialized (`none`); the claimed
ValueSelectionError is never raised by this backend. -/
theorem C5_counterexample :
    np_compose [([false, true], [(10 : Int), 20])] = some [none, some 20] := rfl

/-- C5 amended: when no mask matches an element and no catch-all pair is
present, the FALLBACK compose raises ValueError('no matching case in
compose'); the ACCELERATED compose raises nothing — it succeeds and the
uncovered element holds an undefined (uninitialized-buffer) value,
modelled as `none`. -/
theorem C5_compose_no_match {α : Type} :
    (∀ pairs : List (Bool × α), pairs ≠ [] →
      (∀ q ∈ pairs, q.1 = false) →
      py_compose pairs = .error "no matching case in compose") ∧
    (∀ (pairs : List (List Bool × List α)) (n p : Nat),
      pairs ≠ [] →
      (∀ q ∈ pairs, q.1.length = n ∧ q.2.length = n) →
      (∀ q ∈ pairs, q.1.getD p false = false) →
      ∃ b, np_compose pairs = some b ∧ b.getD p none = none) := by
  constructor
  · intro pairs hne hall
    have : pairs.isEmpty = false := by
      cases pairs with
      | nil => exact absurd rfl hne
      | cons _ _ => rfl
    rw [py_compose, this]
    simp only [Bool.false_eq_true, if_false]
    rw [composeScan_spec]
    have : pairs.find? (fun q => q.1) = none := by
      rw [List.find?_eq_none]
      intro x hx
      simp [hall x hx]
    rw [this]
  · intro pairs n p hne hwf hall
    obtain ⟨b, hb, _, hget⟩ := np_compose_spec pairs n hne hwf
    exact ⟨b, hb, by rw [hget p, firstMatchAt_eq_none pairs p hall]⟩

/-- C5 amended witness: a single pair whose mask is false at position 0:
the fallback raises the ValueError, the accelerated backend succeeds with
an undefined element. -/
theorem C5_compose_no_match_witness :
    py_compose [(false, (7 : Int))] = .error "no matching case in compose" ∧
    (∃ b, np_compose [([false, true], [(10 : Int), 20])] = some b ∧
      b.getD 0 none = none) := by
  constructor
  · exact C5_compose_no_match.1 [(false, (7 : Int))] (by decide) (by decide)
  · exact C5_compose_no_match.2 [([false, true], [(10 : Int), 20])] 2 0
      (by decide) (by decide) (by decide)

theorem covers_scalar_inv {α : Type} {b : PyVal α} {x : α}
    (h : Covers b (.scalar x)) : ∃ y, b = .scalar y := by
  cases h with
  | scalar y _ => exact ⟨y, rfl⟩

theorem covers_list_inv {α : Type} {b : PyVal α} {xs : List (PyVal α)}
    (h : Covers b (.list xs)) :
    ∃ ys1 ys2, b = .list (ys1 ++ ys2) ∧ List.Forall₂ Covers ys1 xs := by
  cases h with
  | list hf => exact ⟨_, _, rfl, hf⟩

theorem forall2_mem_left {α β : Type} {P : α → β → Prop} :
    ∀ {rs : List α} {l : List β}, List.Forall₂ P rs l →
      ∀ y ∈ rs, ∃ x ∈ l, P y x := by
  intro rs l h
  induction h with
  | nil => simp
  | cons hp _ ih =>
    intro y hy
    rcases List.mem_cons.1 hy with rfl | hy2
    · exact ⟨_, by simp, hp⟩
    · obtain ⟨x, hx, hpx⟩ := ih y hy2
      exact ⟨x, by simp [hx], hpx⟩

theorem mapO_forall2 {α β : Type} {P : β → α → Prop} (f : α → Option β)
    (l : List α) (h : ∀ x ∈ l, ∃ y, f x = some y ∧ P y x) :
    ∃ r, mapO f l = some r ∧ List.Forall₂ P r l := by
  induction l with
  | nil => exact ⟨[], rfl, List.Forall₂.nil⟩
  | cons x xs ih =>
    obtain ⟨y, hy, hp⟩ := h x (by simp)
    obtain ⟨r, hr, hf⟩ := ih (fun z hz => h z (by simp [hz]))
    exact ⟨y :: r, by simp [mapO_cons, hy, hr], List.Forall₂.cons hp hf⟩

/-- `_apply` is total and returns a value with exactly the structure of
its input — including irregular (ragged) inputs. -/
theorem py_apply_struct {α β : Type} (f : α → β) :
    ∀ (v : PyVal α) (fuel : Nat), sizeOf v ≤ fuel →
      ∃ r, py_apply f fuel v = some r ∧ SameStruct r v := by
  intro v
  induction v using PyVal.my_induction with
  | hs x =>
    intro fuel hfuel
    have hs : 1 ≤ sizeOf (PyVal.scalar x) := by
      simp only [PyVal.scalar.sizeOf_spec]
      omega
    cases fuel with
    | zero => omega
    | succ fuel2 => exact ⟨.scalar (f x), rfl, .scalar (f x) x⟩
  | hl xs ih =>
    intro fuel hfuel
    have hs : 1 ≤ sizeOf (PyVal.list xs) := by
      simp only [PyVal.list.sizeOf_spec]
      omega
    cases fuel with
    | zero => omega
    | succ fuel2 =>
      have hmem : ∀ t ∈ xs, ∃ r, py_apply f fuel2 t = some r ∧ SameStruct r t := by
        intro t ht
        have := PyVal.sizeOf_mem_lt ht
        exact ih t ht fuel2 (by omega)
      obtain ⟨r, hr, hf2⟩ := mapO_forall2 (py_apply f fuel2) xs hmem
      refine ⟨.list r, ?_, .list hf2⟩
      show (mapO (py_apply f fuel2) xs).map PyVal.list = some (PyVal.list r)
      rw [hr]
      rfl

/-- Lockstep `zip` against arguments whose structure covers `xs` never
truncates and the results inherit `xs`'s structure pointwise. -/
theorem zipMinO_covers {α β : Type} (kk : Nat)
    (g : PyVal α → List (PyVal α) → Option (PyVal β)) :
    ∀ (xs : List (PyVal α)) (restL : List (List (PyVal α))),
      restL.length = kk →
      (∀ x ∈ xs, ∀ heads : List (PyVal α), heads.length = kk →
        (∀ h ∈ heads, Covers h x) → ∃ y, g x heads = some y ∧ SameStruct y x) →
      (∀ ys ∈ restL, ∃ ys1 ys2, ys = ys1 ++ ys2 ∧ List.Forall₂ Covers ys1 xs) →
      ∃ rs, zipMinO g xs restL = some rs ∧ List.Forall₂ SameStruct rs xs := by
  intro xs
  induction xs with
  | nil =>
    intro restL _ _ _
    exact ⟨[], rfl, List.Forall₂.nil⟩
  | cons x xs ih =>
    intro restL hlen hg hinv
    have hne : restL.any List.isEmpty = false := by
      rw [List.any_eq_false]
      intro ys hys
      obtain ⟨ys1, ys2, rfl, hf⟩ := hinv ys hys
      cases hf with
      | cons hcov hf2 => simp
    have hheads : ∀ ys ∈ restL, ∃ h, List.head? ys = some h ∧
        (Covers h x ∧ ∃ t1 t2, ys.tail = t1 ++ t2 ∧ List.Forall₂ Covers t1 xs) := by
      intro ys hys
      obtain ⟨ys1, ys2, rfl, hf⟩ := hinv ys hys
      cases hf with
      | cons hcov hf2 =>
        refine ⟨_, by simp, hcov, _, ys2, by simp, hf2⟩
    obtain ⟨heads, hmapo, hfh⟩ := mapO_forall2 List.head? restL hheads
    have hheadlen : heads.length = kk := by
      rw [List.Forall₂.length_eq hfh, hlen]
    have hcovheads : ∀ h ∈ heads, Covers h x := by
      intro h hh
      obtain ⟨ys, _, hp⟩ := forall2_mem_left hfh h hh
      exact hp.1
    obtain ⟨y, hy, hyss⟩ := hg x (by simp) heads hheadlen hcovheads
    have hinv2 : ∀ tl ∈ restL.map List.tail,
        ∃ t1 t2, tl = t1 ++ t2 ∧ List.Forall₂ Covers t1 xs := by
      intro tl htl
      obtain ⟨ys, hys, rfl⟩ := List.mem_map.1 htl
      obtain ⟨ys1, ys2, rfl, hf⟩ := hinv ys hys
      cases hf with
      | cons hcov hf2 => exact ⟨_, ys2, by simp, hf2⟩
    obtain ⟨rs, hrs, hfrs⟩ := ih (restL.map List.tail) (by simp [hlen])
      (fun z hz => hg z (by simp [hz])) hinv2
    refine ⟨y :: rs, ?_, List.Forall₂.cons hyss hfrs⟩
    rw [zipMinO, hne]
    simp only [Bool.false_eq_true, if_false, hmapo, Option.some_bind,
      Option.bind_eq_bind]
    rw [hy]
    simp only [Option.some_bind]
    rw [hrs]
    rfl

/-- `_apply_n` is total and returns a value with exactly the structure of
its FIRST argument, provided the remaining arguments cover that structure
(are aligned at least as far as it reaches) and the scalar function
accepts the arity actually used. -/
theorem py_apply_n_struct {α β : Type} (f : List α → Option β) (kk : Nat)
    (hf : ∀ args, args.length = kk + 1 → (f args).isSome) :
    ∀ (a : PyVal α) (fuel : Nat) (rest : List (PyVal α)),
      sizeOf a ≤ fuel → rest.length = kk →
      (∀ b ∈ rest, Covers b a) →
      ∃ r, py_apply_n f fuel a rest = some r ∧ SameStruct r a := by
  intro a
  induction a using PyVal.my_induction with
  | hs x =>
    intro fuel rest hfuel hlen hcov
    have hs1 : 1 ≤ sizeOf (PyVal.scalar x) := by
      simp only [PyVal.scalar.sizeOf_spec]
      omega
    cases fuel with
    | zero => omega
    | succ fuel2 =>
      have hall : ∀ b ∈ rest, ∃ v, asScalarO b = some v ∧ b = PyVal.scalar v := by
        intro b hb
        obtain ⟨v, rfl⟩ := covers_scalar_inv (hcov b hb)
        exact ⟨v, rfl, rfl⟩
      obtain ⟨restS, hmapo, hf2⟩ := mapO_forall2 asScalarO rest hall
      have hlen2 : restS.length = kk := by
        rw [List.Forall₂.length_eq hf2, hlen]
      obtain ⟨val, hval⟩ := Option.isSome_iff_exists.1
        (hf (x :: restS) (by simp [hlen2]))
      refine ⟨.scalar val, ?_, .scalar val x⟩
      show (mapO asScalarO rest).bind _ = _
      rw [hmapo]
      simp only [Option.some_bind]
      rw [hval]
      rfl
  | hl xs ih =>
    intro fuel rest hfuel hlen hcov
    have hs1 : 1 ≤ sizeOf (PyVal.list xs) := by
      simp only [PyVal.list.sizeOf_spec]
      omega
    cases fuel with
    | zero => omega
    | succ fuel2 =>
      have hall : ∀ b ∈ rest, ∃ ys, asListO b = some ys ∧
          (∃ t1 t2, ys = t1 ++ t2 ∧ List.Forall₂ Covers t1 xs) := by
        intro b hb
        obtain ⟨ys1, ys2, rfl, hff⟩ := covers_list_inv (hcov b hb)
        exact ⟨ys1 ++ ys2, rfl, ys1, ys2, rfl, hff⟩
      obtain ⟨restL, hmapo, hf2⟩ := mapO_forall2 asListO rest hall
      have hlen2 : restL.length = kk := by
        rw [List.Forall₂.length_eq hf2, hlen]
      have hg : ∀ t ∈ xs, ∀ heads : List (PyVal α), heads.length = kk →
          (∀ h ∈ heads, Covers h t) →
          ∃ y, py_apply_n f fuel2 t heads = some y ∧ SameStruct y t := by
        intro t ht heads hhl hhc
        have := PyVal.sizeOf_mem_lt ht
        exact ih t ht fuel2 heads (by omega) hhl hhc
      have hinv : ∀ ys ∈ restL, ∃ t1 t2, ys = t1 ++ t2 ∧
          List.Forall₂ Covers t1 xs := by
        intro ys hys
        obtain ⟨b, _, hp⟩ := forall2_mem_left hf2 ys hys
        exact hp
      obtain ⟨rs, hrs, hfrs⟩ :=
        zipMinO_covers kk (py_apply_n f fuel2) xs restL hlen2 hg hinv
      refine ⟨.list rs, ?_, .list hfrs⟩
      show (mapO asListO rest).bind _ = _
      rw [hmapo]
      simp only [Option.some_bind]
      rw [hrs]
      rfl

theorem covers_list_of_forall2 {α : Type} {ys xs : List (PyVal α)}
    (h : List.Forall₂ Covers ys xs) : Covers (.list ys) (.list xs) := by
  have h2 := @Covers.list _ ys [] xs h
  simpa using h2

/-! ### Claims: fallback elementwise structure (C10) -/

/-- C10 counterexample: under the fallback backend,
`maximum([1, 2, 3], [4, 5])` returns `[4, 5]` — `zip` inside `_apply_n`
truncates to the SHORTER argument, so the result is a 2-element list where
the first input is a 3-element list: the nesting structure is not
isomorphic to the first input's. -/
theorem C10_counterexample :
    py_maximum 3 [.list [.scalar (1 : Int), .scalar 2, .scalar 3],
                  .list [.scalar 4, .scalar 5]] =
      some (.list [.scalar 4, .scalar 5]) ∧
    ¬ SameStruct (PyVal.list [PyVal.scalar (4 : Int), PyVal.scalar 5])
        (PyVal.list [PyVal.scalar (1 : Int), PyVal.scalar 2, PyVal.scalar 3]) := by
  refine ⟨rfl, ?_⟩
  intro h
  cases h with
  | list hf =>
    have := List.Forall₂.length_eq hf
    simp at this

/-- C10 amended: under the fallback backend the unary elementwise
operations (sin, cos, sqrt, floor, clip) always return a result whose
nesting structure is exactly isomorphic to the input's, including for
irregular (ragged) inputs; the n-ary operations (mod, arctan2, maximum,
minimum) return a result isomorphic to their FIRST input when every
further argument structurally covers the first (scalar against scalar,
and lists at least as long at every node) — with a shorter later argument
the zip inside `_apply_n` truncates instead. -/
theorem C10_elementwise_structure {α β : Type} [LinearOrder α] :
    (∀ (sinf : α → β) (fuel : Nat) (a : PyVal α), sizeOf a ≤ fuel →
      ∃ r, py_sin sinf fuel a = some r ∧ SameStruct r a) ∧
    (∀ (cosf : α → β) (fuel : Nat) (a : PyVal α), sizeOf a ≤ fuel →
      ∃ r, py_cos cosf fuel a = some r ∧ SameStruct r a) ∧
    (∀ (sqrtf : α → β) (fuel : Nat) (a : PyVal α), sizeOf a ≤ fuel →
      ∃ r, py_sqrt sqrtf fuel a = some r ∧ SameStruct r a) ∧
    (∀ (floorf : α → β) (fuel : Nat) (a : PyVal α), sizeOf a ≤ fuel →
      ∃ r, py_floor floorf fuel a = some r ∧ SameStruct r a) ∧
    (∀ (fuel : Nat) (a : PyVal α) (t0 t1 : α), sizeOf a ≤ fuel →
      ∃ r, py_clip fuel a t0 t1 = some r ∧ SameStruct r a) ∧
    (∀ (m : α → α → β) (fuel : Nat) (a b : PyVal α), sizeOf a ≤ fuel →
      Covers b a →
      ∃ r, py_mod m fuel a b = some r ∧ SameStruct r a) ∧
    (∀ (atan2f : α → α → β) (fuel : Nat) (y x : PyVal α), sizeOf y ≤ fuel →
      Covers x y →
      ∃ r, py_arctan2 atan2f fuel y x = some r ∧ SameStruct r y) ∧
    (∀ (fuel : Nat) (a : PyVal α) (rest : List (PyVal α)), sizeOf a ≤ fuel →
      rest ≠ [] → (∀ b ∈ rest, Covers b a) →
      ∃ r, py_maximum fuel (a :: rest) = some r ∧ SameStruct r a) ∧
    (∀ (fuel : Nat) (a : PyVal α) (rest : List (PyVal α)), sizeOf a ≤ fuel →
      rest ≠ [] → (∀ b ∈ rest, Covers b a) →
      ∃ r, py_minimum fuel (a :: rest) = some r ∧ SameStruct r a) := by
  have harity2 : ∀ (g : α → α → β),
      ∀ args : List α, args.length = 1 + 1 →
        (Option.isSome (match args with
          | [x, y] => some (g x y)
          | _ => none) = true) := by
    intro g args hlen
    match args with
    | [x, y] => rfl
    | [] => exact absurd hlen (by simp)
    | [x] => exact absurd hlen (by simp)
    | x :: y :: z :: more => simp at hlen
  refine ⟨?_, ?_, ?_, ?_, ?_, ?_, ?_, ?_, ?_⟩
  · intro sinf fuel a h
    exact py_apply_struct sinf a fuel h
  · intro cosf fuel a h
    exact py_apply_struct cosf a fuel h
  · intro sqrtf fuel a h
    exact py_apply_struct sqrtf a fuel h
  · intro floorf fuel a h
    exact py_apply_struct floorf a fuel h
  · intro fuel a t0 t1 h
    exact py_apply_struct (fun x => max t0 (min t1 x)) a fuel h
  · intro m fuel a b h hc
    exact py_apply_n_struct _ 1 (harity2 m) a fuel [b] h rfl
      (by intro z hz; rcases List.mem_singleton.1 hz with rfl; exact hc)
  · intro atan2f fuel y x h hc
    exact py_apply_n_struct _ 1 (harity2 atan2f) y fuel [x] h rfl
      (by intro z hz; rcases List.mem_singleton.1 hz with rfl; exact hc)
  · intro fuel a rest h hne hcov
    have hr1 : 1 ≤ rest.length := by
      cases rest with
      | nil => exact absurd rfl hne
      | cons _ _ => simp
    refine py_apply_n_struct maxScalars rest.length ?_ a fuel rest h rfl hcov
    intro args hlen
    match args with
    | x :: y :: more => rfl
    | [] => exact absurd hlen (by simp)
    | [x] =>
      exfalso
      rw [show ([x] : List α).length = 1 from rfl] at hlen
      omega
  · intro fuel a rest h hne hcov
    have hr1 : 1 ≤ rest.length := by
      cases rest with
      | nil => exact absurd rfl hne
      | cons _ _ => simp
    refine py_apply_n_struct minScalars rest.length ?_ a fuel rest h rfl hcov
    intro args hlen
    match args with
    | x :: y :: more => rfl
    | [] => exact absurd hlen (by simp)
    | [x] =>
      exfalso
      rw [show ([x] : List α).length = 1 from rfl] at hlen
      omega

/-- C10 amended witness: a ragged input for the unary case and aligned
inputs for the n-ary case. -/
theorem C10_elementwise_structure_witness :
    (∃ r, py_sin (fun n : Int => n + 1) 9
        (.list [.scalar 1, .list [.scalar 2]]) = some r ∧
      SameStruct r (PyVal.list [PyVal.scalar (1 : Int), PyVal.list [PyVal.scalar 2]])) ∧
    (∃ r, py_maximum 9 [PyVal.list [PyVal.scalar (1 : Int), PyVal.scalar 2],
        PyVal.list [PyVal.scalar 5, PyVal.scalar 0, PyVal.scalar 7]] = some r ∧
      SameStruct r (PyVal.list [PyVal.scalar (1 : Int), PyVal.scalar 2])) := by
  constructor
  · exact (@C10_elementwise_structure Int Int _).1 _ 9 _ (by decide)
  · refine (@C10_elementwise_structure Int Int _).2.2.2.2.2.2.2.1 9 _
      [PyVal.list [PyVal.scalar 5, PyVal.scalar 0, PyVal.scalar 7]]
      (by decide) (by simp) ?_
    intro b hb
    rcases List.mem_singleton.1 hb with rfl
    exact @Covers.list Int [PyVal.scalar 5, PyVal.scalar 0] [PyVal.scalar 7]
      [PyVal.scalar 1, PyVal.scalar 2]
      (List.Forall₂.cons (Covers.scalar 5 1)
        (List.Forall₂.cons (Covers.scalar 0 2) List.Forall₂.nil))

/-! ### Lemmas: columns, indexed selection -/

theorem mapO_eq_none {α β : Type} (f : α → Option β) :
    ∀ (l : List α) (x : α), x ∈ l → f x = none → mapO f l = none := by
  intro l
  induction l with
  | nil => simp
  | cons y ys ih =>
    intro x hx hfx
    rcases List.mem_cons.1 hx with rfl | hx2
    · simp [mapO_cons, hfx]
    · cases hfy : f y with
      | none => simp [mapO_cons, hfy]
      | some v => simp [mapO_cons, hfy, ih x hx2 hfx]

/-- Full characterization of `colsUpTo`: on rows all of length at least
`n` it succeeds and column `j` lists the j-th entry of every row. -/
theorem colsUpTo_spec {γ : Type} (dflt : γ) :
    ∀ (n : Nat) (rows : List (List γ)),
      (∀ r ∈ rows, n ≤ r.length) →
      ∃ cols, colsUpTo n rows = some cols ∧ cols.length = n ∧
        ∀ j, j < n → cols[j]? = some (rows.map (fun r => r.getD j dflt)) := by
  intro n
  induction n with
  | zero =>
    intro rows _
    exact ⟨[], rfl, rfl, by omega⟩
  | succ m ih =>
    intro rows hlen
    have hheads : ∀ r ∈ rows, List.head? r = some (r.getD 0 dflt) := by
      intro r hr
      have := hlen r hr
      cases r with
      | nil => simp at this
      | cons a as => simp [List.getD]
    have hmapo := mapO_eq_some_of_forall List.head? (fun r => r.getD 0 dflt)
      rows hheads
    have htails : ∀ r ∈ rows.map List.tail, m ≤ r.length := by
      intro r hr
      obtain ⟨r0, hr0, rfl⟩ := List.mem_map.1 hr
      have := hlen r0 hr0
      simp only [List.length_tail]
      omega
    obtain ⟨cols, hcols, hclen, hcget⟩ := ih (rows.map List.tail) htails
    refine ⟨rows.map (fun r => r.getD 0 dflt) :: cols, ?_, by simp [hclen], ?_⟩
    · simp only [colsUpTo, Option.bind_eq_bind, hmapo, hcols, Option.some_bind]
      rfl
    · intro j hj
      cases j with
      | zero => simp
      | succ k =>
        have hk : k < m := by omega
        have := hcget k hk
        simp only [List.getElem?_cons_succ, this, List.map_map, Option.some.injEq]
        apply List.map_congr_left
        intro r _
        simp [List.getD_eq_getElem?_getD, List.getElem?_tail]

/-- Rebuilding a list from its indexed reads. -/
theorem map_range_getD {γ : Type} (l : List γ) (dflt : γ) :
    (List.range l.length).map (fun d => l.getD d dflt) = l := by
  apply List.ext_getElem
  · simp
  · intro i h1 h2
    simp only [List.getElem_map, List.getElem_range]
    rw [List.getD_eq_getElem?_getD, List.getElem?_eq_getElem h2]
    rfl

theorem getElem?_eq_some_getD {γ : Type} {l : List γ} {d : Nat}
    (h : d < l.length) (dflt : γ) : l[d]? = some (l.getD d dflt) := by
  rw [List.getD_eq_getElem?_getD, List.getElem?_eq_getElem h]
  rfl

/-- `chooseCols` fails exactly on the dimension defects it can see: an
option list that is empty, or an option SHORTER than the first one. -/
theorem chooseCols_none_of_short {α : Type} (o0 : List (PyVal α))
    (rest : List (List (PyVal α))) (o : List (PyVal α))
    (ho : o ∈ o0 :: rest) (hlt : o.length < o0.length) :
    chooseCols (o0 :: rest) = none := by
  show mapO _ _ = none
  refine mapO_eq_none _ (List.range o0.length) o.length (by simp [hlt]) ?_
  exact mapO_eq_none _ (o0 :: rest) o ho (by simp)

theorem chooseCols_spec {α : Type} (o0 : List (PyVal α))
    (rest : List (List (PyVal α)))
    (h : ∀ o ∈ o0 :: rest, o0.length ≤ o.length) :
    chooseCols (o0 :: rest) =
      some ((List.range o0.length).map
        (fun d => (o0 :: rest).map (fun o => o.getD d (PyVal.list [])))) := by
  show mapO _ _ = _
  refine mapO_eq_some_of_forall _ _ _ ?_
  intro d hd
  refine mapO_eq_some_of_forall _ _ _ ?_
  intro o ho
  have hdo : d < o.length := by
    have h1 := h o ho
    have h2 := List.mem_range.1 hd
    omega
  exact getElem?_eq_some_getD hdo _

/-! ### Claims: choose error handling (C7) -/

/-- C7 counterexample: the options differ in per-option dimension (the
first has 2 components, the second 3), yet `choose` does not fail under
either backend — the extra component of the longer option is silently
ignored. -/
theorem C7_counterexample :
    py_choose 3 (.scalar 0) [[PyVal.scalar (1 : Int), PyVal.scalar 2],
      [PyVal.scalar 3, PyVal.scalar 4, PyVal.scalar 5]] =
      some [PyVal.scalar 1, PyVal.scalar 2] ∧
    np_choose [] (.scalar 0) [[PyVal.scalar (1 : Int), PyVal.scalar 2],
      [PyVal.scalar 3, PyVal.scalar 4, PyVal.scalar 5]] =
      some [PyVal.scalar 1, PyVal.scalar 2] := by
  constructor <;> rfl

/-- C7 amended: under both backends `choose` fails when `options` is
empty (the leading assert) or when some option is SHORTER than the first
one (IndexError while building the columns); an option LONGER than the
first is accepted without error, its extra components ignored, so
differing dimensions as such are not rejected.  The shared column
construction succeeds whenever no option is shorter than the first. -/
theorem C7_choose_dimension_errors {α : Type} :
    (∀ (fuel : Nat) (i : PyVal Nat) (s : List Nat),
      py_choose fuel i ([] : List (List (PyVal α))) = none ∧
      np_choose s i ([] : List (List (PyVal α))) = none) ∧
    (∀ (fuel : Nat) (i : PyVal Nat) (s : List Nat) (o0 : List (PyVal α))
        (rest : List (List (PyVal α))) (o : List (PyVal α)),
      o ∈ o0 :: rest → o.length < o0.length →
      py_choose fuel i (o0 :: rest) = none ∧
      np_choose s i (o0 :: rest) = none) ∧
    (∀ (o0 : List (PyVal α)) (rest : List (List (PyVal α))),
      (∀ o ∈ o0 :: rest, o0.length ≤ o.length) →
      (chooseCols (o0 :: rest)).isSome = true) := by
  refine ⟨?_, ?_, ?_⟩
  · intro fuel i s
    constructor
    · rfl
    · cases i <;> rfl
  · intro fuel i s o0 rest o ho hlt
    have hc := chooseCols_none_of_short o0 rest o ho hlt
    constructor
    · simp [py_choose, hc]
    · simp [np_choose, hc]
  · intro o0 rest h
    rw [chooseCols_spec o0 rest h]
    rfl

/-- C7 amended witness. -/
theorem C7_choose_dimension_errors_witness :
    (py_choose 3 (.scalar 0) ([] : List (List (PyVal Int))) = none ∧
      np_choose [] (.scalar 0) ([] : List (List (PyVal Int))) = none) ∧
    (py_choose 3 (.scalar 0)
        [[PyVal.scalar (1 : Int), PyVal.scalar 2], [PyVal.scalar 3]] = none ∧
      np_choose [] (.scalar 0)
        [[PyVal.scalar (1 : Int), PyVal.scalar 2], [PyVal.scalar 3]] = none) ∧
    (chooseCols [[PyVal.scalar (1 : Int), PyVal.scalar 2],
      [PyVal.scalar 3, PyVal.scalar 4, PyVal.scalar 5]]).isSome = true := by
  refine ⟨?_, ?_, ?_⟩
  · exact (@C7_choose_dimension_errors Int).1 3 (.scalar 0) []
  · exact (@C7_choose_dimension_errors Int).2.1 3 (.scalar 0) []
      [PyVal.scalar 1, PyVal.scalar 2] [[PyVal.scalar 3]] [PyVal.scalar 3]
      (by simp) (by simp)
  · exact (@C7_choose_dimension_errors Int).2.2
      [PyVal.scalar 1, PyVal.scalar 2]
      [[PyVal.scalar 3, PyVal.scalar 4, PyVal.scalar 5]]
      (by intro o ho; fin_cases ho <;> simp)

theorem mapO_eq_mapO_of_forall2 {γ1 γ2 δ : Type} (f : γ1 → Option δ)
    (g : γ2 → Option δ) :
    ∀ {l1 : List γ1} {l2 : List γ2},
      List.Forall₂ (fun x y => f x = g y) l1 l2 →
      mapO f l1 = mapO g l2 := by
  intro l1 l2 h
  induction h with
  | nil => rfl
  | cons hp _ ih => simp [mapO_cons, hp, ih]

theorem zipSelect_isSome {α : Type} :
    ∀ (s : List Nat) (i : PyVal Nat) (x y : PyVal α),
      hasShapeS s i = true → hasShapeS s x = true → hasShapeS s y = true →
      ∃ r, zipSelect s i x y = some r := by
  intro s
  induction s with
  | nil =>
    intro i x y hi hx hy
    obtain ⟨iv, rfl⟩ := (hasShapeS_nil_iff i).1 hi
    obtain ⟨xv, rfl⟩ := (hasShapeS_nil_iff x).1 hx
    obtain ⟨yv, rfl⟩ := (hasShapeS_nil_iff y).1 hy
    exact ⟨_, rfl⟩
  | cons n s ih =>
    intro i x y hi hx hy
    obtain ⟨is, rfl, hilen, himem⟩ := (hasShapeS_cons_iff n s i).1 hi
    obtain ⟨xs, rfl, hxlen, hxmem⟩ := (hasShapeS_cons_iff n s x).1 hx
    obtain ⟨ys, rfl, hylen, hymem⟩ := (hasShapeS_cons_iff n s y).1 hy
    have hall : ∀ t ∈ is.zip (xs.zip ys),
        ∃ r, zipSelect s t.1 t.2.1 t.2.2 = some r := by
      intro t ht
      have h1 := List.of_mem_zip ht
      have h2 := List.of_mem_zip h1.2
      exact ih t.1 t.2.1 t.2.2 (himem _ h1.1) (hxmem _ h2.1) (hymem _ h2.2)
    obtain ⟨rs, hrs, _⟩ := mapO_forall2 _ (is.zip (xs.zip ys))
      (fun t ht => by
        obtain ⟨r, hr⟩ := hall t ht
        exact ⟨r, hr, trivial⟩)
    refine ⟨.list rs, ?_⟩
    rw [zipSelect]
    rw [if_pos ⟨hilen, hxlen, hylen⟩, hrs]
    rfl

/-- The mod-256 `uint8` cast is the identity on a 0/1 index array. -/
theorem np_map_mod256_id :
    ∀ (s : List Nat) (i : PyVal Nat),
      hasShapeS s i = true → allLeS s i 1 = true →
      np_map (fun x => x % 256) s i = some i := by
  intro s
  induction s with
  | nil =>
    intro i hi hle
    obtain ⟨iv, rfl⟩ := (hasShapeS_nil_iff i).1 hi
    have hb : iv ≤ 1 := by simpa [allLeS] using hle
    have hm : iv % 256 = iv := Nat.mod_eq_of_lt (by omega)
    simp [np_map, hm]
  | cons n s ih =>
    intro i hi hle
    obtain ⟨is, rfl, hilen, himem⟩ := (hasShapeS_cons_iff n s i).1 hi
    have hle2 : ∀ t ∈ is, allLeS s t 1 = true := by
      have := hle
      simp only [allLeS, Bool.and_eq_true, List.all_eq_true] at this
      exact this.2
    rw [np_map]
    rw [if_pos hilen]
    have : mapO (np_map (fun x => x % 256) s) is = some (is.map id) := by
      refine mapO_eq_some_of_forall _ _ _ ?_
      intro t ht
      rw [ih t (himem t ht) (hle2 t ht)]
      rfl
    rw [this]
    simp

theorem allLeS_members {s : List Nat} {n : Nat} {is : List (PyVal Nat)} {b : Nat}
    (h : allLeS (n :: s) (.list is) b = true) :
    ∀ t ∈ is, allLeS s t b = true := by
  simp only [allLeS, Bool.and_eq_true, List.all_eq_true] at h
  exact h.2

/-- The fallback `_choose_descend` on two options implements elementwise
0/1 selection. -/
theorem choose_descend_eq_zipSelect {α : Type} :
    ∀ (s : List Nat) (i : PyVal Nat) (x y : PyVal α) (fuel : Nat),
      hasShapeS s i = true → hasShapeS s x = true → hasShapeS s y = true →
      allLeS s i 1 = true → s.length < fuel →
      choose_descend fuel i [x, y] = zipSelect s i x y := by
  intro s
  induction s with
  | nil =>
    intro i x y fuel hi hx hy hle hfuel
    obtain ⟨iv, rfl⟩ := (hasShapeS_nil_iff i).1 hi
    obtain ⟨xv, rfl⟩ := (hasShapeS_nil_iff x).1 hx
    obtain ⟨yv, rfl⟩ := (hasShapeS_nil_iff y).1 hy
    have hb : iv ≤ 1 := by simpa [allLeS] using hle
    cases fuel with
    | zero => omega
    | succ f =>
      match iv, hb with
      | 0, _ => rfl
      | 1, _ => rfl
  | cons n s ih =>
    intro i x y fuel hi hx hy hle hfuel
    obtain ⟨is, rfl, hilen, himem⟩ := (hasShapeS_cons_iff n s i).1 hi
    obtain ⟨xs, rfl, hxlen, hxmem⟩ := (hasShapeS_cons_iff n s x).1 hx
    obtain ⟨ys, rfl, hylen, hymem⟩ := (hasShapeS_cons_iff n s y).1 hy
    have hle2 := allLeS_members hle
    cases fuel with
    | zero => simp at hfuel
    | succ f =>
      have hrows : ∀ r ∈ [xs, ys], is.length ≤ r.length := by
        intro r hr
        rcases List.mem_cons.1 hr with rfl | hr2
        · omega
        · rcases List.mem_singleton.1 hr2 with rfl
          omega
      obtain ⟨cols, hcols, hclen, hcget⟩ :=
        colsUpTo_spec (PyVal.list []) is.length [xs, ys] hrows
      have hlen1 : (is.zip cols).length = (is.zip (xs.zip ys)).length := by
        simp only [List.length_zip, hclen]
        omega
      have hf2 : List.Forall₂
          (fun t t2 => choose_descend f t.1 t.2 =
            zipSelect s t2.1 t2.2.1 t2.2.2)
          (is.zip cols) (is.zip (xs.zip ys)) := by
        refine List.forall₂_of_length_eq_of_get hlen1 ?_
        intro j h1 h2
        have hj : j < is.length := by
          simp only [List.length_zip] at h1
          omega
        have hjx : j < xs.length := by omega
        have hjy : j < ys.length := by omega
        have hjc : j < cols.length := by omega
        have hcolj : cols[j] = [xs.getD j (PyVal.list []), ys.getD j (PyVal.list [])] := by
          have := hcget j hj
          rw [List.getElem?_eq_getElem hjc] at this
          simpa using this
        simp only [List.get_eq_getElem, List.getElem_zip]
        rw [hcolj]
        rw [List.getD_eq_getElem?_getD, List.getElem?_eq_getElem hjx,
          List.getD_eq_getElem?_getD, List.getElem?_eq_getElem hjy]
        exact ih is[j] xs[j] ys[j] f
          (himem _ (List.getElem_mem hj))
          (hxmem _ (List.getElem_mem hjx))
          (hymem _ (List.getElem_mem hjy))
          (hle2 _ (List.getElem_mem hj))
          (by simp only [List.length_cons] at hfuel; omega)
      have hmap := @mapO_eq_mapO_of_forall2
        (PyVal Nat × List (PyVal α)) (PyVal Nat × (PyVal α × PyVal α)) (PyVal α)
        (fun t => choose_descend f t.1 t.2)
        (fun t2 => zipSelect s t2.1 t2.2.1 t2.2.2) _ _ hf2
      rw [choose_descend]
      simp only [Option.bind_eq_bind]
      rw [show mapO asListO [PyVal.list xs, PyVal.list ys] = some [xs, ys] from rfl]
      simp only [Option.some_bind]
      rw [hcols]
      simp only [Option.some_bind]
      rw [hmap]
      rw [zipSelect, if_pos ⟨hilen, hxlen, hylen⟩]

/-- `numpy.choose` on two same-shape option columns implements the same
elementwise 0/1 selection. -/
theorem np_chooseArr_eq_zipSelect {α : Type} :
    ∀ (s : List Nat) (i : PyVal Nat) (x y : PyVal α),
      hasShapeS s i = true → hasShapeS s x = true → hasShapeS s y = true →
      allLeS s i 1 = true →
      np_chooseArr s i [x, y] = zipSelect s i x y := by
  intro s
  induction s with
  | nil =>
    intro i x y hi hx hy hle
    obtain ⟨iv, rfl⟩ := (hasShapeS_nil_iff i).1 hi
    obtain ⟨xv, rfl⟩ := (hasShapeS_nil_iff x).1 hx
    obtain ⟨yv, rfl⟩ := (hasShapeS_nil_iff y).1 hy
    have hb : iv ≤ 1 := by simpa [allLeS] using hle
    match iv, hb with
    | 0, _ => rfl
    | 1, _ => rfl
  | cons n s ih =>
    intro i x y hi hx hy hle
    obtain ⟨is, rfl, hilen, himem⟩ := (hasShapeS_cons_iff n s i).1 hi
    obtain ⟨xs, rfl, hxlen, hxmem⟩ := (hasShapeS_cons_iff n s x).1 hx
    obtain ⟨ys, rfl, hylen, hymem⟩ := (hasShapeS_cons_iff n s y).1 hy
    have hle2 := allLeS_members hle
    have hcss : mapO (fun c => (asListO c).bind
        (fun zs => if zs.length = n then some zs else none))
        [PyVal.list xs, PyVal.list ys] = some [xs, ys] := by
      simp [mapO_cons, mapO_nil, asListO, hxlen, hylen]
    have hrows : ∀ r ∈ [xs, ys], n ≤ r.length := by
      intro r hr
      rcases List.mem_cons.1 hr with rfl | hr2
      · omega
      · rcases List.mem_singleton.1 hr2 with rfl
        omega
    obtain ⟨cols, hcols, hclen, hcget⟩ :=
      colsUpTo_spec (PyVal.list []) n [xs, ys] hrows
    have hlen1 : (is.zip cols).length = (is.zip (xs.zip ys)).length := by
      simp only [List.length_zip, hclen]
      omega
    have hf2 : List.Forall₂
        (fun t t2 => np_chooseArr s t.1 t.2 =
          zipSelect s t2.1 t2.2.1 t2.2.2)
        (is.zip cols) (is.zip (xs.zip ys)) := by
      refine List.forall₂_of_length_eq_of_get hlen1 ?_
      intro j h1 h2
      have hj : j < is.length := by
        simp only [List.length_zip] at h1
        omega
      have hjx : j < xs.length := by omega
      have hjy : j < ys.length := by omega
      have hjc : j < cols.length := by omega
      have hcolj : cols[j] = [xs.getD j (PyVal.list []), ys.getD j (PyVal.list [])] := by
        have := hcget j (by omega)
        rw [List.getElem?_eq_getElem hjc] at this
        simpa using this
      simp only [List.get_eq_getElem, List.getElem_zip]
      rw [hcolj]
      rw [List.getD_eq_getElem?_getD, List.getElem?_eq_getElem hjx,
        List.getD_eq_getElem?_getD, List.getElem?_eq_getElem hjy]
      exact ih is[j] xs[j] ys[j]
        (himem _ (List.getElem_mem hj))
        (hxmem _ (List.getElem_mem hjx))
        (hymem _ (List.getElem_mem hjy))
        (hle2 _ (List.getElem_mem hj))
    have hmap := @mapO_eq_mapO_of_forall2
      (PyVal Nat × List (PyVal α)) (PyVal Nat × (PyVal α × PyVal α)) (PyVal α)
      (fun t => np_chooseArr s t.1 t.2)
      (fun t2 => zipSelect s t2.1 t2.2.1 t2.2.2) _ _ hf2
    rw [np_chooseArr, if_pos hilen]
    simp only [Option.bind_eq_bind]
    rw [hcss]
    simp only [Option.some_bind]
    rw [show colsUpTo n [xs, ys] = colsUpTo is.length [xs, ys] by rw [hilen]]
    rw [show colsUpTo is.length [xs, ys] =
      colsUpTo n [xs, ys] by rw [hilen]]
    rw [hcols]
    simp only [Option.some_bind]
    rw [hmap]
    rw [zipSelect, if_pos ⟨hilen, hxlen, hylen⟩]

theorem mapO_congr {α β : Type} {f g : α → Option β} {l : List α}
    (h : ∀ x ∈ l, f x = g x) : mapO f l = mapO g l := by
  induction l with
  | nil => rfl
  | cons x xs ih =>
    rw [mapO_cons, mapO_cons, h x (by simp),
      ih (fun z hz => h z (by simp [hz]))]

theorem getD_mem {γ : Type} {l : List γ} {d : Nat} (h : d < l.length)
    (dflt : γ) : l.getD d dflt ∈ l := by
  rw [List.getD_eq_getElem?_getD, List.getElem?_eq_getElem h]
  exact List.getElem_mem h

/-! ### Claims: choose selection semantics (C6) -/

/-- C6: `choose(i, o0, o1)` with equal-dimension options, under both
backends.  Scalar index: `i = 0` returns `o0` and `i = 1` returns `o1`,
per component.  Array index with entries in {0, 1}: per output dimension
the result selects elementwise between the corresponding components of
`o0` and `o1` — `o0`'s entry where the index is 0, `o1`'s where it is 1
(`zipSelect`). -/
theorem C6_choose_select {α : Type} :
    (∀ (fuel : Nat) (s : List Nat) (o0 o1 : List (PyVal α)),
      1 ≤ fuel → o0.length = o1.length →
      py_choose fuel (.scalar 0) [o0, o1] = some o0 ∧
      py_choose fuel (.scalar 1) [o0, o1] = some o1 ∧
      np_choose s (.scalar 0) [o0, o1] = some o0 ∧
      np_choose s (.scalar 1) [o0, o1] = some o1) ∧
    (∀ (fuel : Nat) (s : List Nat) (i : PyVal Nat) (o0 o1 : List (PyVal α)),
      s ≠ [] → hasShapeS s i = true →
      (∀ c ∈ o0, hasShapeS s c = true) →
      (∀ c ∈ o1, hasShapeS s c = true) →
      o0.length = o1.length → allLeS s i 1 = true → s.length < fuel →
      ∃ res, py_choose fuel i [o0, o1] = some res ∧
        np_choose s i [o0, o1] = some res ∧
        res.length = o0.length ∧
        ∀ d, d < o0.length →
          res[d]? = zipSelect s i (o0.getD d (PyVal.list []))
            (o1.getD d (PyVal.list []))) := by
  have hall : ∀ (o0 o1 : List (PyVal α)), o0.length = o1.length →
      ∀ o ∈ o0 :: [o1], o0.length ≤ o.length := by
    intro o0 o1 hlen o ho
    rcases List.mem_cons.1 ho with rfl | ho2
    · omega
    · rcases List.mem_singleton.1 ho2 with rfl
      omega
  constructor
  · intro fuel s o0 o1 hfuel hlen
    cases fuel with
    | zero => omega
    | succ f =>
      have hcols := chooseCols_spec o0 [o1] (hall o0 o1 hlen)
      have hmem : ∀ c ∈ (List.range o0.length).map
          (fun d => [o0.getD d (PyVal.list []), o1.getD d (PyVal.list [])]),
          ∃ d, d < o0.length ∧
            c = [o0.getD d (PyVal.list []), o1.getD d (PyVal.list [])] := by
        intro c hc
        obtain ⟨d, hd, rfl⟩ := List.mem_map.1 hc
        exact ⟨d, List.mem_range.1 hd, rfl⟩
      have h0 : ∀ g : List (PyVal α) → Option (PyVal α),
          (∀ a b : PyVal α, g [a, b] = some a) →
          mapO g ((List.range o0.length).map
            (fun d => [o0.getD d (PyVal.list []), o1.getD d (PyVal.list [])]))
            = some o0 := by
        intro g hg
        rw [mapO_map]
        have := mapO_eq_some_of_forall
          (fun d => g [o0.getD d (PyVal.list []), o1.getD d (PyVal.list [])])
          (fun d => o0.getD d (PyVal.list [])) (List.range o0.length)
          (fun d _ => hg _ _)
        rw [this, map_range_getD]
      have h1 : ∀ g : List (PyVal α) → Option (PyVal α),
          (∀ a b : PyVal α, g [a, b] = some b) →
          mapO g ((List.range o0.length).map
            (fun d => [o0.getD d (PyVal.list []), o1.getD d (PyVal.list [])]))
            = some o1 := by
        intro g hg
        rw [mapO_map]
        have := mapO_eq_some_of_forall
          (fun d => g [o0.getD d (PyVal.list []), o1.getD d (PyVal.list [])])
          (fun d => o1.getD d (PyVal.list [])) (List.range o0.length)
          (fun d _ => hg _ _)
        rw [this, hlen, map_range_getD]
      refine ⟨?_, ?_, ?_, ?_⟩
      · simp only [py_choose, Option.bind_eq_bind, hcols, Option.some_bind]
        exact h0 _ (fun a b => rfl)
      · simp only [py_choose, Option.bind_eq_bind, hcols, Option.some_bind]
        exact h1 _ (fun a b => rfl)
      · simp only [np_choose, Option.bind_eq_bind, hcols, Option.some_bind]
        exact h0 _ (fun a b => rfl)
      · simp only [np_choose, Option.bind_eq_bind, hcols, Option.some_bind]
        exact h1 _ (fun a b => rfl)
  · intro fuel s i o0 o1 hs hi h0mem h1mem hlen hle hfuel
    have hcols := chooseCols_spec o0 [o1] (hall o0 o1 hlen)
    have hsel : ∀ d, d < o0.length →
        ∃ r, zipSelect s i (o0.getD d (PyVal.list []))
          (o1.getD d (PyVal.list [])) = some r := by
      intro d hd
      exact zipSelect_isSome s i _ _ hi
        (h0mem _ (getD_mem hd _))
        (h1mem _ (getD_mem (by omega) _))
    obtain ⟨res, hres, hf2⟩ := mapO_forall2
      (fun d => zipSelect s i (o0.getD d (PyVal.list []))
        (o1.getD d (PyVal.list [])))
      (List.range o0.length)
      (fun d _ => by
        obtain ⟨r, hr⟩ := hsel d (List.mem_range.1 (by assumption))
        exact ⟨r, hr, hr⟩)
    have hreslen : res.length = o0.length := by
      have := List.Forall₂.length_eq hf2
      simpa using this
    have hresget : ∀ d, d < o0.length →
        res[d]? = zipSelect s i (o0.getD d (PyVal.list []))
          (o1.getD d (PyVal.list [])) := by
      intro d hd
      have hgets := (List.forall₂_iff_get.1 hf2).2 d (by omega) (by simp [hd])
      simp only [List.get_eq_getElem, List.getElem_range] at hgets
      rw [List.getElem?_eq_getElem (by omega : d < res.length), hgets]
    -- the fallback path
    have hpy : py_choose fuel i [o0, o1] = some res := by
      have hmc : mapO (fun d => choose_descend fuel i
            (List.map (fun o => o.getD d (PyVal.list [])) [o0, o1]))
            (List.range o0.length) =
          mapO (fun d => zipSelect s i (o0.getD d (PyVal.list []))
            (o1.getD d (PyVal.list []))) (List.range o0.length) := by
        refine mapO_congr ?_
        intro d hd
        have hd2 := List.mem_range.1 hd
        simp only [List.map_cons, List.map_nil]
        exact choose_descend_eq_zipSelect s i _ _ fuel hi
          (h0mem _ (getD_mem hd2 _))
          (h1mem _ (getD_mem (show d < o1.length by omega) _))
          hle hfuel
      simp only [py_choose, Option.bind_eq_bind, hcols, Option.some_bind]
      rw [mapO_map, hmc]
      exact hres
    -- the accelerated path
    have hnp : np_choose s i [o0, o1] = some res := by
      obtain ⟨n, s2, rfl⟩ : ∃ n s2, s = n :: s2 := by
        cases s with
        | nil => exact absurd rfl hs
        | cons n s2 => exact ⟨n, s2, rfl⟩
      obtain ⟨is, rfl, _, _⟩ := (hasShapeS_cons_iff n s2 i).1 hi
      have hmc : mapO (fun d => np_chooseArr (n :: s2) (.list is)
            (List.map (fun o => o.getD d (PyVal.list [])) [o0, o1]))
            (List.range o0.length) =
          mapO (fun d => zipSelect (n :: s2) (.list is)
            (o0.getD d (PyVal.list []))
            (o1.getD d (PyVal.list []))) (List.range o0.length) := by
        refine mapO_congr ?_
        intro d hd
        have hd2 := List.mem_range.1 hd
        simp only [List.map_cons, List.map_nil]
        exact np_chooseArr_eq_zipSelect (n :: s2) (.list is) _ _ hi
          (h0mem _ (getD_mem hd2 _))
          (h1mem _ (getD_mem (show d < o1.length by omega) _))
          hle
      show (chooseCols [o0, o1]).bind
          (fun columns =>
            (np_map (fun x => x % 256) (n :: s2) (PyVal.list is)).bind
              (fun iU8 => mapO (fun column => np_chooseArr (n :: s2) iU8 column)
                columns)) =
        some res
      rw [hcols, Option.some_bind]
      rw [np_map_mod256_id (n :: s2) (.list is) hi hle, Option.some_bind]
      simp only [mapO_map]
      rw [hmc]
      exact hres
    exact ⟨res, hpy, hnp, hreslen, hresget⟩

/-- C6 witness: a scalar index and a 0/1 index vector over
one-component options of shape `[2]`. -/
theorem C6_choose_select_witness :
    (py_choose 1 (.scalar 0) [[PyVal.scalar (5 : Int)], [PyVal.scalar 6]] =
        some [PyVal.scalar 5] ∧
      py_choose 1 (.scalar 1) [[PyVal.scalar (5 : Int)], [PyVal.scalar 6]] =
        some [PyVal.scalar 6] ∧
      np_choose [] (.scalar 0) [[PyVal.scalar (5 : Int)], [PyVal.scalar 6]] =
        some [PyVal.scalar 5] ∧
      np_choose [] (.scalar 1) [[PyVal.scalar (5 : Int)], [PyVal.scalar 6]] =
        some [PyVal.scalar 6]) ∧
    (∃ res,
      py_choose 2 (.list [.scalar 0, .scalar 1])
          [[PyVal.list [PyVal.scalar (10 : Int), PyVal.scalar 11]],
            [PyVal.list [PyVal.scalar 20, PyVal.scalar 21]]] = some res ∧
      np_choose [2] (.list [.scalar 0, .scalar 1])
          [[PyVal.list [PyVal.scalar (10 : Int), PyVal.scalar 11]],
            [PyVal.list [PyVal.scalar 20, PyVal.scalar 21]]] = some res ∧
      res.length = 1 ∧
      ∀ d, d < 1 →
        res[d]? = zipSelect [2] (.list [.scalar 0, .scalar 1])
          ([PyVal.list [PyVal.scalar (10 : Int), PyVal.scalar 11]].getD d
            (PyVal.list []))
          ([PyVal.list [PyVal.scalar 20, PyVal.scalar 21]].getD d
            (PyVal.list []))) := by
  constructor
  · exact (@C6_choose_select Int).1 1 [] [PyVal.scalar 5] [PyVal.scalar 6]
      (by omega) rfl
  · exact (@C6_choose_select Int).2 2 [2] (.list [.scalar 0, .scalar 1])
      [PyVal.list [PyVal.scalar 10, PyVal.scalar 11]]
      [PyVal.list [PyVal.scalar 20, PyVal.scalar 21]]
      (by simp) rfl
      (by intro c hc; fin_cases hc; rfl)
      (by intro c hc; fin_cases hc; rfl)
      rfl rfl (by decide)

theorem isBottom_of_scalars {α : Type} {xs : List (PyVal α)}
    (hne : xs ≠ []) (h : ∀ t ∈ xs, hasShapeS [] t = true) :
    isBottom xs = true := by
  cases xs with
  | nil => exact absurd rfl hne
  | cons x rest =>
    obtain ⟨v, rfl⟩ := (hasShapeS_nil_iff x).1 (h x (by simp))
    simp [isBottom, PyVal.isList]

theorem not_isBottom_of_lists {α : Type} {xs : List (PyVal α)} {m : Nat}
    {s : List Nat} (h : ∀ t ∈ xs, hasShapeS (m :: s) t = true) :
    isBottom xs = false := by
  rw [isBottom, List.any_eq_false]
  intro t ht
  obtain ⟨ts, rfl, _, _⟩ := (hasShapeS_cons_iff m s t).1 (h t ht)
  simp [PyVal.isList]

theorem flatten_scalar_eq {α : Type} :
    ∀ {parts : List (List α)} {xs : List (PyVal α)},
      List.Forall₂ (fun ls t => ∃ v, ls = [v] ∧ t = PyVal.scalar v) parts xs →
      parts.flatten.map PyVal.scalar = xs := by
  intro parts xs h
  induction h with
  | nil => rfl
  | cons hp _ ih =>
    obtain ⟨v, rfl, rfl⟩ := hp
    simpa using ih

theorem mapO_of_forall2_map {γ δ ε : Type} (g : γ → Option ε) (h2 : δ → ε) :
    ∀ {ys : List δ} {xs : List γ},
      List.Forall₂ (fun y x => g x = some (h2 y)) ys xs →
      mapO g xs = some (ys.map h2) := by
  intro ys xs h
  induction h with
  | nil => rfl
  | cons hp _ ih => simp [mapO_cons, hp, ih]

/-- Depth 0 under the fallback: `f` is invoked once per scalar leaf, with
the scalar itself. -/
theorem py_vectorized_calls_depth0 {α : Type} :
    ∀ (s : List Nat) (a : PyVal α) (fuel : Nat),
      hasShapeS s a = true → posShape s = true → 1 ≤ s.length →
      s.length < fuel →
      ∃ leaves, flattenS s a = some leaves ∧
        py_vectorized_calls fuel a 0 = some (leaves.map PyVal.scalar) := by
  intro s
  induction s with
  | nil => intro a fuel _ _ h; simp at h
  | cons n s ih =>
    intro a fuel ha hpos _ hfuel
    obtain ⟨xs, rfl, hlen, hmem⟩ := (hasShapeS_cons_iff n s a).1 ha
    have hn : 0 < n := by
      have := List.all_eq_true.1 hpos n (by simp)
      simpa using this
    have hpos2 : posShape s = true := by
      simp only [posShape, List.all_eq_true] at hpos ⊢
      intro d hd
      exact hpos d (by simp [hd])
    cases fuel with
    | zero => simp at hfuel
    | succ f =>
      cases s with
      | nil =>
        have hb : isBottom xs = true :=
          isBottom_of_scalars
            (by intro h; subst h; simp at hlen; omega) hmem
        obtain ⟨parts, hparts, hf2⟩ := @mapO_forall2 (PyVal α) (List α)
          (fun ls t => ∃ v, ls = [v] ∧ t = PyVal.scalar v) (flattenS []) xs
          (fun t ht => by
            obtain ⟨v, rfl⟩ := (hasShapeS_nil_iff t).1 (hmem t ht)
            exact ⟨[v], rfl, v, rfl, rfl⟩)
        refine ⟨parts.flatten, ?_, ?_⟩
        · rw [flattenS, if_pos hlen, hparts]
          rfl
        · rw [py_vectorized_calls, hb]
          simp only [if_true]
          rw [flatten_scalar_eq hf2]
      | cons s2 srest =>
        have hb : isBottom xs = false := not_isBottom_of_lists hmem
        obtain ⟨parts, hparts, hf2⟩ := mapO_forall2 (flattenS (s2 :: srest)) xs
          (fun t ht => ih t f (hmem t ht) hpos2 (by simp)
            (by simp only [List.length_cons] at hfuel ⊢; omega))
        have hcalls : mapO (fun x => py_vectorized_calls f x 0) xs =
            some (parts.map (fun leaves => leaves.map PyVal.scalar)) :=
          mapO_of_forall2_map _ _ hf2
        refine ⟨parts.flatten, ?_, ?_⟩
        · rw [flattenS, if_pos hlen, hparts]
          rfl
        · rw [py_vectorized_calls, hb]
          simp only [Bool.false_eq_true, if_false]
          rw [hcalls]
          simp [List.map_flatten]

/-- Depth ≥ 1 under the fallback: `f` is invoked once per innermost row,
with the row itself. -/
theorem py_vectorized_calls_depthPos {α : Type} :
    ∀ (s : List Nat) (a : PyVal α) (fuel d : Nat),
      hasShapeS s a = true → posShape s = true → 1 ≤ s.length →
      s.length < fuel → 1 ≤ d →
      ∃ rows, bottomRowsS s a = some rows ∧
        py_vectorized_calls fuel a d = some rows := by
  intro s
  induction s with
  | nil => intro a fuel d _ _ h; simp at h
  | cons n s ih =>
    intro a fuel d ha hpos _ hfuel hd
    obtain ⟨xs, rfl, hlen, hmem⟩ := (hasShapeS_cons_iff n s a).1 ha
    have hn : 0 < n := by
      have := List.all_eq_true.1 hpos n (by simp)
      simpa using this
    have hpos2 : posShape s = true := by
      simp only [posShape, List.all_eq_true] at hpos ⊢
      intro q hq
      exact hpos q (by simp [hq])
    cases fuel with
    | zero => simp at hfuel
    | succ f =>
      cases s with
      | nil =>
        have hb : isBottom xs = true :=
          isBottom_of_scalars
            (by intro h; subst h; simp at hlen; omega) hmem
        refine ⟨[.list xs], ?_, ?_⟩
        · rw [bottomRowsS, if_pos hlen]
        · rw [py_vectorized_calls, hb, if_pos rfl, if_neg (by omega : ¬ (d = 0))]
      | cons s2 srest =>
        have hb : isBottom xs = false := not_isBottom_of_lists hmem
        obtain ⟨parts, hparts, hf2⟩ := @mapO_forall2 (PyVal α)
          (List (PyVal α))
          (fun rows t => py_vectorized_calls f t d = some rows)
          (bottomRowsS (s2 :: srest)) xs
          (fun t ht => by
            obtain ⟨rows, h1, h2⟩ := ih t f d (hmem t ht) hpos2 (by simp)
              (by simp only [List.length_cons] at hfuel ⊢; omega) hd
            exact ⟨rows, h1, h2⟩)
        have hcalls : mapO (fun x => py_vectorized_calls f x d) xs =
            some (parts.map id) :=
          mapO_of_forall2_map _ id hf2
        refine ⟨parts.flatten, ?_, ?_⟩
        · rw [bottomRowsS, if_pos hlen, hparts]
          rfl
        · rw [py_vectorized_calls, hb]
          simp only [Bool.false_eq_true, if_false]
          rw [hcalls]
          simp

/-! ### Claims: vectorized depth contract (C4) -/

/-- C4 counterexample: under the accelerated backend,
`vectorized(f, [1,2,3], depth=0)` invokes `f` exactly ONCE — with the
whole row promoted to a single-row 2-D array — not three times, because
the accelerated implementation ignores `depth` entirely. -/
theorem C4_counterexample :
    np_vectorized_calls [3]
        (PyVal.list [PyVal.scalar (1 : Int), PyVal.scalar 2, PyVal.scalar 3]) 0 =
      [PyVal.list [PyVal.list [PyVal.scalar 1, PyVal.scalar 2, PyVal.scalar 3]]] ∧
    (np_vectorized_calls [3]
        (PyVal.list [PyVal.scalar (1 : Int), PyVal.scalar 2, PyVal.scalar 3]) 0).length ≠ 3 := by
  exact ⟨rfl, by decide⟩

/-- C4 amended: the depth contract holds for the FALLBACK backend: depth
0 invokes `f` once per scalar leaf, with the scalar; depth ≥ 1 invokes
`f` once per innermost row, with the row.  The ACCELERATED backend
ignores `depth` and invokes `f` exactly once, with the whole array (1-D
input promoted to a single-row 2-D array). -/
theorem C4_vectorized_depth {α : Type} :
    (∀ (s : List Nat) (a : PyVal α) (fuel : Nat),
      hasShapeS s a = true → posShape s = true → 1 ≤ s.length →
      s.length < fuel →
      ∃ leaves, flattenS s a = some leaves ∧
        py_vectorized_calls fuel a 0 = some (leaves.map PyVal.scalar)) ∧
    (∀ (s : List Nat) (a : PyVal α) (fuel d : Nat),
      hasShapeS s a = true → posShape s = true → 1 ≤ s.length →
      s.length < fuel → 1 ≤ d →
      ∃ rows, bottomRowsS s a = some rows ∧
        py_vectorized_calls fuel a d = some rows) ∧
    (∀ (s : List Nat) (a : PyVal α) (d : Nat),
      np_vectorized_calls s a d =
        [if s.length = 1 then PyVal.list [a] else a]) := by
  refine ⟨py_vectorized_calls_depth0, py_vectorized_calls_depthPos, ?_⟩
  intro s a d
  by_cases h : s.length = 1
  · simp [np_vectorized_calls, h]
  · simp [np_vectorized_calls, h]

/-- C4 amended witness: the spec's own example `[1, 2, 3]` — three
scalar calls at depth 0, one row call at depth 1, one call under the
accelerated backend. -/
theorem C4_vectorized_depth_witness :
    (∃ leaves, flattenS [3]
        (PyVal.list [PyVal.scalar (1 : Int), PyVal.scalar 2, PyVal.scalar 3]) =
        some leaves ∧
      py_vectorized_calls 2
        (PyVal.list [PyVal.scalar (1 : Int), PyVal.scalar 2, PyVal.scalar 3]) 0 =
        some (leaves.map PyVal.scalar)) ∧
    (∃ rows, bottomRowsS [3]
        (PyVal.list [PyVal.scalar (1 : Int), PyVal.scalar 2, PyVal.scalar 3]) =
        some rows ∧
      py_vectorized_calls 2
        (PyVal.list [PyVal.scalar (1 : Int), PyVal.scalar 2, PyVal.scalar 3]) 1 =
        some rows) ∧
    np_vectorized_calls [3]
        (PyVal.list [PyVal.scalar (1 : Int), PyVal.scalar 2, PyVal.scalar 3]) 0 =
      [if ([3] : List Nat).length = 1
        then PyVal.list [PyVal.list [PyVal.scalar 1, PyVal.scalar 2, PyVal.scalar 3]]
        else PyVal.list [PyVal.scalar 1, PyVal.scalar 2, PyVal.scalar 3]] := by
  refine ⟨?_, ?_, ?_⟩
  · exact (@C4_vectorized_depth Int).1 [3] _ 2 (by decide) (by decide)
      (by decide) (by decide)
  · exact (@C4_vectorized_depth Int).2.1 [3] _ 2 1 (by decide) (by decide)
      (by decide) (by decide) (by decide)
  · exact (@C4_vectorized_depth Int).2.2 [3] _ 0

/-! ### Lemmas: instantiate_elements (C8) -/

/-- The probing loop stops immediately once the current level exceeds the
cap `d`, whatever the value. -/
theorem probeLoop_stop {α : Type} (d fuel : Nat) (e : PyVal α) (depth : Nat)
    (hf : 0 < fuel) (hd : d < depth) : probeLoop d fuel e depth = some depth := by
  cases fuel with
  | zero => omega
  | succ f =>
    cases e with
    | scalar x => rw [probeLoop, if_neg (by omega)]
    | list xs =>
      cases xs with
      | nil => rw [probeLoop, if_neg (by omega)]
      | cons e0 rest => rw [probeLoop, if_neg (by omega)]

/-- The probing loop measures the first-spine depth, capped: starting at
nesting level `depth` on a value of shape `sp`, it stops at
`min (d + 1) (depth + sp.length)`. -/
theorem probeLoop_spec {α : Type} :
    ∀ (sp : List Nat) (e : PyVal α) (d depth fuel : Nat),
      hasShapeS sp e = true → posShape sp = true → depth ≤ d →
      d + 1 - depth < fuel →
      probeLoop d fuel e depth = some (min (d + 1) (depth + sp.length)) := by
  intro sp
  induction sp with
  | nil =>
    intro e d depth fuel he _ hdep hfuel
    obtain ⟨v, rfl⟩ := (hasShapeS_nil_iff e).1 he
    cases fuel with
    | zero => omega
    | succ f =>
      rw [probeLoop, if_pos hdep]
      congr 1
      simp only [List.length_nil, Nat.add_zero]
      omega
  | cons n sp ih =>
    intro e d depth fuel he hpos hdep hfuel
    obtain ⟨xs, rfl, hlen, hmem⟩ := (hasShapeS_cons_iff n sp e).1 he
    have hn : 0 < n := by
      have := List.all_eq_true.1 hpos n (by simp)
      simpa using this
    have hpos2 : posShape sp = true := by
      simp only [posShape, List.all_eq_true] at hpos ⊢
      intro q hq
      exact hpos q (by simp [hq])
    cases fuel with
    | zero => omega
    | succ f =>
      cases xs with
      | nil => simp at hlen; omega
      | cons e0 rest =>
        rw [probeLoop, if_pos hdep]
        show probeLoop d f e0 (depth + 1) =
          some (min (d + 1) (depth + (n :: sp).length))
        by_cases hlast : depth = d
        · subst hlast
          cases f with
          | zero => omega
          | succ f2 =>
            rw [probeLoop_stop depth (f2 + 1) e0 (depth + 1) (by omega)
              (by omega)]
            congr 1
            simp only [List.length_cons]
            omega
        · rw [ih e0 d (depth + 1) f (hmem e0 (by simp)) hpos2 (by omega)
            (by omega)]
          congr 1
          simp only [List.length_cons]
          omega

/-- The two `instantiate_elements` implementations agree on rectangular
arrays with positive dimensions, for every depth `1 ≤ d ≤ s.length`. -/
theorem instantiate_elements_eq {α ε : Type} (ne : PyVal α → ε) :
    ∀ (s : List Nat) (a : PyVal α) (fuel d : Nat),
      hasShapeS s a = true → posShape s = true → 1 ≤ d → d ≤ s.length →
      s.length < fuel →
      py_instantiate_elements ne fuel a d = np_instantiate_elements ne s a d := by
  intro s
  induction s with
  | nil => intro a fuel d _ _ _ h; simp at h; omega
  | cons n sp ih =>
    intro a fuel d ha hpos hd1 hd2 hfuel
    obtain ⟨xs, rfl, hlen, hmem⟩ := (hasShapeS_cons_iff n sp a).1 ha
    have hn : 0 < n := by
      have := List.all_eq_true.1 hpos n (by simp)
      simpa using this
    have hpos2 : posShape sp = true := by
      simp only [posShape, List.all_eq_true] at hpos ⊢
      intro q hq
      exact hpos q (by simp [hq])
    cases fuel with
    | zero => simp at hfuel
    | succ f =>
      cases xs with
      | nil => simp at hlen; omega
      | cons e0 rest =>
        have hprobe : probeLoop d (d + 1) e0 1 =
            some (min (d + 1) (1 + sp.length)) :=
          probeLoop_spec sp e0 d 1 (d + 1) (hmem e0 (by simp)) hpos2
            (by omega) (by omega)
        rw [py_instantiate_elements]
        simp only [hprobe, Option.bind_eq_bind, Option.some_bind]
        by_cases hwrap : d = sp.length + 1
        · rw [if_pos (by omega)]
          rw [np_instantiate_elements, if_pos hlen,
            if_pos (by simp only [List.length_cons]; omega)]
          rfl
        · have hdle : d ≤ sp.length := by
            simp only [List.length_cons] at hd2
            omega
          rw [if_neg (by omega)]
          rw [np_instantiate_elements, if_pos hlen,
            if_neg (by simp only [List.length_cons]; omega)]
          have hcongr : mapO (fun e => py_instantiate_elements ne f e d)
              (e0 :: rest) =
              mapO (fun x => np_instantiate_elements ne sp x d) (e0 :: rest) := by
            refine mapO_congr ?_
            intro t ht
            exact ih t f d (hmem t ht) hpos2 hd1 hdle
              (by simp only [List.length_cons] at hfuel; omega)
          rw [hcongr]

/-- The accelerated `instantiate_elements` realizes the spec-side tree
description on rectangular arrays. -/
theorem np_instantiate_spec {α ε : Type} (ne : PyVal α → ε) :
    ∀ (s : List Nat) (a : PyVal α) (d : Nat), hasShapeS s a = true →
      np_instantiate_elements ne s a d = spec_instantiate_tree ne s.length a d := by
  intro s
  induction s with
  | nil =>
    intro a d ha
    obtain ⟨v, rfl⟩ := (hasShapeS_nil_iff a).1 ha
    rfl
  | cons n sp ih =>
    intro a d ha
    obtain ⟨xs, rfl, hlen, hmem⟩ := (hasShapeS_cons_iff n sp a).1 ha
    rw [np_instantiate_elements, if_pos hlen]
    simp only [List.length_cons]
    rw [spec_instantiate_tree]
    by_cases hd : sp.length + 1 = d
    · rw [if_pos hd, if_pos hd]
    · rw [if_neg hd, if_neg hd]
      have hcongr : mapO (fun x => np_instantiate_elements ne sp x d) xs =
          mapO (fun x => spec_instantiate_tree ne sp.length x d) xs := by
        refine mapO_congr ?_
        intro t ht
        exact ih t d (hmem t ht)
      rw [hcongr]

/-- C8: on a numeric array rectangular down to its full nesting depth with
positive dimensions, and for every wrap depth `1 ≤ d ≤ len(shape)`, both
`instantiate_elements` implementations return the symbolic tree isomorphic
to the array's shape above depth `d`: every branch point an ordered-list
node, every position with `d` levels remaining wrapped by `new_element`
(given the scalar when `d = 1`, the raw depth-`d` sub-array when `d > 1`);
in particular, on `[[1,2],[3,4]]` depth 1 gives
`List(List(ne 1, ne 2), List(ne 3, ne 4))` and depth 2 gives
`List(ne [1,2], ne [3,4])`, under both backends. -/
theorem C8_instantiate_elements {α ε : Type} (ne : PyVal α → ε) :
    (∀ (s : List Nat) (a : PyVal α) (fuel d : Nat),
      hasShapeS s a = true → posShape s = true → 1 ≤ d → d ≤ s.length →
      s.length < fuel →
      py_instantiate_elements ne fuel a d =
        spec_instantiate_tree ne s.length a d ∧
      np_instantiate_elements ne s a d =
        spec_instantiate_tree ne s.length a d) ∧
    (∀ (x1 x2 x3 x4 : α),
      py_instantiate_elements ne 3
        (.list [.list [.scalar x1, .scalar x2],
                .list [.scalar x3, .scalar x4]]) 1 =
        some (.listE [.listE [.elem (ne (.scalar x1)), .elem (ne (.scalar x2))],
                      .listE [.elem (ne (.scalar x3)), .elem (ne (.scalar x4))]]) ∧
      np_instantiate_elements ne [2, 2]
        (.list [.list [.scalar x1, .scalar x2],
                .list [.scalar x3, .scalar x4]]) 1 =
        some (.listE [.listE [.elem (ne (.scalar x1)), .elem (ne (.scalar x2))],
                      .listE [.elem (ne (.scalar x3)), .elem (ne (.scalar x4))]]) ∧
      py_instantiate_elements ne 3
        (.list [.list [.scalar x1, .scalar x2],
                .list [.scalar x3, .scalar x4]]) 2 =
        some (.listE [.elem (ne (.list [.scalar x1, .scalar x2])),
                      .elem (ne (.list [.scalar x3, .scalar x4]))]) ∧
      np_instantiate_elements ne [2, 2]
        (.list [.list [.scalar x1, .scalar x2],
                .list [.scalar x3, .scalar x4]]) 2 =
        some (.listE [.elem (ne (.list [.scalar x1, .scalar x2])),
                      .elem (ne (.list [.scalar x3, .scalar x4]))])) := by
  constructor
  · intro s a fuel d ha hpos hd1 hd2 hfuel
    have hnp := np_instantiate_spec ne s a d ha
    refine ⟨?_, hnp⟩
    rw [instantiate_elements_eq ne s a fuel d ha hpos hd1 hd2 hfuel]
    exact hnp
  · intro x1 x2 x3 x4
    exact ⟨rfl, rfl, rfl, rfl⟩

/-- The C8 equivalence at a concrete instance: `[[1,2],[3,4]]` of shape
`[2,2]`, wrap depth 1, fuel 3, identity wrapper. -/
theorem C8_instantiate_elements_witness :
    hasShapeS [2, 2]
        (PyVal.list [PyVal.list [PyVal.scalar (1 : Int), PyVal.scalar 2],
          PyVal.list [PyVal.scalar 3, PyVal.scalar 4]]) = true ∧
      posShape [2, 2] = true ∧ 1 ≤ 1 ∧ 1 ≤ ([2, 2] : List Nat).length ∧
      ([2, 2] : List Nat).length < 3 ∧
      (py_instantiate_elements (fun v : PyVal Int => v) 3
          (PyVal.list [PyVal.list [PyVal.scalar 1, PyVal.scalar 2],
            PyVal.list [PyVal.scalar 3, PyVal.scalar 4]]) 1 =
        spec_instantiate_tree (fun v : PyVal Int => v) 2
          (PyVal.list [PyVal.list [PyVal.scalar 1, PyVal.scalar 2],
            PyVal.list [PyVal.scalar 3, PyVal.scalar 4]]) 1) :=
  ⟨by decide, by decide, by decide, by decide, by decide,
    ((C8_instantiate_elements (fun v : PyVal Int => v)).1 [2, 2]
      (PyVal.list [PyVal.list [PyVal.scalar 1, PyVal.scalar 2],
        PyVal.list [PyVal.scalar 3, PyVal.scalar 4]]) 3 1
      (by decide) (by decide) (by decide) (by decide) (by decide)).1⟩

/-! ### Lemmas: conditional frame effect (C9) -/

theorem getD_set_ne {α : Type} (l : List α) (i q : Nat) (v d : α)
    (h : i ≠ q) : (l.set i v).getD q d = l.getD q d := by
  simp [List.getD_eq_getElem?_getD, List.getElem?_set_ne h]

theorem getD_append_lt {α : Type} (l l' : List α) (q : Nat) (d : α)
    (h : q < l.length) : (l ++ l').getD q d = l.getD q d := by
  simp [List.getD_eq_getElem?_getD, List.getElem?_append, h]

/-- Whatever the masked selections and scatters produce, a successful
accelerated `conditional` only ever writes through the reference of the
freshly allocated copy. -/
theorem np_conditional_st_result {α : Type} (s : Store α) (r : Nat)
    (cond : α → Bool) (t f : List α → List α) :
    ∀ s2, (np_conditional_st s r cond t f).1 = some s2 →
      ∃ b1 b2, s2 =
        ((Store.mk (s.bufs ++ [s.read r])).write s.bufs.length b1).write
          s.bufs.length b2 := by
  intro s2 h
  simp only [np_conditional_st, Store.alloc, Option.bind_eq_bind,
    Option.bind_eq_some, Option.pure_def, Option.some.injEq] at h
  obtain ⟨sel, hsel, b1, hb1, sel2, hsel2, b2, hb2, heq⟩ := h
  exact ⟨b1, b2, heq.symm⟩

/-- C9: `conditional` never mutates the caller's storage.  Accelerated
backend, against the heap model: the returned reference is the freshly
allocated copy, distinct from the caller's reference, and on success every
pre-existing buffer — the caller's array in particular — reads back
unchanged.  Fallback backend: the result is a freshly appended value and
every pre-existing heap entry reads back unchanged. -/
theorem C9_conditional_no_mutation {α : Type} (s : Store α) (r : Nat)
    (cond : α → Bool) (t f : List α → List α) (fuel : Nat)
    (sp : List (PyVal α)) (pr : Nat) (pcond : α → Bool) (pt pf : α → α)
    (hr : r < s.bufs.length) (hpr : pr < sp.length) :
    ((np_conditional_st s r cond t f).2 = s.bufs.length ∧
      (np_conditional_st s r cond t f).2 ≠ r ∧
      (∀ s2, (np_conditional_st s r cond t f).1 = some s2 →
        (∀ q, q < s.bufs.length → s2.read q = s.read q) ∧
        s2.read r = s.read r)) ∧
    ((py_conditional_st fuel sp pr pcond pt pf).2 = sp.length ∧
      (py_conditional_st fuel sp pr pcond pt pf).2 ≠ pr ∧
      (∀ l2, (py_conditional_st fuel sp pr pcond pt pf).1 = some l2 →
        (∀ q, q < sp.length →
          l2.getD q (PyVal.list []) = sp.getD q (PyVal.list [])) ∧
        l2.getD pr (PyVal.list []) = sp.getD pr (PyVal.list []))) := by
  constructor
  · refine ⟨rfl, ?_, ?_⟩
    · show s.bufs.length ≠ r
      omega
    intro s2 h2
    obtain ⟨b1, b2, rfl⟩ := np_conditional_st_result s r cond t f s2 h2
    have hq : ∀ q, q < s.bufs.length →
        ((((Store.mk (s.bufs ++ [s.read r])).write s.bufs.length b1).write
          s.bufs.length b2).read q) = s.read q := by
      intro q hql
      simp only [Store.write, Store.read]
      rw [getD_set_ne _ _ _ _ _ (by omega), getD_set_ne _ _ _ _ _ (by omega),
        getD_append_lt _ _ _ _ hql]
    exact ⟨hq, hq r hr⟩
  · refine ⟨rfl, ?_, ?_⟩
    · show sp.length ≠ pr
      omega
    intro l2 h2
    obtain ⟨v, hv, hl2⟩ := Option.map_eq_some'.1 h2
    subst hl2
    have hq : ∀ q, q < sp.length →
        (sp ++ [v]).getD q (PyVal.list []) = sp.getD q (PyVal.list []) := by
      intro q hql
      exact getD_append_lt _ _ _ _ hql
    exact ⟨hq, hq pr hpr⟩

/-- The C9 frame property at a concrete instance: a one-buffer store under
the accelerated backend, a one-entry heap under the fallback. -/
theorem C9_conditional_no_mutation_witness :
    0 < (Store.mk [[(1 : Int), 2, 3]]).bufs.length ∧
      0 < ([PyVal.list [PyVal.scalar (1 : Int)]] : List (PyVal Int)).length ∧
      ((np_conditional_st (Store.mk [[(1 : Int), 2, 3]]) 0
          (fun x => x % 2 == 1) (fun l => l.map (fun x => x * 10))
          (fun l => l)).2 = (Store.mk [[(1 : Int), 2, 3]]).bufs.length ∧
        (np_conditional_st (Store.mk [[(1 : Int), 2, 3]]) 0
          (fun x => x % 2 == 1) (fun l => l.map (fun x => x * 10))
          (fun l => l)).2 ≠ 0 ∧
        (∀ s2, (np_conditional_st (Store.mk [[(1 : Int), 2, 3]]) 0
            (fun x => x % 2 == 1) (fun l => l.map (fun x => x * 10))
            (fun l => l)).1 = some s2 →
          (∀ q, q < (Store.mk [[(1 : Int), 2, 3]]).bufs.length →
            s2.read q = (Store.mk [[(1 : Int), 2, 3]]).read q) ∧
          s2.read 0 = (Store.mk [[(1 : Int), 2, 3]]).read 0)) ∧
      ((py_conditional_st 2 [PyVal.list [PyVal.scalar (1 : Int)]] 0
          (fun x => x % 2 == 1) (fun x => x * 10) (fun x => x)).2 =
          ([PyVal.list [PyVal.scalar (1 : Int)]] : List (PyVal Int)).length ∧
        (py_conditional_st 2 [PyVal.list [PyVal.scalar (1 : Int)]] 0
          (fun x => x % 2 == 1) (fun x => x * 10) (fun x => x)).2 ≠ 0 ∧
        (∀ l2, (py_conditional_st 2 [PyVal.list [PyVal.scalar (1 : Int)]] 0
            (fun x => x % 2 == 1) (fun x => x * 10) (fun x => x)).1 =
            some l2 →
          (∀ q, q < ([PyVal.list [PyVal.scalar (1 : Int)]] :
              List (PyVal Int)).length →
            l2.getD q (PyVal.list []) =
              ([PyVal.list [PyVal.scalar (1 : Int)]] :
                List (PyVal Int)).getD q (PyVal.list [])) ∧
          l2.getD 0 (PyVal.list []) =
            ([PyVal.list [PyVal.scalar (1 : Int)]] :
              List (PyVal Int)).getD 0 (PyVal.list []))) :=
  ⟨by decide, by decide,
    C9_conditional_no_mutation (Store.mk [[(1 : Int), 2, 3]]) 0
      (fun x => x % 2 == 1) (fun l => l.map (fun x => x * 10)) (fun l => l)
      2 [PyVal.list [PyVal.scalar (1 : Int)]] 0
      (fun x => x % 2 == 1) (fun x => x * 10) (fun x => x)
      (by decide) (by decide)⟩

/-! ### Lemmas: stack/unstack round trip (C3) -/

theorem list_eq_of_getD {γ : Type} (dflt : γ) (l1 l2 : List γ)
    (h : l1.length = l2.length)
    (hp : ∀ i, i < l1.length → l1.getD i dflt = l2.getD i dflt) : l1 = l2 := by
  apply List.ext_getElem h
  intro i h1 h2
  have := hp i h1
  rwa [List.getD_eq_getElem?_getD, List.getD_eq_getElem?_getD,
    List.getElem?_eq_getElem h1, List.getElem?_eq_getElem h2] at this

theorem getD_map_lt {γ δ : Type} (f : γ → δ) (l : List γ) (i : Nat)
    (d : δ) (d0 : γ) (h : i < l.length) :
    (l.map f).getD i d = f (l.getD i d0) := by
  rw [List.getD_eq_getElem?_getD, List.getElem?_map,
    List.getElem?_eq_getElem h, List.getD_eq_getElem?_getD,
    List.getElem?_eq_getElem h]
  rfl

theorem foldl_max_const (k : Nat) :
    ∀ (l : List Nat), (∀ y ∈ l, y = k) → l.foldl max k = k := by
  intro l
  induction l with
  | nil => intro _; rfl
  | cons x xs ih =>
    intro h
    have hx : x = k := h x (by simp)
    subst hx
    simp only [List.foldl_cons, Nat.max_self]
    exact ih (fun y hy => h y (by simp [hy]))

theorem pyMax_const (k : Nat) (l : List Nat) (hne : l ≠ [])
    (h : ∀ y ∈ l, y = k) : pyMax l = some k := by
  cases l with
  | nil => simp at hne
  | cons x xs =>
    have hx : x = k := h x (by simp)
    subst hx
    simp only [pyMax, Option.some.injEq]
    exact foldl_max_const x xs (fun y hy => h y (by simp [hy]))

/-- Transposing twice gives back a rectangular matrix: `rows`, all of
length `n` and `k` of them, transposes to `n` columns of length `k`, which
transpose back to `rows`. -/
theorem colsUpTo_involution {γ : Type} (dflt : γ) (n k : Nat)
    (rows : List (List γ)) (hk : rows.length = k)
    (hlen : ∀ r ∈ rows, r.length = n) :
    ∃ cols, colsUpTo n rows = some cols ∧ cols.length = n ∧
      (∀ c ∈ cols, c.length = k) ∧
      (∀ j, j < n → cols[j]? = some (rows.map (fun r => r.getD j dflt))) ∧
      colsUpTo k cols = some rows := by
  obtain ⟨cols, hc, hclen, hcget⟩ :=
    colsUpTo_spec dflt n rows (fun r hr => (hlen r hr).ge)
  have hcfun : ∀ j, j < n →
      cols.getD j [] = rows.map (fun r => r.getD j dflt) := by
    intro j hj
    have h1 := hcget j hj
    rw [getElem?_eq_some_getD (by omega : j < cols.length) []] at h1
    exact Option.some.inj h1
  have hcollen : ∀ c ∈ cols, c.length = k := by
    intro c hc2
    obtain ⟨j, hj, hje⟩ := List.getElem_of_mem hc2
    have h1 := hcget j (by omega)
    rw [List.getElem?_eq_getElem hj, hje] at h1
    have h2 : c = rows.map (fun r => r.getD j dflt) :=
      Option.some.inj h1
    rw [h2, List.length_map, hk]
  obtain ⟨rows2, hr2, hr2len, hr2get⟩ :=
    colsUpTo_spec dflt k cols (fun c hc2 => (hcollen c hc2).ge)
  have heq : rows2 = rows := by
    apply list_eq_of_getD [] rows2 rows (by omega)
    intro j hj
    have hjk : j < k := by omega
    have h1 := hr2get j hjk
    rw [getElem?_eq_some_getD (by omega : j < rows2.length) []] at h1
    have h2 : rows2.getD j [] = cols.map (fun c => c.getD j dflt) :=
      Option.some.inj h1
    rw [h2]
    have hjrows : j < rows.length := by omega
    have hrjlen : (rows.getD j []).length = n :=
      hlen (rows.getD j []) (getD_mem hjrows [])
    apply list_eq_of_getD dflt
    · rw [List.length_map, hclen, hrjlen]
    · intro i hi
      rw [List.length_map, hclen] at hi
      rw [getD_map_lt _ _ _ _ [] (by omega : i < cols.length),
        hcfun i hi, getD_map_lt _ _ _ _ [] hjrows]
  rw [heq] at hr2
  exact ⟨cols, hc, hclen, hcollen, hcget, hr2⟩

theorem mapO_range_eq {γ δ : Type} (dflt : γ) :
    ∀ (cols : List γ) (f : Nat → Option δ) (g : γ → Option δ),
      (∀ i, i < cols.length → f i = g (cols.getD i dflt)) →
      mapO f (List.range cols.length) = mapO g cols := by
  intro cols
  induction cols with
  | nil => intro f g _; rfl
  | cons c cs ih =>
    intro f g h
    rw [List.length_cons, List.range_succ_eq_map, mapO_cons, mapO_map,
      mapO_cons]
    have h0 : f 0 = g c := h 0 (by simp)
    have htail : mapO (fun i => f (i + 1)) (List.range cs.length) =
        mapO g cs := by
      refine ih (fun i => f (i + 1)) g ?_
      intro i hi
      have := h (i + 1) (by simp; omega)
      simpa using this
    rw [h0]
    congr 1
    funext y
    rw [show (fun x => f (Nat.succ x)) = (fun i => f (i + 1)) from rfl, htail]

/-- The accelerated round trip: `stack` of `k ≥ 1` equal-shape-`s` arrays
succeeds, has shape `s ++ [k]`, and `unstack` recovers the argument list
exactly. -/
theorem np_stack_unstack {α : Type} :
    ∀ (s : List Nat) (as : List (PyVal α)),
      as ≠ [] → (∀ a ∈ as, hasShapeS s a = true) →
      ∃ v, np_stack s as = some v ∧
        hasShapeS (s ++ [as.length]) v = true ∧
        np_unstack (s ++ [as.length]) v = some as := by
  intro s
  induction s with
  | nil =>
    intro as hne hsh
    have hall : ∀ a ∈ as, ((asScalarO a).map PyVal.scalar) = some a := by
      intro a ha
      obtain ⟨x, rfl⟩ := (hasShapeS_nil_iff a).1 (hsh a ha)
      rfl
    have hmap : mapO (fun v => (asScalarO v).map PyVal.scalar) as =
        some as := by
      have := mapO_eq_some_of_forall _ (fun a => a) as hall
      simpa using this
    have hemp : as.isEmpty = false := by
      cases as with
      | nil => simp at hne
      | cons a rest => rfl
    refine ⟨.list as, ?_, ?_, ?_⟩
    · rw [np_stack, if_neg (by simp [hemp]), hmap]
      rfl
    · simp only [List.nil_append]
      rw [hasShapeS_cons_iff]
      exact ⟨as, rfl, rfl, fun t ht => hsh t ht⟩
    · simp only [List.nil_append]
      rw [np_unstack, if_pos ⟨rfl, by cases as with
        | nil => simp at hne
        | cons a rest => simp⟩]
      exact hmap
  | cons n s' ih =>
    intro as hne hsh
    have hform : ∀ a ∈ as, ∃ xs, a = PyVal.list xs ∧ xs.length = n ∧
        ∀ t ∈ xs, hasShapeS s' t = true :=
      fun a ha => (hasShapeS_cons_iff n s' a).1 (hsh a ha)
    have hchild : ∀ a ∈ as, ((asListO a).bind
        (fun xs => if xs.length = n then some xs else none)) =
        some ((asListO a).getD []) := by
      intro a ha
      obtain ⟨xs, rfl, hlen, _⟩ := hform a ha
      simp [asListO, hlen]
    have hchildren : mapO (fun v => (asListO v).bind
        (fun xs => if xs.length = n then some xs else none)) as =
        some (as.map (fun a => (asListO a).getD [])) :=
      mapO_eq_some_of_forall _ _ as hchild
    have hrowlen : ∀ r ∈ as.map (fun a => (asListO a).getD []),
        r.length = n := by
      intro r hr
      obtain ⟨a, ha, rfl⟩ := List.mem_map.1 hr
      obtain ⟨xs, rfl, hlen, _⟩ := hform a ha
      simpa [asListO] using hlen
    have hrowsh : ∀ r ∈ as.map (fun a => (asListO a).getD []),
        ∀ t ∈ r, hasShapeS s' t = true := by
      intro r hr t ht
      obtain ⟨a, ha, rfl⟩ := List.mem_map.1 hr
      obtain ⟨xs, rfl, _, hmem⟩ := hform a ha
      exact hmem t (by simpa [asListO] using ht)
    obtain ⟨cols, hcols, hcolslen, hcollen, hcget, hback⟩ :=
      colsUpTo_involution (PyVal.list []) n as.length
        (as.map (fun a => (asListO a).getD [])) (by simp) hrowlen
    have hcolsh : ∀ c ∈ cols, ∀ t ∈ c, hasShapeS s' t = true := by
      intro c hc t ht
      obtain ⟨j, hj, hje⟩ := List.getElem_of_mem hc
      have h1 := hcget j (by omega)
      rw [List.getElem?_eq_getElem hj, hje] at h1
      have h2 := Option.some.inj h1
      rw [h2] at ht
      obtain ⟨r, hr, rfl⟩ := List.mem_map.1 ht
      have hjn : j < r.length := by rw [hrowlen r hr]; omega
      exact hrowsh r hr _ (getD_mem hjn _)
    have hW := @mapO_forall2 (List (PyVal α)) (PyVal α)
      (fun w c => hasShapeS (s' ++ [as.length]) w = true ∧
        np_unstack (s' ++ [as.length]) w = some c)
      (np_stack s') cols (fun c hc => by
      have hclen2 : c.length = as.length := hcollen c hc
      have hcne : c ≠ [] := by
        cases as with
        | nil => simp at hne
        | cons a rest =>
          cases c with
          | nil => simp at hclen2
          | cons y ys => simp
      obtain ⟨w, hw1, hw2, hw3⟩ := ih c hcne (hcolsh c hc)
      rw [hclen2] at hw2 hw3
      exact ⟨w, hw1, hw2, hw3⟩)
    obtain ⟨ws, hws, hF⟩ := hW
    have hwslen : ws.length = n := by
      rw [mapO_length _ _ _ hws, hcolslen]
    have hemp : as.isEmpty = false := by
      cases as with
      | nil => simp at hne
      | cons a rest => rfl
    refine ⟨.list ws, ?_, ?_, ?_⟩
    · rw [np_stack, if_neg (by simp [hemp])]
      simp only [Option.bind_eq_bind]
      rw [hchildren, Option.some_bind, hcols, Option.some_bind, hws]
      rfl
    · rw [List.cons_append, hasShapeS_cons_iff]
      refine ⟨ws, rfl, hwslen, ?_⟩
      intro t ht
      obtain ⟨c, hc, hp⟩ := forall2_mem_left hF t ht
      exact hp.1
    · rw [List.cons_append]
      cases hsp : s' ++ [as.length] with
      | nil => exact absurd hsp (by simp)
      | cons s2 rest =>
        rw [np_unstack, if_pos hwslen]
        have hq : (s2 :: rest).getLast (by simp) = as.length := by
          have h1 : (s2 :: rest).getLast? = some as.length := by
            rw [← hsp]
            exact List.getLast?_concat _
          rwa [List.getLast?_eq_getLast (s2 :: rest) (by simp),
            Option.some.injEq] at h1
        rw [hq, if_pos (by cases as with
          | nil => simp at hne
          | cons a r2 => simp)]
        simp only [Option.bind_eq_bind]
        have hpieces : mapO (np_unstack (s2 :: rest)) ws = some cols := by
          rw [← hsp]
          have h1 := mapO_of_forall2_map (np_unstack (s' ++ [as.length]))
            (fun c => c) ((hF.flip).imp (fun {c w} hp => hp.2))
          rw [h1]
          simp
        rw [hpieces, Option.some_bind, hback, Option.some_bind]
        simp only [Option.pure_def, Option.some.injEq]
        rw [List.map_map]
        have hid : ∀ a ∈ as,
            (PyVal.list ∘ fun a => (asListO a).getD []) a = a := by
          intro a ha
          obtain ⟨xs, rfl, _, _⟩ := hform a ha
          rfl
        rw [List.map_congr_left hid]
        simp

/-- The fallback `stack` agrees with the accelerated one on equal-shaped
rectangular arguments, successes and failures alike. -/
theorem py_stack_eq_np {α : Type} :
    ∀ (s : List Nat) (fuel : Nat) (as : List (PyVal α)),
      (∀ a ∈ as, hasShapeS s a = true) → s.length < fuel →
      py_stack fuel as = np_stack s as := by
  intro s
  induction s with
  | nil =>
    intro fuel as hsh hfuel
    cases fuel with
    | zero => omega
    | succ f =>
      cases as with
      | nil => rfl
      | cons a rest =>
        obtain ⟨x, rfl⟩ := (hasShapeS_nil_iff a).1 (hsh a (by simp))
        have hbot : isBottom (PyVal.scalar x :: rest) = true := by
          simp [isBottom, PyVal.isList]
        have hall : ∀ a ∈ PyVal.scalar x :: rest,
            ((asScalarO a).map PyVal.scalar) = some a := by
          intro a ha
          obtain ⟨y, rfl⟩ := (hasShapeS_nil_iff a).1 (hsh a ha)
          rfl
        have hmap : mapO (fun v => (asScalarO v).map PyVal.scalar)
            (PyVal.scalar x :: rest) = some (PyVal.scalar x :: rest) := by
          have := mapO_eq_some_of_forall _ (fun a => a) _ hall
          simpa using this
        rw [py_stack, if_pos hbot, np_stack, if_neg (by simp), hmap]
        rfl
  | cons n s' ih =>
    intro fuel as hsh hfuel
    cases fuel with
    | zero => omega
    | succ f =>
      cases as with
      | nil => rfl
      | cons a0 rest =>
        obtain ⟨xs0, rfl, hlen0, hmem0⟩ :=
          (hasShapeS_cons_iff n s' a0).1 (hsh _ (by simp))
        have hform : ∀ a ∈ PyVal.list xs0 :: rest, ∃ xs,
            a = PyVal.list xs ∧ xs.length = n ∧
            ∀ t ∈ xs, hasShapeS s' t = true :=
          fun a ha => (hasShapeS_cons_iff n s' a).1 (hsh a ha)
        have hbot : isBottom (PyVal.list xs0 :: rest) = false := by
          simp only [isBottom, List.any_eq_false]
          intro t ht
          obtain ⟨xs, rfl, _, _⟩ := hform t ht
          simp [PyVal.isList]
        have hchild : ∀ a ∈ PyVal.list xs0 :: rest, ((asListO a).bind
            (fun xs => if xs.length = n then some xs else none)) =
            some ((asListO a).getD []) := by
          intro a ha
          obtain ⟨xs, rfl, hlen, _⟩ := hform a ha
          simp [asListO, hlen]
        have hchildren : mapO (fun v => (asListO v).bind
            (fun xs => if xs.length = n then some xs else none))
            (PyVal.list xs0 :: rest) =
            some ((PyVal.list xs0 :: rest).map
              (fun a => (asListO a).getD [])) :=
          mapO_eq_some_of_forall _ _ _ hchild
        have hrowlen : ∀ r ∈ (PyVal.list xs0 :: rest).map
            (fun a => (asListO a).getD []), r.length = n := by
          intro r hr
          obtain ⟨a, ha, rfl⟩ := List.mem_map.1 hr
          obtain ⟨xs, rfl, hlen, _⟩ := hform a ha
          simpa [asListO] using hlen
        have hrowsh : ∀ r ∈ (PyVal.list xs0 :: rest).map
            (fun a => (asListO a).getD []), ∀ t ∈ r,
            hasShapeS s' t = true := by
          intro r hr t ht
          obtain ⟨a, ha, rfl⟩ := List.mem_map.1 hr
          obtain ⟨xs, rfl, _, hmem⟩ := hform a ha
          exact hmem t (by simpa [asListO] using ht)
        obtain ⟨cols, hcols, hcolslen, hcget⟩ :=
          colsUpTo_spec (PyVal.list []) n
            ((PyVal.list xs0 :: rest).map (fun a => (asListO a).getD []))
            (fun r hr => (hrowlen r hr).ge)
        have hcolsh : ∀ c ∈ cols, ∀ t ∈ c, hasShapeS s' t = true := by
          intro c hc t ht
          obtain ⟨j, hj, hje⟩ := List.getElem_of_mem hc
          have h1 := hcget j (by omega)
          rw [List.getElem?_eq_getElem hj, hje] at h1
          have h2 := Option.some.inj h1
          rw [h2] at ht
          obtain ⟨r, hr, rfl⟩ := List.mem_map.1 ht
          have hjn : j < r.length := by rw [hrowlen r hr]; omega
          exact hrowsh r hr _ (getD_mem hjn _)
        have hrows : mapO asListO (PyVal.list xs0 :: rest) =
            some ((PyVal.list xs0 :: rest).map
              (fun a => (asListO a).getD [])) := by
          refine mapO_eq_some_of_forall _ _ _ ?_
          intro a ha
          obtain ⟨xs, rfl, _, _⟩ := hform a ha
          rfl
        rw [py_stack, if_neg (by simp [hbot]), np_stack, if_neg (by simp)]
        simp only [Option.bind_eq_bind]
        rw [hrows, hchildren]
        simp only [Option.some_bind]
        rw [hlen0, hcols]
        simp only [Option.some_bind]
        congr 1
        refine mapO_congr ?_
        intro c hc
        exact ih f c (hcolsh c hc) (by simp at hfuel; omega)

/-- The accelerated `unstack` on an array of shape `s ++ [k]` yields `k`
pieces, and the fallback machinery agrees with it piecewise: `length`
measures `k` and `split` at `i` extracts exactly the `i`-th piece. -/
theorem np_unstack_py_split {α : Type} :
    ∀ (s : List Nat) (k : Nat) (x : PyVal α) (fuel : Nat),
      hasShapeS (s ++ [k]) x = true → posShape (s ++ [k]) = true →
      (s ++ [k]).length < fuel →
      ∃ pieces, np_unstack (s ++ [k]) x = some pieces ∧
        pieces.length = k ∧ py_len fuel x = some k ∧
        ∀ i, i < k → py_split fuel x i = pieces[i]? := by
  intro s
  induction s with
  | nil =>
    intro k x fuel hx hpos hfuel
    simp only [List.nil_append] at hx hpos hfuel ⊢
    obtain ⟨xs, rfl, hlen, hmem⟩ := (hasShapeS_cons_iff k [] x).1 hx
    have hk : 0 < k := by
      have := List.all_eq_true.1 hpos k (by simp)
      simpa using this
    have hbot : isBottom xs = true := by
      cases xs with
      | nil => simp at hlen; omega
      | cons t ts =>
        obtain ⟨v, rfl⟩ := (hasShapeS_nil_iff t).1 (hmem t (by simp))
        simp [isBottom, PyVal.isList]
    have hmap : mapO (fun v => (asScalarO v).map PyVal.scalar) xs =
        some xs := by
      have := mapO_eq_some_of_forall
        (fun v => (asScalarO v).map PyVal.scalar) (fun a => a) xs
        (fun a ha => by
          obtain ⟨v, rfl⟩ := (hasShapeS_nil_iff a).1 (hmem a ha)
          rfl)
      simpa using this
    cases fuel with
    | zero => omega
    | succ f =>
      refine ⟨xs, ?_, hlen, ?_, ?_⟩
      · rw [np_unstack, if_pos ⟨hlen, by omega⟩]
        exact hmap
      · rw [py_len, if_pos hbot, hlen]
      · intro i _
        rw [py_split, if_pos hbot]
  | cons n s' ih =>
    intro k x fuel hx hpos hfuel
    rw [List.cons_append] at hx hpos hfuel ⊢
    obtain ⟨xs, rfl, hlen, hmem⟩ :=
      (hasShapeS_cons_iff n (s' ++ [k]) x).1 hx
    have hn : 0 < n := by
      have := List.all_eq_true.1 hpos n (by simp)
      simpa using this
    have hpos2 : posShape (s' ++ [k]) = true := by
      simp only [posShape, List.all_eq_true] at hpos ⊢
      intro q hq
      exact hpos q (by simp [hq])
    cases fuel with
    | zero => simp at hfuel
    | succ f =>
      have hfuel2 : (s' ++ [k]).length < f := by
        simp only [List.length_cons] at hfuel
        omega
      have hP := @mapO_forall2 (PyVal α) (List (PyVal α))
        (fun p t => p.length = k ∧ py_len f t = some k ∧
          ∀ i, i < k → py_split f t i = p[i]?)
        (np_unstack (s' ++ [k])) xs (fun t ht => by
          obtain ⟨p, hp1, hp2, hp3, hp4⟩ :=
            ih k t f (hmem t ht) hpos2 hfuel2
          exact ⟨p, hp1, hp2, hp3, hp4⟩)
      obtain ⟨ps, hps, hF⟩ := hP
      have hpslen : ps.length = xs.length := mapO_length _ _ _ hps
      have hplen : ∀ p ∈ ps, p.length = k := by
        intro p hp
        obtain ⟨t, _, hPt⟩ := forall2_mem_left hF p hp
        exact hPt.1
      obtain ⟨cols, hcols, hcolslen, hcget⟩ :=
        colsUpTo_spec (PyVal.list []) k ps (fun p hp => (hplen p hp).ge)
      have hxs_lists : isBottom xs = false := by
        simp only [isBottom, List.any_eq_false]
        intro t ht
        have h1 := hmem t ht
        cases hsq : s' ++ [k] with
        | nil => exact absurd hsq (by simp)
        | cons a b =>
          rw [hsq] at h1
          obtain ⟨ys, rfl, _, _⟩ := (hasShapeS_cons_iff a b t).1 h1
          simp [PyVal.isList]
      cases hsp : s' ++ [k] with
      | nil => exact absurd hsp (by simp)
      | cons s2 rest =>
        have hk : 0 < k := by
          have := List.all_eq_true.1 hpos k (by simp)
          simpa using this
        refine ⟨cols.map PyVal.list, ?_, by simp [hcolslen], ?_, ?_⟩
        · rw [np_unstack, if_pos hlen]
          have hq : (s2 :: rest).getLast (by simp) = k := by
            have h1 : (s2 :: rest).getLast? = some k := by
              rw [← hsp]
              exact List.getLast?_concat _
            rwa [List.getLast?_eq_getLast (s2 :: rest) (by simp),
              Option.some.injEq] at h1
          rw [hq, if_pos (by omega)]
          simp only [Option.bind_eq_bind]
          rw [← hsp, hps, Option.some_bind, hcols, Option.some_bind]
          rfl
        · rw [py_len, if_neg (by simp [hxs_lists])]
          have hlens : mapO (py_len f) xs =
              some (xs.map (fun _ => k)) := by
            refine mapO_eq_some_of_forall _ _ _ ?_
            intro t ht
            obtain ⟨p, _, hPt⟩ := forall2_mem_left hF.flip t ht
            exact hPt.2.1
          rw [hlens, Option.some_bind]
          refine pyMax_const k _ ?_ ?_
          · cases xs with
            | nil => simp at hlen; omega
            | cons t ts => simp
          · intro y hy
            obtain ⟨_, _, rfl⟩ := List.mem_map.1 hy
            rfl
        · intro i hi
          rw [py_split, if_neg (by simp [hxs_lists])]
          have hsplit : mapO (fun t => py_split f t i) xs =
              some (ps.map (fun p => p.getD i (PyVal.list []))) := by
            refine mapO_of_forall2_map _ _ ?_
            refine hF.imp (fun {p t} h => ?_)
            exact (h.2.2 i hi).trans
              (getElem?_eq_some_getD (by rw [h.1]; omega) _)
          rw [hsplit]
          have h1 := hcget i (by omega)
          rw [List.getElem?_map, h1]

/-- Under the fallback backend the round trip FAILS on a list of two
empty arrays: `stack([[], []])` collapses to `[]`, whose `unstack` is `[]`
rather than `[[], []]`; the accelerated backend, carrying the shape,
reproduces the input exactly on the same data. -/
theorem C3_counterexample :
    (py_stack 1 ([PyVal.list [], PyVal.list []] : List (PyVal Int))).bind
        (fun v => (asListO v).bind (fun ys => py_unstack 1 ys)) =
      some [] ∧
    some ([] : List (PyVal Int)) ≠
      some ([PyVal.list [], PyVal.list []] : List (PyVal Int)) ∧
    (np_stack [0] ([PyVal.list [], PyVal.list []] : List (PyVal Int))).bind
        (fun v => np_unstack [0, 2] v) =
      some [PyVal.list [], PyVal.list []] :=
  ⟨rfl, by simp, rfl⟩

/-- C3 (amended): for every non-empty list of equal-shaped rectangular
arrays whose dimensions are all positive, `unstack(stack(a0,...,ak-1))`
returns exactly `[a0,...,ak-1]` under both backends (without the
positivity the fallback backend fails the law, see the counterexample). -/
theorem C3_stack_unstack_roundtrip {α : Type} (s : List Nat)
    (as : List (PyVal α)) (fuel : Nat) (hne : as ≠ [])
    (hsh : ∀ a ∈ as, hasShapeS s a = true) (hpos : posShape s = true)
    (hfuel : s.length + 1 < fuel) :
    ∃ ys, np_stack s as = some (.list ys) ∧
      np_unstack (s ++ [as.length]) (.list ys) = some as ∧
      py_stack fuel as = some (.list ys) ∧
      py_unstack fuel ys = some as := by
  obtain ⟨v, hv1, hv2, hv3⟩ := np_stack_unstack s as hne hsh
  have hklen : 0 < as.length := by
    cases as with
    | nil => simp at hne
    | cons a rest => simp
  have hpos' : posShape (s ++ [as.length]) = true := by
    simp only [posShape, List.all_append, Bool.and_eq_true] at hpos ⊢
    refine ⟨hpos, by simpa using hklen⟩
  have hvform : ∃ ys, v = PyVal.list ys := by
    cases hsq : s ++ [as.length] with
    | nil => exact absurd hsq (by simp)
    | cons a b =>
      rw [hsq] at hv2
      obtain ⟨ys, rfl, _, _⟩ := (hasShapeS_cons_iff a b v).1 hv2
      exact ⟨ys, rfl⟩
  obtain ⟨ys, rfl⟩ := hvform
  obtain ⟨pieces, hp1, hp2, hp3, hp4⟩ :=
    np_unstack_py_split s as.length (PyVal.list ys) fuel hv2 hpos'
      (by simp only [List.length_append, List.length_cons, List.length_nil]
          omega)
  have hpeq : as = pieces := (Option.some.inj (hp1.symm.trans hv3)).symm
  subst hpeq
  refine ⟨ys, hv1, hv3, ?_, ?_⟩
  · rw [py_stack_eq_np s fuel as hsh (by omega)]
    exact hv1
  · have hysne : ys.isEmpty = false := by
      cases hsq : s ++ [as.length] with
      | nil => exact absurd hsq (by simp)
      | cons a b =>
        rw [hsq] at hv2
        obtain ⟨ys2, heq, hlen2, _⟩ :=
          (hasShapeS_cons_iff a b (PyVal.list ys)).1 hv2
        have ha : 0 < a := by
          have h2 := hpos'
          rw [hsq] at h2
          have := List.all_eq_true.1 h2 a (by simp)
          simpa using this
        have hys2 : ys = ys2 := PyVal.list.inj heq
        rw [← hys2] at hlen2
        cases ys with
        | nil => simp at hlen2; omega
        | cons y ys' => rfl
    rw [py_unstack, if_neg (by simp [hysne])]
    simp only [Option.bind_eq_bind]
    rw [hp3, Option.some_bind]
    have hmap : mapO (fun i => py_split fuel (PyVal.list ys) i)
        (List.range as.length) =
        some ((List.range as.length).map
          (fun i => as.getD i (PyVal.list []))) := by
      refine mapO_eq_some_of_forall _ _ _ ?_
      intro i hi
      have hi2 : i < as.length := List.mem_range.1 hi
      rw [hp4 i hi2]
      exact getElem?_eq_some_getD hi2 _
    rw [hmap, map_range_getD]

/-- The C3 round trip at a concrete instance: two shape-`[2]` arrays,
fuel 4. -/
theorem C3_stack_unstack_roundtrip_witness :
    ([PyVal.list [PyVal.scalar (1 : Int), PyVal.scalar 2],
      PyVal.list [PyVal.scalar 3, PyVal.scalar 4]] :
        List (PyVal Int)) ≠ [] ∧
    (∀ a ∈ ([PyVal.list [PyVal.scalar (1 : Int), PyVal.scalar 2],
        PyVal.list [PyVal.scalar 3, PyVal.scalar 4]] : List (PyVal Int)),
      hasShapeS [2] a = true) ∧
    posShape [2] = true ∧ ([2] : List Nat).length + 1 < 4 ∧
    (∃ ys, np_stack [2]
        ([PyVal.list [PyVal.scalar (1 : Int), PyVal.scalar 2],
          PyVal.list [PyVal.scalar 3, PyVal.scalar 4]] :
            List (PyVal Int)) = some (.list ys) ∧
      np_unstack ([2] ++
          [([PyVal.list [PyVal.scalar (1 : Int), PyVal.scalar 2],
            PyVal.list [PyVal.scalar 3, PyVal.scalar 4]] :
              List (PyVal Int)).length]) (.list ys) =
        some [PyVal.list [PyVal.scalar (1 : Int), PyVal.scalar 2],
          PyVal.list [PyVal.scalar 3, PyVal.scalar 4]] ∧
      py_stack 4 ([PyVal.list [PyVal.scalar (1 : Int), PyVal.scalar 2],
          PyVal.list [PyVal.scalar 3, PyVal.scalar 4]] :
            List (PyVal Int)) = some (.list ys) ∧
      py_unstack 4 ys =
        some [PyVal.list [PyVal.scalar (1 : Int), PyVal.scalar 2],
          PyVal.list [PyVal.scalar 3, PyVal.scalar 4]]) :=
  ⟨by simp, by decide, by decide, by decide,
    C3_stack_unstack_roundtrip [2]
      [PyVal.list [PyVal.scalar (1 : Int), PyVal.scalar 2],
        PyVal.list [PyVal.scalar 3, PyVal.scalar 4]] 4
      (by simp) (by decide) (by decide) (by decide)⟩

/-! ### Lemmas: backend equivalence (C2) -/

/-- `_apply` agrees with the elementwise numpy ufunc application on
rectangular arrays. -/
theorem py_apply_eq_np_map {α β : Type} (f : α → β) :
    ∀ (s : List Nat) (a : PyVal α) (fuel : Nat),
      hasShapeS s a = true → s.length < fuel →
      py_apply f fuel a = np_map f s a := by
  intro s
  induction s with
  | nil =>
    intro a fuel ha hfuel
    obtain ⟨x, rfl⟩ := (hasShapeS_nil_iff a).1 ha
    cases fuel with
    | zero => omega
    | succ n => rfl
  | cons n s' ih =>
    intro a fuel ha hfuel
    obtain ⟨xs, rfl, hlen, hmem⟩ := (hasShapeS_cons_iff n s' a).1 ha
    cases fuel with
    | zero => simp at hfuel
    | succ fl =>
      rw [py_apply, np_map, if_pos hlen]
      congr 1
      refine mapO_congr ?_
      intro t ht
      exact ih t fl (hmem t ht) (by simp at hfuel; omega)

/-- With an ordered pair of thresholds the two clip formulas coincide:
`max(t0, min(t1, x)) = min(t1, max(x, t0))`. -/
theorem clip_formulas_eq {α : Type} [LinearOrder α] (t0 t1 x : α)
    (h : t0 ≤ t1) : max t0 (min t1 x) = min t1 (max t0 x) := by
  rw [max_min_distrib_left, max_eq_right h]

/-- `zip(xs, ys)` in lockstep over equal-length lists visits every index
once. -/
theorem zipMinO_pair {γ δ : Type} (g : γ → List γ → Option δ) :
    ∀ (xs ys : List γ), xs.length = ys.length →
      zipMinO g xs [ys] = mapO (fun p => g p.1 [p.2]) (xs.zip ys) := by
  intro xs
  induction xs with
  | nil => intro ys _; rfl
  | cons x xs' ih =>
    intro ys hlen
    cases ys with
    | nil => simp at hlen
    | cons y ys' =>
      rw [zipMinO, if_neg (by simp)]
      have hlen2 : xs'.length = ys'.length := by simpa using hlen
      have hheads : mapO List.head? [y :: ys'] = some [y] := rfl
      have htails : ([y :: ys'].map List.tail) = [ys'] := rfl
      simp only [Option.bind_eq_bind]
      rw [hheads, Option.some_bind, htails, ih ys' hlen2,
        List.zip_cons_cons, mapO_cons]
      cases g x [y] with
      | none => rfl
      | some d =>
        simp only [Option.some_bind]
        cases mapO (fun p => g p.1 [p.2]) (xs'.zip ys') with
        | none => rfl
        | some ds => rfl

/-- `_apply_n` with two equal-shaped arguments agrees with the binary
numpy ufunc application, for any scalar function acting pairwise. -/
theorem py_apply_n2_eq_np_map2 {α β : Type} (f : List α → Option β)
    (m : α → α → β) (hf : ∀ x y, f [x, y] = some (m x y)) :
    ∀ (s : List Nat) (a b : PyVal α) (fuel : Nat),
      hasShapeS s a = true → hasShapeS s b = true → s.length < fuel →
      py_apply_n f fuel a [b] = np_map2 m s a b := by
  intro s
  induction s with
  | nil =>
    intro a b fuel ha hb hfuel
    obtain ⟨x, rfl⟩ := (hasShapeS_nil_iff a).1 ha
    obtain ⟨y, rfl⟩ := (hasShapeS_nil_iff b).1 hb
    cases fuel with
    | zero => omega
    | succ fl =>
      rw [py_apply_n]
      simp only [Option.bind_eq_bind]
      rw [show mapO asScalarO [PyVal.scalar y] = some [y] from rfl,
        Option.some_bind, hf x y]
      rfl
  | cons n s' ih =>
    intro a b fuel ha hb hfuel
    obtain ⟨xs, rfl, hxlen, hxmem⟩ := (hasShapeS_cons_iff n s' a).1 ha
    obtain ⟨ys, rfl, hylen, hymem⟩ := (hasShapeS_cons_iff n s' b).1 hb
    cases fuel with
    | zero => simp at hfuel
    | succ fl =>
      rw [py_apply_n, np_map2, if_pos ⟨hxlen, hylen⟩]
      simp only [Option.bind_eq_bind]
      rw [show mapO asListO [PyVal.list ys] = some [ys] from rfl,
        Option.some_bind,
        zipMinO_pair _ xs ys (by rw [hxlen, hylen])]
      congr 1
      refine mapO_congr ?_
      intro p hp
      obtain ⟨hp1, hp2⟩ := List.of_mem_zip hp
      exact ih p.1 p.2 fl (hxmem _ hp1) (hymem _ hp2)
        (by simp at hfuel; omega)

theorem maskSelect_map {α β : Type} (h : α → β) (c : α → Bool) :
    ∀ (a : List α),
      maskSelect (a.map h) (a.map c) = some ((a.filter c).map h) := by
  intro a
  induction a with
  | nil => rfl
  | cons x xs ih =>
    cases hc : c x with
    | true => simp [maskSelect, ih, List.filter_cons, hc]
    | false => simp [maskSelect, ih, List.filter_cons, hc]

theorem maskScatter_map {α β : Type} (h g : α → β) (c : α → Bool) :
    ∀ (a : List α),
      maskScatter (a.map h) (a.map c) ((a.filter c).map g) =
        some (a.map (fun x => if c x then g x else h x)) := by
  intro a
  induction a with
  | nil => rfl
  | cons x xs ih =>
    cases hc : c x with
    | true => simp [maskScatter, ih, List.filter_cons, hc]
    | false => simp [maskScatter, ih, List.filter_cons, hc]

/-- The accelerated `conditional` on a 1-D array, with elementwise branch
functions, computes the pointwise selection. -/
theorem np_conditional_pointwise {α : Type} (a : List α) (cond : α → Bool)
    (t f : α → α) :
    np_conditional a cond (List.map t) (List.map f) =
      some (a.map (fun x => if cond x then t x else f x)) := by
  have h1 : maskSelect a (a.map cond) =
      some ((a.filter cond).map (fun x => x)) := by
    have := maskSelect_map (fun x => x) cond a
    simpa using this
  have h2 : maskScatter a (a.map cond)
      ((a.filter cond).map t) =
      some (a.map (fun x => if cond x then t x else x)) := by
    have := maskScatter_map (fun x => x) t cond a
    simpa using this
  rw [np_conditional]
  simp only [Option.bind_eq_bind]
  rw [h1, Option.some_bind]
  rw [show List.map t ((a.filter cond).map (fun x => x)) =
    (a.filter cond).map t by simp, h2, Option.some_bind]
  have hnot : (a.map cond).map (!·) = a.map (fun x => !(cond x)) := by
    rw [List.map_map]
    rfl
  rw [hnot]
  have h3 := maskSelect_map (fun x => if cond x then t x else x)
    (fun x => !(cond x)) a
  rw [h3, Option.some_bind]
  have h4 : List.map f ((a.filter (fun x => !(cond x))).map
      (fun x => if cond x then t x else x)) =
      (a.filter (fun x => !(cond x))).map
        (fun x => f (if cond x then t x else x)) := by
    rw [List.map_map]
    rfl
  rw [h4]
  have h5 := maskScatter_map (fun x => if cond x then t x else x)
    (fun x => f (if cond x then t x else x)) (fun x => !(cond x)) a
  rw [h5]
  congr 1
  refine List.map_congr_left ?_
  intro x _
  cases hc : cond x with
  | true => simp [hc]
  | false => simp [hc]

/-- The fallback `conditional` on the same 1-D data. -/
theorem py_conditional_flat {α : Type} (a : List α) (cond : α → Bool)
    (t f : α → α) (fuel : Nat) (hfuel : 1 < fuel) :
    py_conditional fuel (.list (a.map PyVal.scalar)) cond t f =
      some (.list (a.map
        (fun x => PyVal.scalar (if cond x then t x else f x)))) := by
  rw [py_conditional]
  have hsh : hasShapeS [a.length]
      (PyVal.list (a.map PyVal.scalar)) = true := by
    rw [hasShapeS_cons_iff]
    refine ⟨a.map PyVal.scalar, rfl, by simp, ?_⟩
    intro tt htt
    obtain ⟨x, _, rfl⟩ := List.mem_map.1 htt
    rfl
  rw [py_apply_eq_np_map (fun x => if cond x then t x else f x)
    [a.length] _ fuel hsh (by simpa using hfuel)]
  rw [np_map, if_pos (by simp)]
  rw [mapO_map]
  have h2 : mapO (fun x =>
      np_map (fun x => if cond x then t x else f x) [] (PyVal.scalar x))
      a = some (a.map
        (fun x => PyVal.scalar (if cond x then t x else f x))) := by
    refine mapO_eq_some_of_forall _ _ _ ?_
    intro x _
    rfl
  rw [h2]
  rfl

/-- The fallback `unstack` agrees with the accelerated one on rectangular
arrays with positive dimensions. -/
theorem py_unstack_eq_np {α : Type} (s : List Nat) (k : Nat)
    (b : List (PyVal α)) (fuel : Nat)
    (hsh : hasShapeS (s ++ [k]) (PyVal.list b) = true)
    (hpos : posShape (s ++ [k]) = true)
    (hfuel : (s ++ [k]).length < fuel) :
    py_unstack fuel b = np_unstack (s ++ [k]) (PyVal.list b) := by
  obtain ⟨pieces, hp1, hp2, hp3, hp4⟩ :=
    np_unstack_py_split s k (.list b) fuel hsh hpos hfuel
  have hbne : b.isEmpty = false := by
    cases hsq : s ++ [k] with
    | nil => exact absurd hsq (by simp)
    | cons a rest =>
      rw [hsq] at hsh
      obtain ⟨ys2, heq, hlen2, _⟩ :=
        (hasShapeS_cons_iff a rest (PyVal.list b)).1 hsh
      have hb2 : b = ys2 := PyVal.list.inj heq
      have ha : 0 < a := by
        have h2 := hpos
        rw [hsq] at h2
        have := List.all_eq_true.1 h2 a (by simp)
        simpa using this
      rw [← hb2] at hlen2
      cases b with
      | nil => simp at hlen2; omega
      | cons y ys' => rfl
  rw [py_unstack, if_neg (by simp [hbne])]
  simp only [Option.bind_eq_bind]
  rw [hp3, Option.some_bind]
  have hmap : mapO (fun i => py_split fuel (PyVal.list b) i)
      (List.range k) =
      some ((List.range k).map (fun i => pieces.getD i (PyVal.list []))) := by
    refine mapO_eq_some_of_forall _ _ _ ?_
    intro i hi
    have hi2 : i < k := List.mem_range.1 hi
    rw [hp4 i hi2]
    exact getElem?_eq_some_getD (by omega) _
  rw [hmap, hp1]
  have hrt : (List.range k).map (fun i => pieces.getD i (PyVal.list [])) =
      pieces := by
    rw [← hp2]
    exact map_range_getD pieces _
  rw [hrt]

/-- The fallback `choose` agrees with the accelerated one on two
equal-dimension options driven by a 0/1 index. -/
theorem py_choose_eq_np_choose {α : Type} (s : List Nat) (i : PyVal Nat)
    (o0 o1 : List (PyVal α)) (fuel : Nat)
    (hdim : o0.length = o1.length)
    (h0 : ∀ x ∈ o0, hasShapeS s x = true)
    (h1 : ∀ x ∈ o1, hasShapeS s x = true)
    (hi : hasShapeS s i = true) (hle : allLeS s i 1 = true)
    (hfuel : s.length < fuel) :
    py_choose fuel i [o0, o1] = np_choose s i [o0, o1] := by
  have hged : ∀ o ∈ ([o0, o1] : List (List (PyVal α))),
      o0.length ≤ o.length := by
    intro o ho
    rcases List.mem_cons.1 ho with rfl | ho2
    · exact le_refl _
    · rcases List.mem_cons.1 ho2 with rfl | ho3
      · exact hdim.le
      · simp at ho3
  have hcols := chooseCols_spec o0 [o1] hged
  have hmemcol : ∀ c ∈ (List.range o0.length).map
      (fun d => ([o0, o1] : List (List (PyVal α))).map
        (fun o => o.getD d (PyVal.list []))),
      ∃ d, d < o0.length ∧
        c = [o0.getD d (PyVal.list []), o1.getD d (PyVal.list [])] := by
    intro c hc
    obtain ⟨d, hd, rfl⟩ := List.mem_map.1 hc
    exact ⟨d, List.mem_range.1 hd, by simp⟩
  cases s with
  | nil =>
    obtain ⟨iv, rfl⟩ := (hasShapeS_nil_iff i).1 hi
    rw [py_choose, np_choose]
    simp only [Option.bind_eq_bind]
    rw [hcols]
    simp only [Option.some_bind]
    refine mapO_congr ?_
    intro c hc
    obtain ⟨d, hd, rfl⟩ := hmemcol c hc
    cases fuel with
    | zero => omega
    | succ fl => rfl
  | cons n s' =>
    obtain ⟨is, rfl, hilen, himem⟩ :=
      (hasShapeS_cons_iff n s' i).1 hi
    rw [py_choose, np_choose]
    simp only [Option.bind_eq_bind]
    rw [hcols]
    simp only [Option.some_bind]
    rw [if_pos (by simp)]
    rw [np_map_mod256_id (n :: s') (.list is) hi hle]
    simp only [Option.some_bind]
    refine mapO_congr ?_
    intro c hc
    obtain ⟨d, hd, rfl⟩ := hmemcol c hc
    have hx : hasShapeS (n :: s') (o0.getD d (PyVal.list [])) = true :=
      h0 _ (getD_mem (by omega) _)
    have hy : hasShapeS (n :: s') (o1.getD d (PyVal.list [])) = true :=
      h1 _ (getD_mem (by omega : d < o1.length) _)
    rw [choose_descend_eq_zipSelect (n :: s') (.list is) _ _ fuel hi hx hy
      hle hfuel,
      np_chooseArr_eq_zipSelect (n :: s') (.list is) _ _ hi hx hy hle]

/-- A binary numpy ufunc on two equal-shape rectangular arrays always
succeeds, with a result of the same shape. -/
theorem np_map2_total {α β : Type} (g : α → α → β) :
    ∀ (s : List Nat) (a b : PyVal α),
      hasShapeS s a = true → hasShapeS s b = true →
      ∃ c, np_map2 g s a b = some c ∧ hasShapeS s c = true := by
  intro s
  induction s with
  | nil =>
    intro a b ha hb
    obtain ⟨x, rfl⟩ := (hasShapeS_nil_iff a).1 ha
    obtain ⟨y, rfl⟩ := (hasShapeS_nil_iff b).1 hb
    exact ⟨.scalar (g x y), rfl, rfl⟩
  | cons n s' ih =>
    intro a b ha hb
    obtain ⟨xs, rfl, hxlen, hxmem⟩ := (hasShapeS_cons_iff n s' a).1 ha
    obtain ⟨ys, rfl, hylen, hymem⟩ := (hasShapeS_cons_iff n s' b).1 hb
    have hP := @mapO_forall2 (PyVal α × PyVal α) (PyVal β)
      (fun c p => hasShapeS s' c = true)
      (fun p => np_map2 g s' p.1 p.2) (xs.zip ys) (fun p hp => by
        obtain ⟨hp1, hp2⟩ := List.of_mem_zip hp
        obtain ⟨c, hc1, hc2⟩ := ih p.1 p.2 (hxmem _ hp1) (hymem _ hp2)
        exact ⟨c, hc1, hc2⟩)
    obtain ⟨zs, hzs, hF⟩ := hP
    refine ⟨.list zs, ?_, ?_⟩
    · rw [np_map2, if_pos ⟨hxlen, hylen⟩, hzs]
      rfl
    · rw [hasShapeS_cons_iff]
      refine ⟨zs, rfl, ?_, ?_⟩
      · rw [mapO_length _ _ _ hzs, List.length_zip, hxlen, hylen,
          Nat.min_self]
      · intro t ht
        obtain ⟨p, _, hp⟩ := forall2_mem_left hF t ht
        exact hp

/-- Folding a binary scalar ufunc over a list of scalars from a scalar
accumulator computes the left fold of the underlying values. -/
theorem foldlM_np_map2_scalar {α : Type} (g : α → α → α) :
    ∀ (rest : List (PyVal α)) (x : α) (ysv : List α),
      mapO asScalarO rest = some ysv →
      rest.foldlM (fun acc v => np_map2 g [] acc v) (PyVal.scalar x) =
        some (PyVal.scalar (ysv.foldl g x)) := by
  intro rest
  induction rest with
  | nil =>
    intro x ysv h
    have : ysv = [] := by simpa [mapO_nil] using h.symm
    subst this
    rfl
  | cons r rest2 ih =>
    intro x ysv h
    obtain ⟨y, ys2, hy, hys2, rfl⟩ := mapO_eq_some_elim h rfl
    cases r with
    | list rs => simp [asScalarO] at hy
    | scalar yv =>
      have hyv : yv = y := by simpa [asScalarO] using hy
      subst hyv
      rw [List.foldlM_cons,
        show np_map2 g [] (PyVal.scalar x) (PyVal.scalar yv) =
          some (.scalar (g x yv)) from rfl]
      simp only [Option.bind_eq_bind, Option.some_bind]
      rw [ih (g x yv) ys2 hys2]
      rfl

/-- `r.tail.getD i = r.getD (i+1)`. -/
theorem getD_tail {γ : Type} (r : List γ) (i : Nat) (dx : γ) :
    r.tail.getD i dx = r.getD (i + 1) dx := by
  cases r with
  | nil => rfl
  | cons a l => rfl

/-- `zip(xs, *rest)` in lockstep over lists all of the same length visits
every index exactly once. -/
theorem zipMinO_cols {γ δ : Type} (dx : γ) (g : γ → List γ → Option δ) :
    ∀ (xs : List γ) (rls : List (List γ)),
      (∀ r ∈ rls, r.length = xs.length) →
      zipMinO g xs rls =
        mapO (fun i => g (xs.getD i dx) (rls.map (fun r => r.getD i dx)))
          (List.range xs.length) := by
  intro xs
  induction xs with
  | nil => intro rls _; rfl
  | cons x xs' ih =>
    intro rls h
    have hne : ∀ r ∈ rls, r ≠ [] := by
      intro r hr hemp
      have := h r hr
      rw [hemp] at this
      simp at this
    rw [zipMinO, if_neg (by
      rw [Bool.not_eq_true, List.any_eq_false]
      intro r hr
      cases r with
      | nil => exact absurd rfl (hne [] hr)
      | cons a l => simp)]
    have hheads : mapO List.head? rls =
        some (rls.map (fun r => r.getD 0 dx)) := by
      refine mapO_eq_some_of_forall _ _ _ ?_
      intro r hr
      cases r with
      | nil => exact absurd rfl (hne [] hr)
      | cons a l => rfl
    have htails : ∀ r ∈ rls.map List.tail, r.length = xs'.length := by
      intro r hr
      obtain ⟨r0, hr0, rfl⟩ := List.mem_map.1 hr
      have := h r0 hr0
      simp only [List.length_tail, this, List.length_cons,
        Nat.add_sub_cancel]
    have hih := ih (rls.map List.tail) htails
    have hrw : (fun i => g (xs'.getD i dx)
        ((rls.map List.tail).map (fun r => r.getD i dx))) =
        (fun i => g (xs'.getD i dx)
          (rls.map (fun r => r.getD (i + 1) dx))) := by
      funext i
      rw [List.map_map]
      congr 1
      refine List.map_congr_left ?_
      intro r _
      exact getD_tail r i dx
    rw [hrw] at hih
    simp only [Option.bind_eq_bind]
    rw [hheads, Option.some_bind, hih]
    rw [List.length_cons, List.range_succ_eq_map, mapO_cons, mapO_map]
    simp only [Nat.succ_eq_add_one, List.getD_cons_zero, List.getD_cons_succ]
    cases g x (rls.map (fun r => r.getD 0 dx)) with
    | none => rfl
    | some y =>
      simp only [Option.some_bind]
      cases mapO (fun i => g (xs'.getD i dx)
          (rls.map (fun r => r.getD (i + 1) dx))) (List.range xs'.length) with
      | none => rfl
      | some ds => rfl

/-- Folding a binary ufunc at shape `n :: s` from a list accumulator
computes, per index, the fold at shape `s` over the members. -/
theorem foldlM_np_map2_cons {α : Type} (g : α → α → α) (n : Nat)
    (s' : List Nat) :
    ∀ (rest : List (PyVal α)) (xs : List (PyVal α)),
      xs.length = n → (∀ t ∈ xs, hasShapeS s' t = true) →
      (∀ r ∈ rest, hasShapeS (n :: s') r = true) →
      rest.foldlM (fun acc v => np_map2 g (n :: s') acc v) (PyVal.list xs) =
        (mapO (fun i =>
            ((rest.map (fun r => (asListO r).getD [])).map
              (fun rs => rs.getD i (PyVal.list []))).foldlM
              (fun acc v => np_map2 g s' acc v) (xs.getD i (PyVal.list [])))
          (List.range n)).map PyVal.list := by
  intro rest
  induction rest with
  | nil =>
    intro xs hxlen hxmem _
    simp only [List.map_nil, List.foldlM_nil, Option.pure_def]
    have h1 : mapO (fun i => (some (xs.getD i (PyVal.list [])) :
        Option (PyVal α))) (List.range n) =
        some ((List.range n).map (fun i => xs.getD i (PyVal.list []))) :=
      mapO_eq_some_of_forall _ _ _ (fun i _ => rfl)
    rw [h1, ← hxlen, map_range_getD]
    rfl
  | cons b rest2 ih =>
    intro xs hxlen hxmem hrest
    obtain ⟨bs, rfl, hblen, hbmem⟩ :=
      (hasShapeS_cons_iff n s' b).1 (hrest b (by simp))
    have hP := @mapO_forall2 (PyVal α × PyVal α) (PyVal α)
      (fun c p => hasShapeS s' c = true)
      (fun p => np_map2 g s' p.1 p.2) (xs.zip bs) (fun p hp => by
        obtain ⟨hp1, hp2⟩ := List.of_mem_zip hp
        obtain ⟨c, hc1, hc2⟩ := np_map2_total g s' p.1 p.2
          (hxmem _ hp1) (hbmem _ hp2)
        exact ⟨c, hc1, hc2⟩)
    obtain ⟨zs, hzs, hF⟩ := hP
    have hzslen : zs.length = n := by
      rw [mapO_length _ _ _ hzs, List.length_zip, hxlen, hblen,
        Nat.min_self]
    have hzmem : ∀ t ∈ zs, hasShapeS s' t = true := by
      intro t ht
      obtain ⟨p, _, hp⟩ := forall2_mem_left hF t ht
      exact hp
    have hstep : np_map2 g (n :: s') (PyVal.list xs) (PyVal.list bs) =
        some (.list zs) := by
      rw [np_map2, if_pos ⟨hxlen, hblen⟩, hzs]
      rfl
    rw [List.foldlM_cons, hstep]
    simp only [Option.bind_eq_bind, Option.some_bind]
    rw [ih zs hzslen hzmem (fun r hr => hrest r (by simp [hr]))]
    congr 1
    refine mapO_congr ?_
    intro i hi
    have hin : i < n := List.mem_range.1 hi
    have hxi : i < xs.length := by omega
    have hbi : i < bs.length := by omega
    have hzi : i < zs.length := by omega
    have hzl : i < (xs.zip bs).length := by
      rw [List.length_zip, hxlen, hblen, Nat.min_self]
      omega
    have hpoint : np_map2 g s' (xs.getD i (PyVal.list []))
        (bs.getD i (PyVal.list [])) =
        some (zs.getD i (PyVal.list [])) := by
      obtain ⟨hir, heq⟩ := mapO_getElem _ _ _ hzs i hzl
      rw [List.getElem_zip] at heq
      rw [List.getD_eq_getElem?_getD, List.getElem?_eq_getElem hxi,
        List.getD_eq_getElem?_getD, List.getElem?_eq_getElem hbi,
        List.getD_eq_getElem?_getD, List.getElem?_eq_getElem hzi]
      exact heq
    simp only [List.map_cons, asListO, Option.getD_some]
    rw [List.foldlM_cons, hpoint]
    simp only [Option.bind_eq_bind, Option.some_bind]

/-- `_apply_n` with a left-fold scalar function and any number of further
equal-shaped arguments agrees with the left `reduce` of the binary numpy
ufunc, the accelerated implementation of the n-ary operations. -/
theorem py_apply_n_fold {α : Type} (g : α → α → α) (f : List α → Option α)
    (hf : ∀ x ys, f (x :: ys) =
      if ys.isEmpty then none else some (ys.foldl g x)) :
    ∀ (s : List Nat) (a : PyVal α) (rest : List (PyVal α)) (fuel : Nat),
      hasShapeS s a = true → (∀ r ∈ rest, hasShapeS s r = true) →
      rest ≠ [] → s.length < fuel →
      py_apply_n f fuel a rest =
        rest.foldlM (fun acc v => np_map2 g s acc v) a := by
  intro s
  induction s with
  | nil =>
    intro a rest fuel ha hrest hne hfuel
    obtain ⟨x, rfl⟩ := (hasShapeS_nil_iff a).1 ha
    have hmap : mapO asScalarO rest =
        some (rest.map (fun r => (asScalarO r).getD x)) := by
      refine mapO_eq_some_of_forall _ _ _ ?_
      intro r hr
      obtain ⟨y, rfl⟩ := (hasShapeS_nil_iff r).1 (hrest r hr)
      rfl
    have hempty : (rest.map (fun r => (asScalarO r).getD x)).isEmpty =
        false := by
      cases rest with
      | nil => exact absurd rfl hne
      | cons r rest2 => rfl
    cases fuel with
    | zero => omega
    | succ fl =>
      rw [py_apply_n]
      simp only [Option.bind_eq_bind]
      rw [hmap, Option.some_bind, hf, hempty, if_neg (by simp)]
      rw [foldlM_np_map2_scalar g rest x _ hmap]
      rfl
  | cons n s' ih =>
    intro a rest fuel ha hrest hne hfuel
    obtain ⟨xs, rfl, hxlen, hxmem⟩ := (hasShapeS_cons_iff n s' a).1 ha
    have hform : ∀ r ∈ rest, ∃ rs, r = PyVal.list rs ∧ rs.length = n ∧
        ∀ t ∈ rs, hasShapeS s' t = true :=
      fun r hr => (hasShapeS_cons_iff n s' r).1 (hrest r hr)
    have hrls : mapO asListO rest =
        some (rest.map (fun r => (asListO r).getD [])) := by
      refine mapO_eq_some_of_forall _ _ _ ?_
      intro r hr
      obtain ⟨rs, rfl, _, _⟩ := hform r hr
      rfl
    have hlens : ∀ r ∈ rest.map (fun r => (asListO r).getD []),
        r.length = xs.length := by
      intro r hr
      obtain ⟨r0, hr0, rfl⟩ := List.mem_map.1 hr
      obtain ⟨rs, rfl, hrlen, _⟩ := hform r0 hr0
      simp only [asListO, Option.getD_some]
      omega
    cases fuel with
    | zero => simp at hfuel
    | succ fl =>
      rw [py_apply_n]
      simp only [Option.bind_eq_bind]
      rw [hrls, Option.some_bind,
        zipMinO_cols (PyVal.list []) _ xs _ hlens, hxlen]
      rw [foldlM_np_map2_cons g n s' rest xs hxlen hxmem hrest]
      congr 1
      refine mapO_congr ?_
      intro i hi
      have hin : i < n := List.mem_range.1 hi
      have hxi : i < xs.length := by omega
      refine ih (xs.getD i (PyVal.list []))
        ((rest.map (fun r => (asListO r).getD [])).map
          (fun rs => rs.getD i (PyVal.list []))) fl
        (hxmem _ (getD_mem hxi _)) ?_ ?_ (by simp at hfuel; omega)
      · intro t ht
        obtain ⟨rs, hrs, rfl⟩ := List.mem_map.1 ht
        obtain ⟨r0, hr0, rfl⟩ := List.mem_map.1 hrs
        obtain ⟨rs0, rfl, hrlen0, hmem0⟩ := hform r0 hr0
        simp only [asListO, Option.getD_some]
        exact hmem0 _ (getD_mem (by omega) _)
      · cases rest with
        | nil => exact absurd rfl hne
        | cons r rest2 => simp

theorem maxScalars_fold {α : Type} [LinearOrder α] (x : α) (ys : List α) :
    maxScalars (x :: ys) =
      if ys.isEmpty then none else some (ys.foldl max x) := by
  cases ys with
  | nil => rfl
  | cons y more => rfl

theorem minScalars_fold {α : Type} [LinearOrder α] (x : α) (ys : List α) :
    minScalars (x :: ys) =
      if ys.isEmpty then none else some (ys.foldl min x) := by
  cases ys with
  | nil => rfl
  | cons y more => rfl

/-- The fallback n-ary `maximum` agrees with the accelerated `reduce` of
`numpy.maximum` for two or more equal-shaped arguments. -/
theorem py_maximum_eq_np {α : Type} [LinearOrder α] (s : List Nat)
    (a : PyVal α) (rest : List (PyVal α)) (fuel : Nat)
    (ha : hasShapeS s a = true) (hrest : ∀ r ∈ rest, hasShapeS s r = true)
    (hne : rest ≠ []) (hfuel : s.length < fuel) :
    py_maximum fuel (a :: rest) = np_maximum s (a :: rest) := by
  rw [py_maximum, np_maximum]
  exact py_apply_n_fold max maxScalars maxScalars_fold s a rest fuel
    ha hrest hne hfuel

/-- The fallback n-ary `minimum` agrees with the accelerated `reduce` of
`numpy.minimum` for two or more equal-shaped arguments. -/
theorem py_minimum_eq_np {α : Type} [LinearOrder α] (s : List Nat)
    (a : PyVal α) (rest : List (PyVal α)) (fuel : Nat)
    (ha : hasShapeS s a = true) (hrest : ∀ r ∈ rest, hasShapeS s r = true)
    (hne : rest ≠ []) (hfuel : s.length < fuel) :
    py_minimum fuel (a :: rest) = np_minimum s (a :: rest) := by
  rw [py_minimum, np_minimum]
  exact py_apply_n_fold min minScalars minScalars_fold s a rest fuel
    ha hrest hne hfuel

/-- The fallback `_choose_descend` and `numpy.choose` agree on every
rectangular index array against any number of equal-shaped columns, raise
included (an out-of-range index fails on both sides). -/
theorem choose_descend_eq_np_chooseArr {α : Type} :
    ∀ (s : List Nat) (i : PyVal Nat) (cs : List (PyVal α)) (fuel : Nat),
      hasShapeS s i = true → (∀ c ∈ cs, hasShapeS s c = true) →
      s.length < fuel →
      choose_descend fuel i cs = np_chooseArr s i cs := by
  intro s
  induction s with
  | nil =>
    intro i cs fuel hi _ hfuel
    obtain ⟨iv, rfl⟩ := (hasShapeS_nil_iff i).1 hi
    cases fuel with
    | zero => omega
    | succ fl => rfl
  | cons n s' ih =>
    intro i cs fuel hi hcs hfuel
    obtain ⟨is, rfl, hilen, himem⟩ := (hasShapeS_cons_iff n s' i).1 hi
    have hform : ∀ c ∈ cs, ∃ os, c = PyVal.list os ∧ os.length = n ∧
        ∀ t ∈ os, hasShapeS s' t = true :=
      fun c hc => (hasShapeS_cons_iff n s' c).1 (hcs c hc)
    have hcss : mapO (fun c => (asListO c).bind
        (fun xs => if xs.length = n then some xs else none)) cs =
        some (cs.map (fun c => (asListO c).getD [])) := by
      refine mapO_eq_some_of_forall _ _ _ ?_
      intro c hc
      obtain ⟨os, rfl, hoslen, _⟩ := hform c hc
      simp [asListO, hoslen]
    have hrowlen : ∀ r ∈ cs.map (fun c => (asListO c).getD []),
        r.length = n := by
      intro r hr
      obtain ⟨c, hc, rfl⟩ := List.mem_map.1 hr
      obtain ⟨os, rfl, hoslen, _⟩ := hform c hc
      simpa [asListO] using hoslen
    obtain ⟨cols, hcols, hcolslen, hcget⟩ :=
      colsUpTo_spec (PyVal.list []) n
        (cs.map (fun c => (asListO c).getD []))
        (fun r hr => (hrowlen r hr).ge)
    have hoss : mapO asListO cs =
        some (cs.map (fun c => (asListO c).getD [])) := by
      refine mapO_eq_some_of_forall _ _ _ ?_
      intro c hc
      obtain ⟨os, rfl, _, _⟩ := hform c hc
      rfl
    have hcolsh : ∀ c ∈ cols, ∀ t ∈ c, hasShapeS s' t = true := by
      intro c hc t ht
      obtain ⟨j, hj, hje⟩ := List.getElem_of_mem hc
      have h1 := hcget j (by omega)
      rw [List.getElem?_eq_getElem hj, hje] at h1
      have h2 := Option.some.inj h1
      rw [h2] at ht
      obtain ⟨r, hr, rfl⟩ := List.mem_map.1 ht
      obtain ⟨c0, hc0, rfl⟩ := List.mem_map.1 hr
      obtain ⟨os, rfl, hoslen, hosmem⟩ := hform c0 hc0
      simp only [asListO, Option.getD_some]
      exact hosmem _ (getD_mem (by omega) _)
    cases fuel with
    | zero => simp at hfuel
    | succ fl =>
      rw [choose_descend, np_chooseArr, if_pos hilen]
      simp only [Option.bind_eq_bind]
      rw [hoss, hcss, Option.some_bind, Option.some_bind, hilen, hcols]
      simp only [Option.some_bind]
      congr 1
      refine mapO_congr ?_
      intro p hp
      obtain ⟨hp1, hp2⟩ := List.of_mem_zip hp
      exact ih p.1 p.2 fl (himem _ hp1) (hcolsh _ hp2)
        (by simp at hfuel; omega)

/-- The uint8 cast is the identity on index arrays with entries below
256. -/
theorem np_map_mod256_id_of_le255 :
    ∀ (s : List Nat) (i : PyVal Nat),
      hasShapeS s i = true → allLeS s i 255 = true →
      np_map (fun x => x % 256) s i = some i := by
  intro s
  induction s with
  | nil =>
    intro i hi hle
    obtain ⟨iv, rfl⟩ := (hasShapeS_nil_iff i).1 hi
    have hb : iv ≤ 255 := by simpa [allLeS] using hle
    have hm : iv % 256 = iv := Nat.mod_eq_of_lt (by omega)
    simp [np_map, hm]
  | cons n s ih =>
    intro i hi hle
    obtain ⟨is, rfl, hilen, himem⟩ := (hasShapeS_cons_iff n s i).1 hi
    have hle2 : ∀ t ∈ is, allLeS s t 255 = true := by
      have := hle
      simp only [allLeS, Bool.and_eq_true, List.all_eq_true] at this
      exact this.2
    rw [np_map, if_pos hilen]
    have : mapO (np_map (fun x => x % 256) s) is = some (is.map id) := by
      refine mapO_eq_some_of_forall _ _ _ ?_
      intro t ht
      rw [ih t (himem t ht) (hle2 t ht)]
      rfl
    rw [this]
    simp

/-- The fallback `choose` agrees with the accelerated one on any number
of equal-dimension options (fewer than 256, as the accelerated assert
requires) under an index array with entries below 256. -/
theorem py_choose_eq_np_choose_n {α : Type} (s : List Nat) (i : PyVal Nat)
    (o0 : List (PyVal α)) (orest : List (List (PyVal α))) (fuel : Nat)
    (hdim : ∀ o ∈ o0 :: orest, o.length = o0.length)
    (hcomp : ∀ o ∈ o0 :: orest, ∀ x ∈ o, hasShapeS s x = true)
    (hi : hasShapeS s i = true) (hle : allLeS s i 255 = true)
    (hcount : (o0 :: orest).length < 256) (hfuel : s.length < fuel) :
    py_choose fuel i (o0 :: orest) = np_choose s i (o0 :: orest) := by
  have hged : ∀ o ∈ o0 :: orest, o0.length ≤ o.length :=
    fun o ho => (hdim o ho).ge
  have hcols := chooseCols_spec o0 orest hged
  have hmemcol : ∀ c ∈ (List.range o0.length).map
      (fun d => (o0 :: orest).map (fun o => o.getD d (PyVal.list []))),
      ∀ x ∈ c, hasShapeS s x = true := by
    intro c hc x hx
    obtain ⟨d, hd, rfl⟩ := List.mem_map.1 hc
    have hdlt : d < o0.length := List.mem_range.1 hd
    obtain ⟨o, ho, rfl⟩ := List.mem_map.1 hx
    exact hcomp o ho _ (getD_mem (by rw [hdim o ho]; omega) _)
  cases s with
  | nil =>
    obtain ⟨iv, rfl⟩ := (hasShapeS_nil_iff i).1 hi
    rw [py_choose, np_choose]
    simp only [Option.bind_eq_bind]
    rw [hcols]
    simp only [Option.some_bind]
    refine mapO_congr ?_
    intro c hc
    cases fuel with
    | zero => omega
    | succ fl => rfl
  | cons n s' =>
    obtain ⟨is, rfl, hilen, himem⟩ := (hasShapeS_cons_iff n s' i).1 hi
    rw [py_choose, np_choose]
    simp only [Option.bind_eq_bind]
    rw [hcols]
    simp only [Option.some_bind]
    rw [if_pos hcount]
    rw [np_map_mod256_id_of_le255 (n :: s') (.list is) hi hle]
    simp only [Option.some_bind]
    refine mapO_congr ?_
    intro c hc
    exact choose_descend_eq_np_chooseArr (n :: s') (.list is) c fuel hi
      (hmemcol c hc) hfuel

theorem mapO_post_map {γ δ ε : Type} (h : γ → Option δ) (g : δ → ε) :
    ∀ (l : List γ),
      mapO (fun t => (h t).map g) l = (mapO h l).map (List.map g) := by
  intro l
  induction l with
  | nil => rfl
  | cons x xs ih =>
    rw [mapO_cons, mapO_cons, ih]
    cases h x with
    | none => rfl
    | some y =>
      simp only [Option.map_some, Option.some_bind]
      cases mapO h xs with
      | none => rfl
      | some ys => rfl

/-- An elementwise numpy ufunc succeeds on a rectangular array, preserves
its shape, and acts on the flat element buffer by `List.map`. -/
theorem np_map_flatten {α β : Type} (f : α → β) :
    ∀ (s : List Nat) (a : PyVal α), hasShapeS s a = true →
      ∃ r leaves, np_map f s a = some r ∧ hasShapeS s r = true ∧
        flattenS s a = some leaves ∧
        flattenS s r = some (leaves.map f) := by
  intro s
  induction s with
  | nil =>
    intro a ha
    obtain ⟨x, rfl⟩ := (hasShapeS_nil_iff a).1 ha
    exact ⟨.scalar (f x), [x], rfl, rfl, rfl, rfl⟩
  | cons n s' ih =>
    intro a ha
    obtain ⟨xs, rfl, hxlen, hxmem⟩ := (hasShapeS_cons_iff n s' a).1 ha
    have hP := @mapO_forall2 (PyVal α) (PyVal β)
      (fun r t => hasShapeS s' r = true ∧
        ∃ lv, flattenS s' t = some lv ∧ flattenS s' r = some (lv.map f))
      (np_map f s') xs (fun t ht => by
        obtain ⟨r, lv, h1, h2, h3, h4⟩ := ih t (hxmem t ht)
        exact ⟨r, h1, h2, lv, h3, h4⟩)
    obtain ⟨rs, hrs, hF⟩ := hP
    have hrslen : rs.length = n := by
      rw [mapO_length _ _ _ hrs]
      omega
    have hQ := @mapO_forall2 (PyVal α) (List α) (fun lv t => True)
      (flattenS s') xs (fun t ht => by
        obtain ⟨r, _, hr⟩ := forall2_mem_left hF.flip t ht
        obtain ⟨lv, h3, _⟩ := hr.2
        exact ⟨lv, h3, trivial⟩)
    obtain ⟨lvs, hlvs, _⟩ := hQ
    refine ⟨.list rs, lvs.flatten, ?_, ?_, ?_, ?_⟩
    · rw [np_map, if_pos hxlen, hrs]
      rfl
    · rw [hasShapeS_cons_iff]
      refine ⟨rs, rfl, hrslen, ?_⟩
      intro r hr
      obtain ⟨t, _, hp⟩ := forall2_mem_left hF r hr
      exact hp.1
    · rw [flattenS, if_pos hxlen, hlvs]
      rfl
    · rw [flattenS, if_pos (by omega : rs.length = n)]
      have hrw : mapO (flattenS s') rs =
          mapO (fun t => (flattenS s' t).map (List.map f)) xs := by
        refine mapO_eq_mapO_of_forall2 _ _ ?_
        refine hF.imp (fun {r t} hp => ?_)
        obtain ⟨lv, h3, h4⟩ := hp.2
        rw [h3, h4]
        rfl
      rw [hrw, mapO_post_map, hlvs]
      simp

/-- `conditional` under the two backends on a rectangular array of any
shape: the fallback builds a pointwise-selected array of the same shape,
and the accelerated masked writes on the flat element buffer produce
exactly its flattening. -/
theorem py_conditional_eq_np_flat {α : Type} (s : List Nat) (a : PyVal α)
    (cond : α → Bool) (t f : α → α) (fuel : Nat)
    (ha : hasShapeS s a = true) (hfuel : s.length < fuel) :
    ∃ r leaves, py_conditional fuel a cond t f = some r ∧
      hasShapeS s r = true ∧ flattenS s a = some leaves ∧
      flattenS s r =
        some (leaves.map (fun x => if cond x then t x else f x)) ∧
      np_conditional leaves cond (List.map t) (List.map f) =
        some (leaves.map (fun x => if cond x then t x else f x)) := by
  obtain ⟨r, leaves, h1, h2, h3, h4⟩ :=
    np_map_flatten (fun x => if cond x then t x else f x) s a ha
  refine ⟨r, leaves, ?_, h2, h3, h4,
    np_conditional_pointwise leaves cond t f⟩
  rw [py_conditional, py_apply_eq_np_map _ s a fuel ha hfuel]
  exact h1

/-- Reading the transpose back by rows: column `j` of every transposed
column recovers row `j`. -/
theorem cols_map_getD {γ : Type} (dflt : γ) (m : Nat)
    (rows cols : List (List γ)) (hc : colsUpTo m rows = some cols)
    (hlen : ∀ r ∈ rows, r.length = m) (j : Nat) (hj : j < rows.length) :
    cols.map (fun c => c.getD j dflt) = rows.getD j [] := by
  obtain ⟨cols2, hc2, hclen2, hcget2⟩ :=
    colsUpTo_spec dflt m rows (fun r hr => (hlen r hr).ge)
  have hceq : cols = cols2 := Option.some.inj (hc.symm.trans hc2)
  subst hceq
  apply list_eq_of_getD dflt
  · rw [List.length_map, hclen2, hlen _ (getD_mem hj [])]
  · intro i hi
    rw [List.length_map, hclen2] at hi
    rw [getD_map_lt _ _ _ _ [] (by omega : i < cols.length)]
    have h1 := hcget2 i (by omega)
    rw [getElem?_eq_some_getD (by omega : i < cols.length) []] at h1
    rw [Option.some.inj h1, getD_map_lt _ _ _ _ [] hj]

/-- `numpy.concatenate(axis=-1)` of two rectangular arrays is `stack` of
their joined `unstack` pieces — the very recipe the fallback `concat`
follows. -/
theorem np_concat2_eq_stack {α : Type} :
    ∀ (s : List Nat) (m k : Nat) (A B : PyVal α),
      hasShapeS (s ++ [m]) A = true → hasShapeS (s ++ [k]) B = true →
      posShape (s ++ [m]) = true → posShape (s ++ [k]) = true →
      ∃ PA PB, np_unstack (s ++ [m]) A = some PA ∧
        np_unstack (s ++ [k]) B = some PB ∧
        PA.length = m ∧ PB.length = k ∧
        (∀ p ∈ PA, hasShapeS s p = true) ∧
        (∀ p ∈ PB, hasShapeS s p = true) ∧
        np_concat2 s m k A B = np_stack s (PA ++ PB) := by
  intro s
  induction s with
  | nil =>
    intro m k A B hA hB hpm hpk
    simp only [List.nil_append] at hA hB hpm hpk ⊢
    obtain ⟨xs, rfl, hxlen, hxmem⟩ := (hasShapeS_cons_iff m [] A).1 hA
    obtain ⟨ys, rfl, hylen, hymem⟩ := (hasShapeS_cons_iff k [] B).1 hB
    have hm : 0 < m := by
      have := List.all_eq_true.1 hpm m (by simp)
      simpa using this
    have hk : 0 < k := by
      have := List.all_eq_true.1 hpk k (by simp)
      simpa using this
    have hmapx : mapO (fun v => (asScalarO v).map PyVal.scalar) xs =
        some xs := by
      have := mapO_eq_some_of_forall
        (fun v => (asScalarO v).map PyVal.scalar) (fun v => v) xs
        (fun v hv => by
          obtain ⟨x, rfl⟩ := (hasShapeS_nil_iff v).1 (hxmem v hv)
          rfl)
      simpa using this
    have hmapy : mapO (fun v => (asScalarO v).map PyVal.scalar) ys =
        some ys := by
      have := mapO_eq_some_of_forall
        (fun v => (asScalarO v).map PyVal.scalar) (fun v => v) ys
        (fun v hv => by
          obtain ⟨y, rfl⟩ := (hasShapeS_nil_iff v).1 (hymem v hv)
          rfl)
      simpa using this
    refine ⟨xs, ys, ?_, ?_, hxlen, hylen, hxmem, hymem, ?_⟩
    · rw [np_unstack, if_pos ⟨hxlen, by omega⟩]
      exact hmapx
    · rw [np_unstack, if_pos ⟨hylen, by omega⟩]
      exact hmapy
    · rw [np_concat2, if_pos ⟨hxlen, hylen⟩, np_stack,
        if_neg (by
          cases xs with
          | nil => simp at hxlen; omega
          | cons x xr => simp)]
      have hmapxy : mapO (fun v => (asScalarO v).map PyVal.scalar)
          (xs ++ ys) = some (xs ++ ys) := by
        have := mapO_eq_some_of_forall
          (fun v => (asScalarO v).map PyVal.scalar) (fun v => v)
          (xs ++ ys) (fun v hv => by
            rcases List.mem_append.1 hv with hv2 | hv2
            · obtain ⟨x, rfl⟩ := (hasShapeS_nil_iff v).1 (hxmem v hv2)
              rfl
            · obtain ⟨y, rfl⟩ := (hasShapeS_nil_iff v).1 (hymem v hv2)
              rfl)
        simpa using this
      rw [hmapxy]
      rfl
  | cons n s' ih =>
    intro m k A B hA hB hpm hpk
    rw [List.cons_append] at hA hB hpm hpk ⊢
    obtain ⟨as, rfl, haslen, hasmem⟩ :=
      (hasShapeS_cons_iff n (s' ++ [m]) A).1 hA
    obtain ⟨bs, rfl, hbslen, hbsmem⟩ :=
      (hasShapeS_cons_iff n (s' ++ [k]) B).1 hB
    have hn : 0 < n := by
      have := List.all_eq_true.1 hpm n (by simp)
      simpa using this
    have hm : 0 < m := by
      have := List.all_eq_true.1 hpm m (by simp)
      simpa using this
    have hk : 0 < k := by
      have := List.all_eq_true.1 hpk k (by simp)
      simpa using this
    have hpm2 : posShape (s' ++ [m]) = true := by
      simp only [posShape, List.all_eq_true] at hpm ⊢
      intro q hq
      exact hpm q (by simp [hq])
    have hpk2 : posShape (s' ++ [k]) = true := by
      simp only [posShape, List.all_eq_true] at hpk ⊢
      intro q hq
      exact hpk q (by simp [hq])
    have hb0mem : PyVal.list bs ∈ [PyVal.list bs] := by simp
    have hb0sh : hasShapeS (s' ++ [k]) (bs.getD 0 (PyVal.list [])) =
        true := hbsmem _ (getD_mem (by omega) _)
    have ha0sh : hasShapeS (s' ++ [m]) (as.getD 0 (PyVal.list [])) =
        true := hasmem _ (getD_mem (by omega) _)
    have hPa := @mapO_forall2 (PyVal α) (List (PyVal α))
      (fun qa t => qa.length = m ∧ ∀ p ∈ qa, hasShapeS s' p = true)
      (np_unstack (s' ++ [m])) as (fun t ht => by
        obtain ⟨PA', PB', hu1, _, hl1, _, hs1, _, _⟩ :=
          ih m k t (bs.getD 0 (PyVal.list [])) (hasmem t ht) hb0sh
            hpm2 hpk2
        exact ⟨PA', hu1, hl1, hs1⟩)
    obtain ⟨qas, hqas, hFa⟩ := hPa
    have hPb := @mapO_forall2 (PyVal α) (List (PyVal α))
      (fun qb t => qb.length = k ∧ ∀ p ∈ qb, hasShapeS s' p = true)
      (np_unstack (s' ++ [k])) bs (fun t ht => by
        obtain ⟨PA', PB', _, hu2, _, hl2, _, hs2, _⟩ :=
          ih m k (as.getD 0 (PyVal.list [])) t ha0sh (hbsmem t ht)
            hpm2 hpk2
        exact ⟨PB', hu2, hl2, hs2⟩)
    obtain ⟨qbs, hqbs, hFb⟩ := hPb
    have hqaslen : qas.length = n := by
      rw [mapO_length _ _ _ hqas]
      omega
    have hqbslen : qbs.length = n := by
      rw [mapO_length _ _ _ hqbs]
      omega
    have hqalen : ∀ q ∈ qas, q.length = m := by
      intro q hq
      obtain ⟨t, _, hp⟩ := forall2_mem_left hFa q hq
      exact hp.1
    have hqblen : ∀ q ∈ qbs, q.length = k := by
      intro q hq
      obtain ⟨t, _, hp⟩ := forall2_mem_left hFb q hq
      exact hp.1
    have hqash : ∀ q ∈ qas, ∀ p ∈ q, hasShapeS s' p = true := by
      intro q hq
      obtain ⟨t, _, hp⟩ := forall2_mem_left hFa q hq
      exact hp.2
    have hqbsh : ∀ q ∈ qbs, ∀ p ∈ q, hasShapeS s' p = true := by
      intro q hq
      obtain ⟨t, _, hp⟩ := forall2_mem_left hFb q hq
      exact hp.2
    obtain ⟨colsA, hcolsA, hcolsAlen, hcAget⟩ :=
      colsUpTo_spec (PyVal.list []) m qas (fun q hq => (hqalen q hq).ge)
    obtain ⟨colsB, hcolsB, hcolsBlen, hcBget⟩ :=
      colsUpTo_spec (PyVal.list []) k qbs (fun q hq => (hqblen q hq).ge)
    have hcolsAmem : ∀ c ∈ colsA, c.length = n ∧
        ∀ t ∈ c, hasShapeS s' t = true := by
      intro c hc
      obtain ⟨j, hj, hje⟩ := List.getElem_of_mem hc
      have h1 := hcAget j (by omega)
      rw [List.getElem?_eq_getElem hj, hje] at h1
      have h2 := Option.some.inj h1
      subst h2
      refine ⟨by rw [List.length_map]; omega, ?_⟩
      intro t ht
      obtain ⟨q, hq, rfl⟩ := List.mem_map.1 ht
      exact hqash q hq _ (getD_mem (by rw [hqalen q hq]; omega) _)
    have hcolsBmem : ∀ c ∈ colsB, c.length = n ∧
        ∀ t ∈ c, hasShapeS s' t = true := by
      intro c hc
      obtain ⟨j, hj, hje⟩ := List.getElem_of_mem hc
      have h1 := hcBget j (by omega)
      rw [List.getElem?_eq_getElem hj, hje] at h1
      have h2 := Option.some.inj h1
      subst h2
      refine ⟨by rw [List.length_map]; omega, ?_⟩
      intro t ht
      obtain ⟨q, hq, rfl⟩ := List.mem_map.1 ht
      exact hqbsh q hq _ (getD_mem (by rw [hqblen q hq]; omega) _)
    have hunA : np_unstack (n :: (s' ++ [m])) (PyVal.list as) =
        some (colsA.map PyVal.list) := by
      cases hsp : s' ++ [m] with
      | nil => exact absurd hsp (by simp)
      | cons s2 rest =>
        rw [np_unstack, if_pos haslen]
        have hq : (s2 :: rest).getLast (by simp) = m := by
          have h1 : (s2 :: rest).getLast? = some m := by
            rw [← hsp]
            exact List.getLast?_concat _
          rwa [List.getLast?_eq_getLast (s2 :: rest) (by simp),
            Option.some.injEq] at h1
        rw [hq, if_pos (by omega)]
        simp only [Option.bind_eq_bind]
        rw [← hsp, hqas, Option.some_bind, hcolsA, Option.some_bind]
        rfl
    have hunB : np_unstack (n :: (s' ++ [k])) (PyVal.list bs) =
        some (colsB.map PyVal.list) := by
      cases hsp : s' ++ [k] with
      | nil => exact absurd hsp (by simp)
      | cons s2 rest =>
        rw [np_unstack, if_pos hbslen]
        have hq : (s2 :: rest).getLast (by simp) = k := by
          have h1 : (s2 :: rest).getLast? = some k := by
            rw [← hsp]
            exact List.getLast?_concat _
          rwa [List.getLast?_eq_getLast (s2 :: rest) (by simp),
            Option.some.injEq] at h1
        rw [hq, if_pos (by omega)]
        simp only [Option.bind_eq_bind]
        rw [← hsp, hqbs, Option.some_bind, hcolsB, Option.some_bind]
        rfl
    refine ⟨colsA.map PyVal.list, colsB.map PyVal.list, hunA, hunB,
      by rw [List.length_map]; omega, by rw [List.length_map]; omega,
      ?_, ?_, ?_⟩
    · intro p hp
      obtain ⟨c, hc, rfl⟩ := List.mem_map.1 hp
      rw [hasShapeS_cons_iff]
      exact ⟨c, rfl, (hcolsAmem c hc).1, (hcolsAmem c hc).2⟩
    · intro p hp
      obtain ⟨c, hc, rfl⟩ := List.mem_map.1 hp
      rw [hasShapeS_cons_iff]
      exact ⟨c, rfl, (hcolsBmem c hc).1, (hcolsBmem c hc).2⟩
    · rw [np_concat2, if_pos ⟨haslen, hbslen⟩, np_stack,
        if_neg (by
          cases hcA : colsA with
          | nil => rw [hcA] at hcolsAlen; simp at hcolsAlen; omega
          | cons c cr => simp)]
      have hchildren : mapO (fun v => (asListO v).bind
          (fun xs => if xs.length = n then some xs else none))
          (colsA.map PyVal.list ++ colsB.map PyVal.list) =
          some (colsA ++ colsB) := by
        have := mapO_eq_some_of_forall (fun v => (asListO v).bind
          (fun xs => if xs.length = n then some xs else none))
          (fun v => (asListO v).getD [])
          (colsA.map PyVal.list ++ colsB.map PyVal.list)
          (fun v hv => by
            rcases List.mem_append.1 hv with hv2 | hv2
            · obtain ⟨c, hc, rfl⟩ := List.mem_map.1 hv2
              simp [asListO, (hcolsAmem c hc).1]
            · obtain ⟨c, hc, rfl⟩ := List.mem_map.1 hv2
              simp [asListO, (hcolsBmem c hc).1])
        rw [this, List.map_append, List.map_map, List.map_map]
        congr 2
        · have h1 : colsA.map ((fun v => (asListO v).getD []) ∘
              PyVal.list) = colsA.map (fun c => c) :=
            List.map_congr_left (fun c _ => rfl)
          rw [h1]
          simp
        · have h1 : colsB.map ((fun v => (asListO v).getD []) ∘
              PyVal.list) = colsB.map (fun c => c) :=
            List.map_congr_left (fun c _ => rfl)
          rw [h1]
          simp
      simp only [Option.bind_eq_bind]
      rw [hchildren, Option.some_bind]
      obtain ⟨colsS, hcolsS, hcolsSlen, hcSget⟩ :=
        colsUpTo_spec (PyVal.list []) n (colsA ++ colsB)
          (fun r hr => by
            rcases List.mem_append.1 hr with h2 | h2
            · exact ((hcolsAmem r h2).1).ge
            · exact ((hcolsBmem r h2).1).ge)
      rw [hcolsS, Option.some_bind]
      congr 1
      refine mapO_eq_mapO_of_forall2 _ _ ?_
      rw [List.forall₂_iff_get]
      refine ⟨by
        rw [List.length_zip, haslen, hbslen, Nat.min_self, hcolsSlen],
        ?_⟩
      intro j h1 h2
      simp only [List.get_eq_getElem]
      have hjn : j < n := by
        rw [List.length_zip, haslen, hbslen, Nat.min_self] at h1
        omega
      have hja : j < as.length := by omega
      have hjb : j < bs.length := by omega
      have hSj : colsS[j] = qas.getD j [] ++ qbs.getD j [] := by
        have hx := hcSget j hjn
        rw [List.getElem?_eq_getElem h2] at hx
        have hx2 := Option.some.inj hx
        rw [hx2, List.map_append,
          cols_map_getD (PyVal.list []) m qas colsA hcolsA hqalen j
            (by omega),
          cols_map_getD (PyVal.list []) k qbs colsB hcolsB hqblen j
            (by omega)]
      have hzipj : (as.zip bs)[j] = (as[j], bs[j]) :=
        List.getElem_zip
      rw [hzipj, hSj]
      obtain ⟨PAj, PBj, hju1, hju2, _, _, _, _, hjeq⟩ :=
        ih m k as[j] bs[j] (hasmem _ (List.getElem_mem hja))
          (hbsmem _ (List.getElem_mem hjb)) hpm2 hpk2
      have hqaj : np_unstack (s' ++ [m]) as[j] =
          some (qas.getD j []) := by
        obtain ⟨hir, heqj⟩ := mapO_getElem _ _ _ hqas j hja
        rw [List.getD_eq_getElem?_getD,
          List.getElem?_eq_getElem (by omega : j < qas.length)]
        exact heqj
      have hqbj : np_unstack (s' ++ [k]) bs[j] =
          some (qbs.getD j []) := by
        obtain ⟨hir, heqj⟩ := mapO_getElem _ _ _ hqbs j hjb
        rw [List.getD_eq_getElem?_getD,
          List.getElem?_eq_getElem (by omega : j < qbs.length)]
        exact heqj
      have hPAj : PAj = qas.getD j [] :=
        Option.some.inj (hju1.symm.trans hqaj)
      have hPBj : PBj = qbs.getD j [] :=
        Option.some.inj (hju2.symm.trans hqbj)
      rw [hjeq, hPAj, hPBj]

/-- On two rectangular arrays of positive shapes `s ++ [m]` and
`s ++ [k]`, the fallback `concat(a, b)` (unstack both, stack the
concatenated piece lists) agrees with the accelerated `concat`
(`numpy.concatenate` along the trailing axis). -/
theorem py_concat_eq_np {α : Type} (s : List Nat) (m k : Nat)
    (a b : List (PyVal α)) (fuel : Nat)
    (hsa : hasShapeS (s ++ [m]) (PyVal.list a) = true)
    (hsb : hasShapeS (s ++ [k]) (PyVal.list b) = true)
    (hpm : posShape (s ++ [m]) = true)
    (hpk : posShape (s ++ [k]) = true)
    (hfuel : (s ++ [m]).length < fuel) :
    py_concat fuel a b =
      np_concat s [(m, PyVal.list a), (k, PyVal.list b)] := by
  obtain ⟨PA, PB, hu1, hu2, hPAlen, hPBlen, hshA, hshB, heq⟩ :=
    np_concat2_eq_stack s m k (PyVal.list a) (PyVal.list b) hsa hsb hpm hpk
  have hfuel2 : (s ++ [k]).length < fuel := by
    simp only [List.length_append, List.length_cons, List.length_nil]
      at hfuel ⊢
    omega
  have hua : py_unstack fuel a = some PA := by
    rw [py_unstack_eq_np s m a fuel hsa hpm hfuel]
    exact hu1
  have hub : py_unstack fuel b = some PB := by
    rw [py_unstack_eq_np s k b fuel hsb hpk hfuel2]
    exact hu2
  have hstack : py_stack fuel (PA ++ PB) = np_stack s (PA ++ PB) :=
    py_stack_eq_np s fuel (PA ++ PB)
      (fun p hp => by
        rcases List.mem_append.1 hp with h | h
        · exact hshA p h
        · exact hshB p h)
      (by
        simp only [List.length_append, List.length_cons,
          List.length_nil] at hfuel
        omega)
  have hlhs : py_concat fuel a b = np_stack s (PA ++ PB) := by
    rw [py_concat]
    simp only [Option.bind_eq_bind]
    rw [hua, Option.some_bind, hub, Option.some_bind, hstack]
  have hhead : ∀ (t : List Nat), posShape t = true → t ≠ [] →
      (t.headD 0 != 0) = true := by
    intro t hp hne
    cases t with
    | nil => exact absurd rfl hne
    | cons x xs =>
      have hx : 0 < x := by
        simpa using List.all_eq_true.1 hp x (by simp)
      simp only [List.headD_cons, bne_iff_ne, ne_eq]
      omega
  have h1 : ((s ++ [m]).headD 0 != 0) = true := hhead _ hpm (by simp)
  have h2 : ((s ++ [k]).headD 0 != 0) = true := hhead _ hpk (by simp)
  have hfilter : List.filter (fun p => ((s ++ [p.1]).headD 0) != 0)
      [(m, PyVal.list a), (k, PyVal.list b)] =
      [(m, PyVal.list a), (k, PyVal.list b)] := by
    rw [List.filter_eq_self]
    intro p hp
    simp only [List.mem_cons, List.not_mem_nil, or_false] at hp
    rcases hp with rfl | rfl
    · exact h1
    · exact h2
  rw [hlhs, ← heq]
  simp only [np_concat]
  rw [hfilter]
  show np_concat2 s m k (PyVal.list a) (PyVal.list b) =
    (List.foldlM
      (fun acc p =>
        (np_concat2 s acc.1 p.1 acc.2 p.2).map (fun r => (acc.1 + p.1, r)))
      (m, PyVal.list a) [(k, PyVal.list b)]).map Prod.snd
  cases hc : np_concat2 s m k (PyVal.list a) (PyVal.list b) with
  | none => simp [List.foldlM_cons, List.foldlM_nil, hc]
  | some r => simp [List.foldlM_cons, List.foldlM_nil, hc]

/-- When `u` and `vs` have the same length and every entry of `vs` is a
scalar, python `zip(u, vs)` pairs them up exactly. -/
theorem zipScalars_eq_zip {α : Type} :
    ∀ (u : List α) (vs : List (PyVal α)) (ys : List α),
      mapO asScalarO vs = some ys → u.length = vs.length →
      zipScalars u vs = some (u.zip ys) := by
  intro u
  induction u with
  | nil =>
    intro vs ys hm hlen
    have hvs : vs = [] := List.length_eq_zero.1 hlen.symm
    subst hvs
    have hys : ys = [] := by
      rw [mapO] at hm
      exact (Option.some.inj hm).symm
    subst hys
    rfl
  | cons x xs ih =>
    intro vs ys hm hlen
    cases vs with
    | nil => simp at hlen
    | cons v vr =>
      cases v with
      | list l =>
        rw [mapO] at hm
        simp [asScalarO] at hm
      | scalar y =>
        rw [mapO] at hm
        simp only [asScalarO, Option.some_bind] at hm
        cases hvr : mapO asScalarO vr with
        | none => rw [hvr] at hm; simp at hm
        | some ys2 =>
          rw [hvr] at hm
          simp only [Option.map_some'] at hm
          have hys : ys = y :: ys2 := (Option.some.inj hm).symm
          subst hys
          rw [zipScalars, ih vr ys2 hvr (by simpa using hlen)]
          rfl

/-- 1-D `dot_t`: on a rectangular non-empty 1-D `v` of the same length as
`u`, the fallback `sum(x * y for x, y in zip(u, v))` equals the
accelerated `numpy.dot(u, v.T)`. -/
theorem py_dot_t_eq_np_1d {α : Type} (zero : α) (add mul : α → α → α)
    (u : List α) (k : Nat) (vs : List (PyVal α))
    (hsh : hasShapeS [k] (PyVal.list vs) = true)
    (hk : 0 < k) (hu : u.length = k) :
    py_dot_t zero add mul u vs =
      np_dot_t zero add mul u [k] (PyVal.list vs) := by
  obtain ⟨hlen, hall⟩ := (hasShapeS_list_cons_iff k [] vs).1 hsh
  cases vs with
  | nil => simp at hlen; omega
  | cons v vr =>
    obtain ⟨y, rfl⟩ := (hasShapeS_nil_iff v).1 (hall v (by simp))
    have hys : mapO asScalarO (PyVal.scalar y :: vr) =
        some ((PyVal.scalar y :: vr).map
          (fun v2 => (asScalarO v2).getD zero)) :=
      mapO_eq_some_of_forall asScalarO
        (fun v2 => (asScalarO v2).getD zero) (PyVal.scalar y :: vr)
        (fun x hx => by
          obtain ⟨z, rfl⟩ := (hasShapeS_nil_iff x).1 (hall x hx)
          rfl)
    have hL : py_dot_t zero add mul u (PyVal.scalar y :: vr) =
        (zipScalars u (PyVal.scalar y :: vr)).map
          (fun ps => PyVal.scalar (pySum zero add
            (ps.map (fun p => mul p.1 p.2)))) := rfl
    have hR : np_dot_t zero add mul u [k]
          (PyVal.list (PyVal.scalar y :: vr)) =
        if (PyVal.scalar y :: vr).length = k ∧ u.length = k then
          (mapO asScalarO (PyVal.scalar y :: vr)).map (fun ys =>
            PyVal.scalar (pySum zero add
              ((u.zip ys).map (fun p => mul p.1 p.2))))
        else none := rfl
    rw [hL, hR, if_pos ⟨hlen, hu⟩,
      zipScalars_eq_zip u (PyVal.scalar y :: vr) _ hys (by omega), hys]
    rfl

/-- 2-D `dot_t`: on a rectangular non-empty 2-D `v` whose rows have the
same length as `u`, the fallback row-by-row inner product equals the
accelerated `numpy.dot(u, v.T)`. -/
theorem py_dot_t_eq_np_2d {α : Type} (zero : α) (add mul : α → α → α)
    (u : List α) (m k : Nat) (vs : List (PyVal α))
    (hsh : hasShapeS [m, k] (PyVal.list vs) = true)
    (hm : 0 < m) (hu : u.length = k) :
    py_dot_t zero add mul u vs =
      np_dot_t zero add mul u [m, k] (PyVal.list vs) := by
  obtain ⟨hlen, hall⟩ := (hasShapeS_list_cons_iff m [k] vs).1 hsh
  cases vs with
  | nil => simp at hlen; omega
  | cons v vr =>
    obtain ⟨l0, hv0, hl0len, hl0all⟩ :=
      (hasShapeS_cons_iff k [] v).1 (hall v (by simp))
    subst hv0
    have hL : py_dot_t zero add mul u (PyVal.list l0 :: vr) =
        (mapO (fun r => match r with
          | PyVal.scalar _ => none
          | PyVal.list rs => (zipScalars u rs).map
              (fun ps => PyVal.scalar (pySum zero add
                (ps.map (fun p => mul p.1 p.2)))))
          (PyVal.list l0 :: vr)).map PyVal.list := rfl
    have hR : np_dot_t zero add mul u [m, k]
          (PyVal.list (PyVal.list l0 :: vr)) =
        if (PyVal.list l0 :: vr).length = m ∧ u.length = k then
          (mapO (fun r => (asListO r).bind (fun rs =>
            if rs.length = k then
              (mapO asScalarO rs).map (fun ys =>
                PyVal.scalar (pySum zero add
                  ((u.zip ys).map (fun p => mul p.1 p.2))))
            else none)) (PyVal.list l0 :: vr)).map PyVal.list
        else none := rfl
    rw [hL, hR, if_pos ⟨hlen, hu⟩]
    congr 1
    apply mapO_congr
    intro r hr
    obtain ⟨rs, hreq, hrslen, hrsall⟩ :=
      (hasShapeS_cons_iff k [] r).1 (hall r hr)
    subst hreq
    have hys : mapO asScalarO rs =
        some (rs.map (fun v2 => (asScalarO v2).getD zero)) :=
      mapO_eq_some_of_forall asScalarO
        (fun v2 => (asScalarO v2).getD zero) rs
        (fun x hx => by
          obtain ⟨z, rfl⟩ := (hasShapeS_nil_iff x).1 (hrsall x hx)
          rfl)
    show (zipScalars u rs).map
        (fun ps => PyVal.scalar (pySum zero add
          (ps.map (fun p => mul p.1 p.2)))) =
      (asListO (PyVal.list rs)).bind (fun rs2 =>
        if rs2.length = k then
          (mapO asScalarO rs2).map (fun ys =>
            PyVal.scalar (pySum zero add
              ((u.zip ys).map (fun p => mul p.1 p.2))))
        else none)
    rw [zipScalars_eq_zip u rs _ hys (by omega),
      show asListO (PyVal.list rs) = some rs from rfl, Option.some_bind,
      if_pos hrslen, hys]
    rfl

theorem C2_counterexample :
    (np_allclose [1] [1 + 1 / 10 ^ 6] = true ∧
      py_allclose 2 (.list [.scalar 1])
        (.list [.scalar (1 + 1 / 10 ^ 6)]) = false) ∧
    (np_maximum [1] [PyVal.list [PyVal.scalar (1 : Int)]] =
        some (PyVal.list [PyVal.scalar 1]) ∧
      py_maximum 2 [PyVal.list [PyVal.scalar (1 : Int)]] = none) ∧
    (py_dot_t (0 : Int) (fun x y => x + y) (fun x y => x * y) [1, 2]
        [PyVal.scalar 5] = some (PyVal.scalar 5) ∧
      np_dot_t (0 : Int) (fun x y => x + y) (fun x y => x * y) [1, 2] [1]
        (PyVal.list [PyVal.scalar 5]) = none) ∧
    (py_choose 3 (PyVal.list [PyVal.scalar 256])
        [[PyVal.list [PyVal.scalar (7 : Int)]]] = none ∧
      np_choose [1] (PyVal.list [PyVal.scalar 256])
        [[PyVal.list [PyVal.scalar (7 : Int)]]] =
        some [PyVal.list [PyVal.scalar 7]]) := by
  refine ⟨⟨?_, ?_⟩, ⟨rfl, rfl⟩, ⟨rfl, rfl⟩, ⟨rfl, rfl⟩⟩
  · simp only [np_allclose, List.length_cons, List.length_nil,
      List.zip_cons_cons, List.zip_nil_right, List.all_cons, List.all_nil,
      Bool.and_true, Bool.and_eq_true, beq_iff_eq, decide_eq_true_eq]
    refine ⟨trivial, ?_⟩
    rw [show (1 : ℚ) - (1 + 1 / 10 ^ 6) = -(1 / 10 ^ 6) by ring, abs_neg,
      abs_of_nonneg (by norm_num : (0:ℚ) ≤ 1 / 10 ^ 6),
      abs_of_nonneg (by norm_num : (0:ℚ) ≤ 1 + 1 / 10 ^ 6)]
    norm_num
  · show py_allclose (1 + 1) (.list [.scalar 1])
      (.list [.scalar (1 + 1 / 10 ^ 6)]) = false
    simp only [py_allclose]
    simp only [List.length_cons, List.length_nil, List.zip_cons_cons,
      List.zip_nil_right, List.all_cons, List.all_nil, Bool.and_true,
      beq_self_eq_true, Bool.true_and]
    show py_allclose (0 + 1) (.scalar 1) (.scalar (1 + 1 / 10 ^ 6)) = false
    simp only [py_allclose, decide_eq_false_iff_not, not_lt]
    rw [show (1 : ℚ) - (1 + 1 / 10 ^ 6) = -(1 / 10 ^ 6) by ring, abs_neg,
      abs_of_nonneg (by norm_num : (0:ℚ) ≤ 1 / 10 ^ 6)]
    norm_num

/-- C2 (amended): on rectangular arrays with positive dimensions the two
backends agree exactly for the elementwise operations (`sin`, `cos`,
`sqrt`, `floor`, `mod`, `arctan2`, `maximum` and `minimum` of two or more
arguments, and `clip` with ordered thresholds), for `stack`, `unstack`,
`concat`, `conditional` of any rank with elementwise branch functions
(the fallback result flattens to exactly the buffer the accelerated
version computes), n-option `choose` under an index with entries at most
255 and fewer than 256 options, `dot_t` against 1-D and 2-D second
arguments whose rows match the first argument's length, and
`instantiate_elements`; `allclose` is excluded — its tolerances genuinely
differ — as are `vectorized` (the accelerated version ignores `depth`)
and `compose` (the accelerated version does not raise on uncovered
elements); single-argument `maximum`/`minimum`, `dot_t` under a length
mismatch, and `choose` under an index above 255 also genuinely diverge
(see the counterexample). -/
theorem C2_backend_equivalence {α β ε : Type} [LinearOrder α]
    (sinf cosf sqrtf floorf : α → β) (m atan2f : α → α → β)
    (zero : α) (add mul : α → α → α)
    (ne : PyVal α → ε) (s : List Nat) (a b : PyVal α) (fuel : Nat)
    (t0 t1 : α) (cond : α → Bool) (tf ff : α → α)
    (i : PyVal Nat) (o0 : List (PyVal α)) (orest : List (List (PyVal α)))
    (as bs : List (PyVal α)) (k d : Nat) (rest : List (PyVal α))
    (cas cbs : List (PyVal α)) (cm ck : Nat)
    (u1 : List α) (dk : Nat) (dvs : List (PyVal α))
    (u2 : List α) (dm dk2 : Nat) (dvs2 : List (PyVal α))
    (ha : hasShapeS s a = true) (hb : hasShapeS s b = true)
    (hpos : posShape s = true) (hfuel : s.length + 1 < fuel)
    (ht : t0 ≤ t1) (hsha : ∀ x ∈ as, hasShapeS s x = true)
    (hstk : hasShapeS (s ++ [k]) (PyVal.list bs) = true) (hkpos : 0 < k)
    (hrest : ∀ r ∈ rest, hasShapeS s r = true) (hrne : rest ≠ [])
    (hdim : ∀ o ∈ o0 :: orest, o.length = o0.length)
    (hcomp : ∀ o ∈ o0 :: orest, ∀ x ∈ o, hasShapeS s x = true)
    (hi : hasShapeS s i = true) (hle : allLeS s i 255 = true)
    (hcount : (o0 :: orest).length < 256)
    (hd1 : 1 ≤ d) (hd2 : d ≤ s.length)
    (hca : hasShapeS (s ++ [cm]) (PyVal.list cas) = true)
    (hcb : hasShapeS (s ++ [ck]) (PyVal.list cbs) = true)
    (hcm : 0 < cm) (hck : 0 < ck)
    (hdv : hasShapeS [dk] (PyVal.list dvs) = true) (hdk : 0 < dk)
    (hu1 : u1.length = dk)
    (hdv2 : hasShapeS [dm, dk2] (PyVal.list dvs2) = true) (hdm : 0 < dm)
    (hu2 : u2.length = dk2) :
    py_sin sinf fuel a = np_sin sinf s a ∧
    py_cos cosf fuel a = np_cos cosf s a ∧
    py_sqrt sqrtf fuel a = np_sqrt sqrtf s a ∧
    py_floor floorf fuel a = np_floor floorf s a ∧
    py_clip fuel a t0 t1 = np_clip s a t0 t1 ∧
    py_mod m fuel a b = np_mod m s a b ∧
    py_arctan2 atan2f fuel a b = np_arctan2 atan2f s a b ∧
    py_maximum fuel (a :: rest) = np_maximum s (a :: rest) ∧
    py_minimum fuel (a :: rest) = np_minimum s (a :: rest) ∧
    py_stack fuel as = np_stack s as ∧
    py_unstack fuel bs = np_unstack (s ++ [k]) (PyVal.list bs) ∧
    py_concat fuel cas cbs =
      np_concat s [(cm, PyVal.list cas), (ck, PyVal.list cbs)] ∧
    (∃ r leaves, py_conditional fuel a cond tf ff = some r ∧
      hasShapeS s r = true ∧ flattenS s a = some leaves ∧
      flattenS s r =
        some (leaves.map (fun x => if cond x then tf x else ff x)) ∧
      np_conditional leaves cond (List.map tf) (List.map ff) =
        some (leaves.map (fun x => if cond x then tf x else ff x))) ∧
    py_choose fuel i (o0 :: orest) = np_choose s i (o0 :: orest) ∧
    py_dot_t zero add mul u1 dvs =
      np_dot_t zero add mul u1 [dk] (PyVal.list dvs) ∧
    py_dot_t zero add mul u2 dvs2 =
      np_dot_t zero add mul u2 [dm, dk2] (PyVal.list dvs2) ∧
    py_instantiate_elements ne fuel a d =
      np_instantiate_elements ne s a d := by
  have hposk : posShape (s ++ [k]) = true := by
    simp only [posShape, List.all_append, Bool.and_eq_true] at hpos ⊢
    exact ⟨hpos, by simpa using hkpos⟩
  have hposcm : posShape (s ++ [cm]) = true := by
    simp only [posShape, List.all_append, Bool.and_eq_true] at hpos ⊢
    exact ⟨hpos, by simpa using hcm⟩
  have hposck : posShape (s ++ [ck]) = true := by
    simp only [posShape, List.all_append, Bool.and_eq_true] at hpos ⊢
    exact ⟨hpos, by simpa using hck⟩
  have hfl : s.length < fuel := by omega
  refine ⟨?_, ?_, ?_, ?_, ?_, ?_, ?_, ?_, ?_, ?_, ?_, ?_, ?_, ?_, ?_, ?_,
    ?_⟩
  · exact py_apply_eq_np_map sinf s a fuel ha hfl
  · exact py_apply_eq_np_map cosf s a fuel ha hfl
  · exact py_apply_eq_np_map sqrtf s a fuel ha hfl
  · exact py_apply_eq_np_map floorf s a fuel ha hfl
  · rw [py_clip, np_clip,
      py_apply_eq_np_map (fun x => max t0 (min t1 x)) s a fuel ha hfl,
      show (fun x : α => max t0 (min t1 x)) =
        (fun x : α => min t1 (max t0 x)) from
        funext (fun x => clip_formulas_eq t0 t1 x ht)]
  · exact py_apply_n2_eq_np_map2 _ m (fun x y => rfl) s a b fuel ha hb hfl
  · exact py_apply_n2_eq_np_map2 _ atan2f (fun x y => rfl) s a b fuel
      ha hb hfl
  · exact py_maximum_eq_np s a rest fuel ha hrest hrne hfl
  · exact py_minimum_eq_np s a rest fuel ha hrest hrne hfl
  · exact py_stack_eq_np s fuel as hsha hfl
  · exact py_unstack_eq_np s k bs fuel hstk hposk
      (by simp only [List.length_append, List.length_cons,
            List.length_nil]
          omega)
  · exact py_concat_eq_np s cm ck cas cbs fuel hca hcb hposcm hposck
      (by simp only [List.length_append, List.length_cons,
            List.length_nil]
          omega)
  · exact py_conditional_eq_np_flat s a cond tf ff fuel ha hfl
  · exact py_choose_eq_np_choose_n s i o0 orest fuel hdim hcomp hi hle
      hcount hfl
  · exact py_dot_t_eq_np_1d zero add mul u1 dk dvs hdv hdk hu1
  · exact py_dot_t_eq_np_2d zero add mul u2 dm dk2 dvs2 hdv2 hdm hu2
  · exact instantiate_elements_eq ne s a fuel d ha hpos hd1 hd2 hfl

/-- The C2 equivalence at a concrete instance: shape `[2]` arrays of
integers, every hypothesis discharged by computation. -/
theorem C2_backend_equivalence_witness :
    hasShapeS [2] (PyVal.list [PyVal.scalar (1 : Int), PyVal.scalar 2]) =
        true ∧
      hasShapeS [2] (PyVal.list [PyVal.scalar (3 : Int), PyVal.scalar 4]) =
        true ∧
      posShape [2] = true ∧ ([2] : List Nat).length + 1 < 4 ∧
      (0 : Int) ≤ 10 ∧
      (∀ x ∈ [PyVal.list [PyVal.scalar (1 : Int), PyVal.scalar 2],
          PyVal.list [PyVal.scalar (3 : Int), PyVal.scalar 4]],
        hasShapeS [2] x = true) ∧
      hasShapeS ([2] ++ [1])
        (PyVal.list [PyVal.list [PyVal.scalar (5 : Int)],
          PyVal.list [PyVal.scalar 6]]) = true ∧
      0 < 1 ∧
      (∀ r ∈ [PyVal.list [PyVal.scalar (3 : Int), PyVal.scalar 4]],
        hasShapeS [2] r = true) ∧
      ([PyVal.list [PyVal.scalar (3 : Int), PyVal.scalar 4]] :
        List (PyVal Int)) ≠ [] ∧
      (∀ o ∈ [[PyVal.list [PyVal.scalar (1 : Int), PyVal.scalar 2]],
          [PyVal.list [PyVal.scalar (3 : Int), PyVal.scalar 4]]],
        o.length =
          ([PyVal.list [PyVal.scalar (1 : Int), PyVal.scalar 2]] :
            List (PyVal Int)).length) ∧
      (∀ o ∈ [[PyVal.list [PyVal.scalar (1 : Int), PyVal.scalar 2]],
          [PyVal.list [PyVal.scalar (3 : Int), PyVal.scalar 4]]],
        ∀ x ∈ o, hasShapeS [2] x = true) ∧
      hasShapeS [2] (PyVal.list [PyVal.scalar 0, PyVal.scalar 1]) = true ∧
      allLeS [2] (PyVal.list [PyVal.scalar 0, PyVal.scalar 1]) 255 =
        true ∧
      ([[PyVal.list [PyVal.scalar (1 : Int), PyVal.scalar 2]],
        [PyVal.list [PyVal.scalar (3 : Int), PyVal.scalar 4]]] :
        List (List (PyVal Int))).length < 256 ∧
      1 ≤ 1 ∧ 1 ≤ ([2] : List Nat).length ∧
      hasShapeS ([2] ++ [1])
        (PyVal.list [PyVal.list [PyVal.scalar (5 : Int)],
          PyVal.list [PyVal.scalar 6]]) = true ∧
      hasShapeS ([2] ++ [1])
        (PyVal.list [PyVal.list [PyVal.scalar (7 : Int)],
          PyVal.list [PyVal.scalar 8]]) = true ∧
      hasShapeS [2]
        (PyVal.list [PyVal.scalar (3 : Int), PyVal.scalar 4]) = true ∧
      0 < 2 ∧ ([1, 2] : List Int).length = 2 ∧
      hasShapeS [2, 2]
        (PyVal.list [PyVal.list [PyVal.scalar (3 : Int), PyVal.scalar 4],
          PyVal.list [PyVal.scalar 5, PyVal.scalar 6]]) = true ∧
      py_sin (fun x : Int => x + 1) 4
          (PyVal.list [PyVal.scalar 1, PyVal.scalar 2]) =
        np_sin (fun x : Int => x + 1) [2]
          (PyVal.list [PyVal.scalar 1, PyVal.scalar 2]) ∧
      py_choose 4 (PyVal.list [PyVal.scalar 0, PyVal.scalar 1])
          [[PyVal.list [PyVal.scalar (1 : Int), PyVal.scalar 2]],
            [PyVal.list [PyVal.scalar 3, PyVal.scalar 4]]] =
        np_choose [2] (PyVal.list [PyVal.scalar 0, PyVal.scalar 1])
          [[PyVal.list [PyVal.scalar (1 : Int), PyVal.scalar 2]],
            [PyVal.list [PyVal.scalar 3, PyVal.scalar 4]]] :=
  ⟨by decide, by decide, by decide, by decide, by decide, by decide,
    by decide, by decide, by decide, by simp, by decide, by decide,
    by decide, by decide, by decide, by decide, by decide, by decide,
    by decide, by decide, by decide, by decide, by decide,
    (C2_backend_equivalence (fun x : Int => x + 1) (fun x => x - 1)
      (fun x => x) (fun x => x) (fun x y => x + y) (fun x y => x - y)
      0 (fun x y => x + y) (fun x y => x * y)
      (fun v : PyVal Int => v) [2]
      (PyVal.list [PyVal.scalar 1, PyVal.scalar 2])
      (PyVal.list [PyVal.scalar 3, PyVal.scalar 4]) 4 0 10
      (fun x => x % 2 == 0) (fun x => x * 2) (fun x => x)
      (PyVal.list [PyVal.scalar 0, PyVal.scalar 1])
      [PyVal.list [PyVal.scalar 1, PyVal.scalar 2]]
      [[PyVal.list [PyVal.scalar 3, PyVal.scalar 4]]]
      [PyVal.list [PyVal.scalar 1, PyVal.scalar 2],
        PyVal.list [PyVal.scalar 3, PyVal.scalar 4]]
      [PyVal.list [PyVal.scalar 5], PyVal.list [PyVal.scalar 6]] 1 1
      [PyVal.list [PyVal.scalar 3, PyVal.scalar 4]]
      [PyVal.list [PyVal.scalar 5], PyVal.list [PyVal.scalar 6]]
      [PyVal.list [PyVal.scalar 7], PyVal.list [PyVal.scalar 8]] 1 1
      [1, 2] 2 [PyVal.scalar 3, PyVal.scalar 4]
      [1, 2] 2 2
      [PyVal.list [PyVal.scalar 3, PyVal.scalar 4],
        PyVal.list [PyVal.scalar 5, PyVal.scalar 6]]
      (by decide) (by decide) (by decide) (by decide) (by decide)
      (by decide) (by decide) (by decide) (by decide) (by simp)
      (by decide) (by decide) (by decide) (by decide) (by decide)
      (by decide) (by decide) (by decide) (by decide) (by decide)
      (by decide) (by decide) (by decide) (by decide) (by decide)
      (by decide) (by decide)).1,
    (C2_backend_equivalence (fun x : Int => x + 1) (fun x => x - 1)
      (fun x => x) (fun x => x) (fun x y => x + y) (fun x y => x - y)
      0 (fun x y => x + y) (fun x y => x * y)
      (fun v : PyVal Int => v) [2]
      (PyVal.list [PyVal.scalar 1, PyVal.scalar 2])
      (PyVal.list [PyVal.scalar 3, PyVal.scalar 4]) 4 0 10
      (fun x => x % 2 == 0) (fun x => x * 2) (fun x => x)
      (PyVal.list [PyVal.scalar 0, PyVal.scalar 1])
      [PyVal.list [PyVal.scalar 1, PyVal.scalar 2]]
      [[PyVal.list [PyVal.scalar 3, PyVal.scalar 4]]]
      [PyVal.list [PyVal.scalar 1, PyVal.scalar 2],
        PyVal.list [PyVal.scalar 3, PyVal.scalar 4]]
      [PyVal.list [PyVal.scalar 5], PyVal.list [PyVal.scalar 6]] 1 1
      [PyVal.list [PyVal.scalar 3, PyVal.scalar 4]]
      [PyVal.list [PyVal.scalar 5], PyVal.list [PyVal.scalar 6]]
      [PyVal.list [PyVal.scalar 7], PyVal.list [PyVal.scalar 8]] 1 1
      [1, 2] 2 [PyVal.scalar 3, PyVal.scalar 4]
      [1, 2] 2 2
      [PyVal.list [PyVal.scalar 3, PyVal.scalar 4],
        PyVal.list [PyVal.scalar 5, PyVal.scalar 6]]
      (by decide) (by decide) (by decide) (by decide) (by decide)
      (by decide) (by decide) (by decide) (by decide) (by simp)
      (by decide) (by decide) (by decide) (by decide) (by decide)
      (by decide) (by decide) (by decide) (by decide) (by decide)
      (by decide) (by decide) (by decide) (by decide) (by decide)
      (by decide) (by decide)).2.2.2.2.2.2.2.2.2.2.2.2.2.1⟩

end NumpyUtils
